import Mathlib

/-!
Verification of the static-scheduling iteration-space partitioner of
`contrib/libs/cxxsupp/openmp/kmp_sched.cpp`.

The C++ code is templated over four loop-variable types (signed and
unsigned, 32 and 64 bit).  We model a type `T` by a `Domain`: a bit
width and a signedness flag.  Values of `T` are integers in
`[Domain.mn, Domain.mx]`; every assignment to a variable of type `T`
reduces the mathematical value modulo `2 ^ width` into that interval
(`Domain.wrapT`).  The signed companion type `ST` of the same width is
modelled by `Domain.wrapS`, the unsigned companion `UT` by natural
numbers below `2 ^ width` (`Domain.toU` performs the conversion).
Signed C division truncates towards zero and is modelled by `Int.tdiv`;
unsigned division is division of natural numbers.
-/

namespace KmpSched

/-- Integer domain of a loop-variable type `T`: bit width and signedness,
as in the `i_maxmin` trait specializations of `kmp_sched.cpp`. -/
structure Domain where
  width : Nat
  signed : Bool
  width_pos : 0 < width

/-- Number of representable values, `2 ^ width`. -/
def Domain.size (D : Domain) : Int := 2 ^ D.width

/-- Domain minimum sentinel, `i_maxmin<T>::mn`. -/
def Domain.mn (D : Domain) : Int :=
  if D.signed then -(2 ^ (D.width - 1)) else 0

/-- Domain maximum sentinel, `i_maxmin<T>::mx`. -/
def Domain.mx (D : Domain) : Int :=
  if D.signed then 2 ^ (D.width - 1) - 1 else 2 ^ D.width - 1

/-- Reduction of a mathematical integer into the representable range of `T`
(two's-complement wraparound on assignment to a variable of type `T`). -/
def Domain.wrapT (D : Domain) (x : Int) : Int :=
  (x - D.mn) % D.size + D.mn

/-- Wraparound into the signed companion type `ST` of the same width. -/
def Domain.wrapS (D : Domain) (x : Int) : Int :=
  (x + 2 ^ (D.width - 1)) % D.size - 2 ^ (D.width - 1)

/-- Conversion of a value to the unsigned companion type `UT` of the same
width, yielding a natural number below `2 ^ width`. -/
def Domain.toU (D : Domain) (x : Int) : Nat :=
  (x % D.size).toNat

/-- The signed 32-bit domain, loop variable type `kmp_int32`. -/
def i32 : Domain := ⟨32, true, by norm_num⟩

/-- The signed 8-bit domain, used to exercise overflow behaviour on
small concrete inputs. -/
def i8 : Domain := ⟨8, true, by norm_num⟩

/-- The unsigned 8-bit domain. -/
def u8 : Domain := ⟨8, false, by norm_num⟩

/-- The signed domain of the same width: companion type `ST`. -/
def Domain.sdom (D : Domain) : Domain := ⟨D.width, true, D.width_pos⟩

/-- Static scheduling types reaching the partitioning switch:
`kmp_sch_static` and `kmp_sch_static_chunked`. -/
inductive SchedType where
  | static
  | chunked
deriving DecidableEq, Repr

/-- The flavour behind plain static scheduling, the global `__kmp_static`:
`kmp_sch_static_greedy` or `kmp_sch_static_balanced`. -/
inductive Flavor where
  | greedy
  | balanced
deriving DecidableEq, Repr

/-- Conditions routed to `__kmp_error_construct` when the consistency
check is enabled. -/
inductive KmpError where
  | zeroIncrement
  | rangeTooLarge
  | illegalIncr
deriving DecidableEq, Repr

/-- Output of `__kmp_for_static_init`: the in/out parameters
`plower, pupper, pstride, plastiter` on return, plus reported errors. -/
structure KmpResult where
  lower : Int
  upper : Int
  stride : Int
  last : Bool
  errors : List KmpError
deriving DecidableEq, Repr

/-- Output of `__kmp_dist_for_static_init`. -/
structure DistResult where
  lower : Int
  upper : Int
  upperDist : Int
  stride : Int
  last : Bool
  errors : List KmpError
deriving DecidableEq, Repr

/-- Output of `__kmp_team_static_init`. -/
structure TeamResult where
  lower : Int
  upper : Int
  stride : Int
  last : Bool
  errors : List KmpError
deriving DecidableEq, Repr

/-- The zero-trip test of `__kmp_for_static_init`, line 134:
`incr > 0 ? (*pupper < *plower) : (*plower < *pupper)`. -/
def zeroTrip (incr lower upper : Int) : Prop :=
  if 0 < incr then upper < lower else lower < upper

instance (incr lower upper : Int) : Decidable (zeroTrip incr lower upper) := by
  unfold zeroTrip; infer_instance

/-- Stride of the serialized and single-executor fast paths, lines 185 and 214:
`(incr > 0) ? (*pupper - *plower + 1) : (-(*plower - *pupper + 1))`, the
arithmetic performed in `T` and the result stored into the `ST` stride. -/
def serialStride (D : Domain) (lower upper incr : Int) : Int :=
  if 0 < incr then D.wrapS (upper - lower + 1) else D.wrapS (-(lower - upper + 1))

/-- Trip count of `__kmp_for_static_init`, lines 240-250.  For increments
other than plus or minus one the quotient is computed in `T`: signed
division for a signed domain and unsigned division (operands converted
to the unsigned companion) otherwise. -/
def tripCount (D : Domain) (lower upper incr : Int) : Nat :=
  if incr = 1 then D.toU (upper - lower + 1)
  else if incr = -1 then D.toU (lower - upper + 1)
  else if 1 < incr then
    D.toU (Int.tdiv (D.wrapT (upper - lower)) (if D.signed then incr else incr % D.size) + 1)
  else
    D.toU (Int.tdiv (D.wrapT (lower - upper))
      (if D.signed then D.wrapS (-incr) else D.wrapS (-incr) % D.size) + 1)

/-- Trip count of `__kmp_dist_for_static_init` (lines 443-449) and of
`__kmp_team_static_init` (lines 680-686): for increments other than plus
or minus one the difference computed in `T` is cast to the signed type
and divided by `incr` with signed (truncating) division. -/
def distTripCount (D : Domain) (lower upper incr : Int) : Nat :=
  if incr = 1 then D.toU (upper - lower + 1)
  else if incr = -1 then D.toU (lower - upper + 1)
  else D.toU (Int.tdiv (D.wrapS (D.wrapT (upper - lower))) incr + 1)

/-- The `trip_count < nth` branch of `kmp_sch_static` (lines 264-275 of
`__kmp_for_static_init`) and the `trip_count <= nth` thread-level branch
of `__kmp_dist_for_static_init` (lines 521-532): executors with index
below the trip count receive a single iteration, the rest an empty range
below the reference upper bound.  Returns assigned lower and upper
bounds and the raw last-iteration condition `tid == trip_count - 1`. -/
def fewerBranch (D : Domain) (tid : Nat) (lower upper incr : Int) (tc : Nat) :
    Int × Int × Bool :=
  if tid < tc then
    let v := D.wrapT (lower + tid * incr)
    (v, v, decide (tid = D.toU ((tc : Int) - 1)))
  else
    (D.wrapT (upper + incr), upper, decide (tid = D.toU ((tc : Int) - 1)))

/-- The balanced branch (lines 277-283 of `__kmp_for_static_init`, also
lines 468-474 and 534-541 of `__kmp_dist_for_static_init`):
`small_chunk = tc / nth`, `extras = tc % nth`,
`lower += incr * (tid * small_chunk + min tid extras)`,
`upper = lower + small_chunk * incr - (tid < extras ? 0 : incr)`.
Returns assigned bounds and the condition `tid == nth - 1`. -/
def balancedBranch (D : Domain) (tid nth : Nat) (lower incr : Int) (tc : Nat) :
    Int × Int × Bool :=
  let sc : Nat := tc / nth
  let ex : Nat := tc % nth
  let lo := D.wrapT (lower + incr * (tid * sc + min tid ex))
  let up := D.wrapT (lo + sc * incr - (if tid < ex then 0 else incr))
  (lo, up, decide (tid = nth - 1))

/-- The greedy branch (lines 284-307 of `__kmp_for_static_init`, also the
team level at lines 475-506 and the thread level at lines 542-567 of
`__kmp_dist_for_static_init`):
`big_chunk_inc_count = (tc / nth + (tc % nth ? 1 : 0)) * incr` in `T`,
`lower += tid * big_chunk_inc_count`,
`upper = lower + big_chunk_inc_count - incr`, then, by the sign of the
increment: clamp a wrapped upper bound to the domain sentinel, compute
the straddle condition for the last-iteration flag, and clamp the upper
bound to the original upper bound. -/
def greedyBranch (D : Domain) (tid nth : Nat) (lower upper incr : Int) (tc : Nat) :
    Int × Int × Bool :=
  let c : Nat := tc / nth + (if tc % nth = 0 then 0 else 1)
  let big := D.wrapT (c * incr)
  let lo := D.wrapT (lower + tid * big)
  let upRaw := D.wrapT (lo + big - incr)
  if 0 < incr then
    let up1 := if upRaw < lo then D.mx else upRaw
    (lo, if upper < up1 then upper else up1,
      decide (lo ≤ upper ∧ D.wrapT (upper - incr) < up1))
  else
    let up1 := if lo < upRaw then D.mn else upRaw
    (lo, if up1 < upper then upper else up1,
      decide (upper ≤ lo ∧ up1 < D.wrapT (upper - incr)))

/-- The chunked branch (lines 311-324 of `__kmp_for_static_init`, also
lines 571-584 of `__kmp_dist_for_static_init` and the body of
`__kmp_team_static_init`): `chunk = max chunk 1`, `span = chunk * incr`
in `ST`, `stride = span * nth`, `lower += span * tid`,
`upper = lower + span - incr`, last-iteration condition
`tid == ((tc - 1) / (UT) chunk) % nth`.  Returns assigned bounds, the
stride and the condition. -/
def chunkedBranch (D : Domain) (tid nth : Nat) (lower incr chunk : Int) (tc : Nat) :
    Int × Int × Int × Bool :=
  let ch := if chunk < 1 then 1 else chunk
  let span := D.wrapS (ch * incr)
  let stride := D.wrapS (span * nth)
  let lo := D.wrapT (lower + span * tid)
  let up := D.wrapT (lo + span - incr)
  (lo, up, stride, decide (tid = D.toU ((tc : Int) - 1) / D.toU ch % nth))

/-- Shallow embedding of `__kmp_for_static_init` (lines 73-369).  The
caller-visible in/out parameters are explicit: `tid` and `nth` are the
executor index and count resolved by the caller, `serialized` is the
team's serialized flag, `strideIn` is the incoming value of `*pstride`
(left unchanged by the plain static branch), `check` enables the
consistency-check collaborator whose reports are collected in
`errors`. -/
def forStaticInit (D : Domain) (flavor : Flavor) (check serialized : Bool)
    (sched : SchedType) (tid nth : Nat) (lower upper strideIn incr chunk : Int) :
    KmpResult :=
  let errs0 := if check = true ∧ incr = 0 then [KmpError.zeroIncrement] else []
  if zeroTrip incr lower upper then
    ⟨lower, upper, incr, false, errs0⟩
  else if serialized = true ∨ nth = 1 then
    ⟨lower, upper, serialStride D lower upper incr, true, errs0⟩
  else
    let tc := tripCount D lower upper incr
    let errs := errs0 ++
      (if check = true ∧ tc = 0 ∧ upper ≠ lower then [KmpError.rangeTooLarge] else [])
    match sched with
    | SchedType.static =>
      if tc < nth then
        let r := fewerBranch D tid lower upper incr tc
        ⟨r.1, r.2.1, strideIn, r.2.2, errs⟩
      else
        match flavor with
        | Flavor.balanced =>
          let r := balancedBranch D tid nth lower incr tc
          ⟨r.1, r.2.1, strideIn, r.2.2, errs⟩
        | Flavor.greedy =>
          let r := greedyBranch D tid nth lower upper incr tc
          ⟨r.1, r.2.1, strideIn, r.2.2, errs⟩
    | SchedType.chunked =>
      let r := chunkedBranch D tid nth lower incr chunk tc
      ⟨r.1, r.2.1, r.2.2.1, r.2.2.2, errs⟩

/-- Thread-level phase of `__kmp_dist_for_static_init` (lines 508-588):
recompute the trip count over the team's sub-range
`[lo1, upD]` and partition it over the team's threads; the incoming
global upper bound `upperG` is the resting value of `*pupper` used by
the empty assignment of the fewer-iterations branch; the team-level
last-iteration candidacy `lastTeam` is anded with the thread-level
condition. -/
def distThreadPhase (D : Domain) (flavor : Flavor) (sched : SchedType)
    (tid nth : Nat) (lo1 upperG upD stride0 incr chunk : Int)
    (lastTeam : Bool) (errs : List KmpError) : DistResult :=
  let tcL := distTripCount D lo1 upD incr
  match sched with
  | SchedType.static =>
    if tcL ≤ nth then
      let r := fewerBranch D tid lo1 upperG incr tcL
      ⟨r.1, r.2.1, upD, stride0, lastTeam && r.2.2, errs⟩
    else
      match flavor with
      | Flavor.balanced =>
        let r := balancedBranch D tid nth lo1 incr tcL
        ⟨r.1, r.2.1, upD, stride0, lastTeam && r.2.2, errs⟩
      | Flavor.greedy =>
        let r := greedyBranch D tid nth lo1 upD incr tcL
        ⟨r.1, r.2.1, upD, stride0, lastTeam && r.2.2, errs⟩
  | SchedType.chunked =>
    let r := chunkedBranch D tid nth lo1 incr chunk tcL
    ⟨r.1, r.2.1, upD, r.2.2.1, lastTeam && r.2.2.2, errs⟩

/-- Shallow embedding of `__kmp_dist_for_static_init` (lines 371-606).
`team_id` and `nteams` identify the team inside the league, `tid` and
`nth` the thread inside the team; all four are caller-resolved.  The
function performs no zero-trip early return: an illegal range is
reported when the check is enabled and computation proceeds. -/
def distForStaticInit (D : Domain) (flavor : Flavor) (check : Bool)
    (sched : SchedType) (tid nth team_id nteams : Nat)
    (lower upper incr chunk : Int) : DistResult :=
  let errs :=
    (if check = true ∧ incr = 0 then [KmpError.zeroIncrement] else []) ++
    (if check = true ∧ zeroTrip incr lower upper then [KmpError.illegalIncr] else [])
  let tc := distTripCount D lower upper incr
  let stride0 := D.wrapS (upper - lower)
  if tc ≤ nteams then
    if team_id < tc ∧ tid = 0 then
      let v := D.wrapT (lower + team_id * incr)
      ⟨v, v, v, stride0, decide (tid = 0 ∧ team_id = D.toU ((tc : Int) - 1)), errs⟩
    else
      ⟨D.wrapT (upper + incr), upper, upper, stride0,
        decide (tid = 0 ∧ team_id = D.toU ((tc : Int) - 1)), errs⟩
  else
    match flavor with
    | Flavor.balanced =>
      let r := balancedBranch D team_id nteams lower incr tc
      distThreadPhase D flavor sched tid nth r.1 upper r.2.1 stride0 incr chunk r.2.2 errs
    | Flavor.greedy =>
      let r := greedyBranch D team_id nteams lower upper incr tc
      if (if 0 < incr then r.2.1 < r.1 else r.1 < r.2.1) then
        ⟨r.1, r.2.1, r.2.1, stride0, r.2.2, errs⟩
      else
        distThreadPhase D flavor sched tid nth r.1 upper r.2.1 stride0 incr chunk r.2.2 errs

/-- Shallow embedding of `__kmp_team_static_init` (lines 608-719): the
chunked formula at team granularity followed by the upper-bound
correction against the domain sentinel and the original upper bound.
The last-iteration flag is computed before the correction. -/
def teamStaticInit (D : Domain) (check : Bool) (team_id nteams : Nat)
    (lower upper incr chunk : Int) : TeamResult :=
  let errs :=
    (if check = true ∧ incr = 0 then [KmpError.zeroIncrement] else []) ++
    (if check = true ∧ zeroTrip incr lower upper then [KmpError.illegalIncr] else [])
  let tc := distTripCount D lower upper incr
  let r := chunkedBranch D team_id nteams lower incr chunk tc
  let up :=
    if 0 < incr then
      let u1 := if r.2.1 < r.1 then D.mx else r.2.1
      if upper < u1 then upper else u1
    else
      let u1 := if r.1 < r.2.1 then D.mn else r.2.1
      if u1 < upper then upper else u1
  ⟨r.1, up, r.2.2.1, r.2.2.2, errs⟩

/-- Team-level last-iteration candidacy of `__kmp_dist_for_static_init`
when the trip count exceeds the team count (lines 468-506): the raw
last-iteration condition of the team-level balanced or greedy split. -/
def distTeamLastCand (D : Domain) (flavor : Flavor) (team_id nteams : Nat)
    (lower upper incr : Int) : Bool :=
  match flavor with
  | Flavor.balanced =>
      (balancedBranch D team_id nteams lower incr (distTripCount D lower upper incr)).2.2
  | Flavor.greedy =>
      (greedyBranch D team_id nteams lower upper incr (distTripCount D lower upper incr)).2.2

/-- Sub-range `[*plower, *pupperDist]` a team receives from the team-level
split of `__kmp_dist_for_static_init` when the trip count exceeds the
team count. -/
def distTeamRange (D : Domain) (flavor : Flavor) (team_id nteams : Nat)
    (lower upper incr : Int) : Int × Int :=
  match flavor with
  | Flavor.balanced =>
      ((balancedBranch D team_id nteams lower incr (distTripCount D lower upper incr)).1,
       (balancedBranch D team_id nteams lower incr (distTripCount D lower upper incr)).2.1)
  | Flavor.greedy =>
      ((greedyBranch D team_id nteams lower upper incr (distTripCount D lower upper incr)).1,
       (greedyBranch D team_id nteams lower upper incr (distTripCount D lower upper incr)).2.1)

/-- Thread-level last-iteration condition of the thread phase of
`__kmp_dist_for_static_init` (lines 508-588) over the team sub-range
`[lo1, upD]`: the raw per-branch condition that is anded with the
team-level candidacy to produce the final flag. -/
def distThreadLastCond (D : Domain) (flavor : Flavor) (sched : SchedType)
    (tid nth : Nat) (lo1 upD incr chunk : Int) : Bool :=
  let tcL := distTripCount D lo1 upD incr
  match sched with
  | SchedType.static =>
    if tcL ≤ nth then decide (tid = D.toU ((tcL : Int) - 1))
    else
      match flavor with
      | Flavor.balanced => (balancedBranch D tid nth lo1 incr tcL).2.2
      | Flavor.greedy => (greedyBranch D tid nth lo1 upD incr tcL).2.2
  | SchedType.chunked => (chunkedBranch D tid nth lo1 incr chunk tcL).2.2.2

/-- Divisors of the divisions and modulus operations performed while
computing `tripCount`, in evaluation order. -/
def tripDivisors (D : Domain) (incr : Int) : List Int :=
  if incr = 1 then []
  else if incr = -1 then []
  else if 1 < incr then [if D.signed then incr else incr % D.size]
  else [if D.signed then D.wrapS (-incr) else D.wrapS (-incr) % D.size]

/-- Divisors of the divisions performed while computing `distTripCount`. -/
def distTripDivisors (incr : Int) : List Int :=
  if incr = 1 then [] else if incr = -1 then [] else [incr]

/-- Divisors of every division and modulus performed by
`__kmp_for_static_init`, mirroring its control flow: the trip-count
division, then either the two divisions by the executor count of the
balanced and greedy branches, or the division by the clamped chunk and
the modulus by the executor count of the chunked branch. -/
def forStaticDivisors (D : Domain) (serialized : Bool) (sched : SchedType)
    (nth : Nat) (lower upper incr chunk : Int) : List Int :=
  if zeroTrip incr lower upper then []
  else if serialized = true ∨ nth = 1 then []
  else
    tripDivisors D incr ++
      match sched with
      | SchedType.static =>
        if tripCount D lower upper incr < nth then []
        else [(nth : Int), (nth : Int)]
      | SchedType.chunked =>
        [(D.toU (if chunk < 1 then 1 else chunk) : Int), (nth : Int)]

/-- Divisors of the divisions and modulus operations performed by the
thread-level phase of `__kmp_dist_for_static_init` over a team sub-range
`[lo1, upD]`. -/
def distThreadDivisors (D : Domain) (sched : SchedType) (nth : Nat)
    (lo1 upD incr chunk : Int) : List Int :=
  distTripDivisors incr ++
    match sched with
    | SchedType.static =>
      if distTripCount D lo1 upD incr ≤ nth then []
      else [(nth : Int), (nth : Int)]
    | SchedType.chunked =>
      [(D.toU (if chunk < 1 then 1 else chunk) : Int), (nth : Int)]

/-- Divisors of every division and modulus performed by
`__kmp_dist_for_static_init`, mirroring its control flow: the global
trip-count division, then for more trips than teams the two divisions
by the team count, then, unless a greedy team came out empty, the local
trip-count division and the thread-level divisors. -/
def distDivisors (D : Domain) (flavor : Flavor) (sched : SchedType)
    (nth team_id nteams : Nat) (lower upper incr chunk : Int) : List Int :=
  let tc := distTripCount D lower upper incr
  distTripDivisors incr ++
    (if tc ≤ nteams then []
     else
       [(nteams : Int), (nteams : Int)] ++
         match flavor with
         | Flavor.balanced =>
           let r := balancedBranch D team_id nteams lower incr tc
           distThreadDivisors D sched nth r.1 r.2.1 incr chunk
         | Flavor.greedy =>
           let r := greedyBranch D team_id nteams lower upper incr tc
           if (if 0 < incr then r.2.1 < r.1 else r.1 < r.2.1) then []
           else distThreadDivisors D sched nth r.1 r.2.1 incr chunk)

/-- Divisors of every division and modulus performed by
`__kmp_team_static_init`: the trip-count division, the division by the
clamped chunk and the modulus by the team count. -/
def teamDivisors (D : Domain) (nteams : Nat) (incr chunk : Int) : List Int :=
  distTripDivisors incr ++
    [(D.toU (if chunk < 1 then 1 else chunk) : Int), (nteams : Int)]

/-- Membership of a value in the set of iteration points an executor
visits when running its assigned range from `lower` in steps of a
positive increment. -/
def memAssign (r : KmpResult) (incr x : Int) : Prop :=
  r.lower ≤ x ∧ x ≤ r.upper ∧ incr ∣ (x - r.lower)

instance (r : KmpResult) (incr x : Int) : Decidable (memAssign r incr x) := by
  unfold memAssign
  infer_instance

/-- Index of the first iteration a balanced executor receives. -/
def bStart (tid nth tc : Nat) : Nat :=
  tid * (tc / nth) + min tid (tc % nth)

/-- Number of iterations a balanced executor receives. -/
def bSize (tid nth tc : Nat) : Nat :=
  tc / nth + (if tid < tc % nth then 1 else 0)

/-- The greedy chunk size, `trip_count / nth + (trip_count % nth ? 1 : 0)`:
the trip count divided by the executor count, rounded up. -/
def gChunk (tc nth : Nat) : Nat :=
  tc / nth + (if tc % nth = 0 then 0 else 1)

/-- Errors reported by `__kmp_for_static_init` past the zero-trip test. -/
def staticErrs (D : Domain) (check : Bool) (lower upper incr : Int) : List KmpError :=
  (if check = true ∧ incr = 0 then [KmpError.zeroIncrement] else []) ++
    (if check = true ∧ tripCount D lower upper incr = 0 ∧ upper ≠ lower then
      [KmpError.rangeTooLarge] else [])

/-- Legality of an upward iteration space: bounds inside the domain, a
positive increment valid for the signed companion type, and a range
whose width is representable. -/
def LegalPos (D : Domain) (lower upper incr : Int) : Prop :=
  D.mn ≤ lower ∧ upper ≤ D.mx ∧ 0 < incr ∧ incr < 2 ^ (D.width - 1) ∧
    lower ≤ upper ∧ upper - lower ≤ D.mx ∧ upper - lower + 1 < D.size

/-- Legality of a downward iteration space. -/
def LegalNeg (D : Domain) (lower upper incr : Int) : Prop :=
  D.mn ≤ upper ∧ lower ≤ D.mx ∧ incr < 0 ∧ -(2 ^ (D.width - 1)) < incr ∧
    upper ≤ lower ∧ lower - upper ≤ D.mx ∧ lower - upper + 1 < D.size

instance (D : Domain) (lower upper incr : Int) : Decidable (LegalPos D lower upper incr) := by
  unfold LegalPos
  infer_instance

instance (D : Domain) (lower upper incr : Int) : Decidable (LegalNeg D lower upper incr) := by
  unfold LegalNeg
  infer_instance

theorem Domain.size_pos (D : Domain) : 0 < D.size := by
  unfold Domain.size; positivity

theorem Domain.two_pow_pred (D : Domain) : 2 ^ (D.width - 1) * 2 = (2 : Int) ^ D.width := by
  rw [← pow_succ]
  congr 1
  exact Nat.succ_pred_eq_of_pos D.width_pos

theorem Domain.mn_add_size (D : Domain) : D.mn + D.size = D.mx + 1 := by
  have h := D.two_pow_pred
  unfold Domain.mn Domain.mx Domain.size
  cases hs : D.signed <;> simp only [if_true, if_false, Bool.false_eq_true] <;> omega

theorem Domain.mn_nonpos (D : Domain) : D.mn ≤ 0 := by
  have h1 : (0 : Int) < 2 ^ (D.width - 1) := by positivity
  unfold Domain.mn
  cases D.signed <;> simp only [if_true, if_false, Bool.false_eq_true] <;> omega

theorem Domain.mx_nonneg (D : Domain) : 0 ≤ D.mx := by
  have h1 : (0 : Int) < 2 ^ (D.width - 1) := by positivity
  have h2 : (0 : Int) < 2 ^ D.width := by positivity
  unfold Domain.mx
  cases D.signed <;> simp only [if_true, if_false, Bool.false_eq_true] <;> omega

theorem Domain.wrapT_eq_self (D : Domain) {x : Int} (h1 : D.mn ≤ x) (h2 : x ≤ D.mx) :
    D.wrapT x = x := by
  have hs := D.mn_add_size
  unfold Domain.wrapT
  rw [Int.emod_eq_of_lt (by omega) (by omega)]
  ring

theorem Domain.wrapT_lb (D : Domain) (x : Int) : D.mn ≤ D.wrapT x := by
  have := Int.emod_nonneg (x - D.mn) (ne_of_gt D.size_pos)
  unfold Domain.wrapT
  omega

theorem Domain.wrapT_ub (D : Domain) (x : Int) : D.wrapT x ≤ D.mx := by
  have h1 := Int.emod_lt_of_pos (x - D.mn) D.size_pos
  have h2 := D.mn_add_size
  unfold Domain.wrapT
  omega

theorem Domain.wrapT_emod (D : Domain) (x : Int) : D.wrapT x % D.size = x % D.size := by
  unfold Domain.wrapT
  conv_rhs => rw [show x = x - D.mn + D.mn by ring]
  rw [Int.add_emod (x - D.mn) D.mn, Int.add_emod ((x - D.mn) % D.size) D.mn,
    Int.emod_emod_of_dvd _ dvd_rfl]

theorem Domain.wrapT_congr (D : Domain) {x y : Int} (h : x % D.size = y % D.size) :
    D.wrapT x = D.wrapT y := by
  unfold Domain.wrapT
  rw [Int.sub_emod x D.mn, Int.sub_emod y D.mn, h]

theorem Domain.wrapT_eq_sub_size (D : Domain) {x : Int} (h1 : D.mx < x)
    (h2 : x ≤ D.mx + D.size) : D.wrapT x = x - D.size := by
  have hs := D.mn_add_size
  have hcongr : D.wrapT x = D.wrapT (x - D.size) := by
    apply D.wrapT_congr
    conv_lhs => rw [show x = x - D.size + D.size * 1 by ring]
    rw [Int.add_mul_emod_self_left]
  rw [hcongr, D.wrapT_eq_self (by omega) (by omega)]

theorem Domain.wrapT_eq_add_size (D : Domain) {x : Int} (h1 : x < D.mn)
    (h2 : D.mn - D.size ≤ x) : D.wrapT x = x + D.size := by
  have hs := D.mn_add_size
  have hcongr : D.wrapT x = D.wrapT (x + D.size) := by
    apply D.wrapT_congr
    conv_lhs => rw [show x = x + D.size + D.size * (-1) by ring]
    rw [Int.add_mul_emod_self_left]
  rw [hcongr, D.wrapT_eq_self (by omega) (by omega)]

theorem Domain.wrapS_eq_sdom_wrapT (D : Domain) (x : Int) :
    D.wrapS x = D.sdom.wrapT x := by
  unfold Domain.wrapS Domain.wrapT Domain.sdom Domain.mn Domain.size
  simp only [if_true]
  ring_nf

theorem Domain.sdom_size (D : Domain) : D.sdom.size = D.size := rfl

theorem Domain.wrapS_eq_self (D : Domain) {x : Int} (h1 : -(2 ^ (D.width - 1)) ≤ x)
    (h2 : x < 2 ^ (D.width - 1)) : D.wrapS x = x := by
  rw [D.wrapS_eq_sdom_wrapT]
  exact D.sdom.wrapT_eq_self (by unfold Domain.sdom Domain.mn; simpa using h1)
    (by unfold Domain.sdom Domain.mx; simp; omega)

theorem Domain.wrapS_emod (D : Domain) (x : Int) : D.wrapS x % D.size = x % D.size := by
  rw [D.wrapS_eq_sdom_wrapT, ← D.sdom_size]
  exact D.sdom.wrapT_emod x

theorem Domain.toU_coe (D : Domain) (n : Nat) (h : (n : Int) < D.size) :
    D.toU n = n := by
  unfold Domain.toU
  rw [Int.emod_eq_of_lt (by positivity) h]
  exact Int.toNat_natCast n

theorem Domain.toU_eq (D : Domain) {x : Int} (h1 : 0 ≤ x) (h2 : x < D.size) :
    (D.toU x : Int) = x := by
  unfold Domain.toU
  rw [Int.emod_eq_of_lt h1 h2]
  exact Int.toNat_of_nonneg h1

theorem Domain.toU_congr (D : Domain) {x y : Int} (h : x % D.size = y % D.size) :
    D.toU x = D.toU y := by
  unfold Domain.toU
  rw [h]

theorem Int.tdiv_coe (a b : Nat) : Int.tdiv (a : Int) (b : Int) = ((a / b : Nat) : Int) := rfl

theorem Domain.wrapS_wrapT (D : Domain) (x : Int) : D.wrapS (D.wrapT x) = D.wrapS x := by
  rw [D.wrapS_eq_sdom_wrapT, D.wrapS_eq_sdom_wrapT]
  exact D.sdom.wrapT_congr (by rw [D.sdom_size]; exact D.wrapT_emod x)

theorem Domain.mx_lt_size (D : Domain) : D.mx < D.size := by
  have h1 := D.mn_add_size
  have h2 := D.mn_nonpos
  omega

theorem Domain.half_lt_size (D : Domain) : 2 ^ (D.width - 1) < D.size := by
  have h := D.two_pow_pred
  have h1 : (0 : Int) < 2 ^ (D.width - 1) := by positivity
  unfold Domain.size
  omega

/-- Characterization of `tripCount` for a positive increment on a legal,
not maximal, range: it is the mathematical trip count
`(upper - lower) / incr + 1`. -/
theorem tripCount_pos_char (D : Domain) {lower upper incr : Int}
    (h1 : 0 ≤ upper - lower) (h2 : upper - lower ≤ D.mx)
    (h3 : upper - lower + 1 < D.size) (h4 : 0 < incr) (h5 : incr < D.size) :
    tripCount D lower upper incr = (upper - lower).toNat / incr.toNat + 1 := by
  have hmn := D.mn_nonpos
  have hsz := D.size_pos
  have hmx := D.mx_lt_size
  unfold tripCount
  by_cases hone : incr = 1
  · rw [if_pos hone]
    subst hone
    simp only [Int.toNat_one, Nat.div_one]
    unfold Domain.toU
    rw [Int.emod_eq_of_lt (by omega) (by omega)]
    omega
  · rw [if_neg hone, if_neg (by omega), if_pos (by omega)]
    have hdividend : D.wrapT (upper - lower) = upper - lower :=
      D.wrapT_eq_self (by omega) h2
    have hdivisor : (if D.signed then incr else incr % D.size) = incr := by
      rcases D.signed with _ | _
      · simp only [Bool.false_eq_true, if_false]
        exact Int.emod_eq_of_lt (by omega) h5
      · simp
    rw [hdividend, hdivisor]
    have key : Int.tdiv (upper - lower) incr
        = (((upper - lower).toNat / incr.toNat : Nat) : Int) := by
      conv_lhs => rw [(Int.toNat_of_nonneg h1).symm, (Int.toNat_of_nonneg (le_of_lt h4)).symm]
      exact Int.tdiv_coe _ _
    rw [key]
    have hqle : ((upper - lower).toNat / incr.toNat : Nat) ≤ (upper - lower).toNat :=
      Nat.div_le_self _ _
    unfold Domain.toU
    generalize hq : (upper - lower).toNat / incr.toNat = q at hqle ⊢
    rw [Int.emod_eq_of_lt (by positivity) (by omega)]
    omega

/-- Characterization of `tripCount` for a negative increment. -/
theorem tripCount_neg_char (D : Domain) {lower upper incr : Int}
    (h1 : 0 ≤ lower - upper) (h2 : lower - upper ≤ D.mx)
    (h3 : lower - upper + 1 < D.size) (h4 : incr < 0)
    (h5 : -(2 ^ (D.width - 1)) < incr) :
    tripCount D lower upper incr = (lower - upper).toNat / (-incr).toNat + 1 := by
  have hmn := D.mn_nonpos
  have hsz := D.size_pos
  have hmx := D.mx_lt_size
  have hhalf := D.half_lt_size
  unfold tripCount
  by_cases hone : incr = -1
  · rw [if_neg (by omega), if_pos hone]
    subst hone
    simp only [neg_neg, Int.toNat_one, Nat.div_one]
    unfold Domain.toU
    rw [Int.emod_eq_of_lt (by omega) (by omega)]
    omega
  · rw [if_neg (by omega), if_neg hone, if_neg (by omega)]
    have hdividend : D.wrapT (lower - upper) = lower - upper :=
      D.wrapT_eq_self (by omega) h2
    have hws : D.wrapS (-incr) = -incr := D.wrapS_eq_self (by omega) (by omega)
    have hdivisor : (if D.signed then D.wrapS (-incr) else D.wrapS (-incr) % D.size) = -incr := by
      rcases D.signed with _ | _
      · simp only [Bool.false_eq_true, if_false]
        rw [hws]
        exact Int.emod_eq_of_lt (by omega) (by omega)
      · simpa using hws
    rw [hdividend, hdivisor]
    have key : Int.tdiv (lower - upper) (-incr)
        = (((lower - upper).toNat / (-incr).toNat : Nat) : Int) := by
      conv_lhs => rw [(Int.toNat_of_nonneg h1).symm, (Int.toNat_of_nonneg (by omega : (0:Int) ≤ -incr)).symm]
      exact Int.tdiv_coe _ _
    rw [key]
    have hqle : ((lower - upper).toNat / (-incr).toNat : Nat) ≤ (lower - upper).toNat :=
      Nat.div_le_self _ _
    unfold Domain.toU
    generalize hq : (lower - upper).toNat / (-incr).toNat = q at hqle ⊢
    rw [Int.emod_eq_of_lt (by positivity) (by omega)]
    omega

/-- Characterization of `distTripCount` for a positive increment when the
range width fits the signed companion type. -/
theorem distTripCount_pos_char (D : Domain) {lower upper incr : Int}
    (h1 : 0 ≤ upper - lower) (h2 : upper - lower < 2 ^ (D.width - 1)) (h4 : 0 < incr) :
    distTripCount D lower upper incr = (upper - lower).toNat / incr.toNat + 1 := by
  have hmn := D.mn_nonpos
  have hsz := D.size_pos
  have hhalf := D.half_lt_size
  have hmx := D.mx_lt_size
  have hmxe := D.mn_add_size
  unfold distTripCount
  by_cases hone : incr = 1
  · rw [if_pos hone]
    subst hone
    simp only [Int.toNat_one, Nat.div_one]
    unfold Domain.toU
    rw [Int.emod_eq_of_lt (by omega) (by omega)]
    omega
  · rw [if_neg hone, if_neg (by omega)]
    have hd : D.wrapS (D.wrapT (upper - lower)) = upper - lower := by
      rw [D.wrapS_wrapT]
      exact D.wrapS_eq_self (by omega) h2
    rw [hd]
    have key : Int.tdiv (upper - lower) incr
        = (((upper - lower).toNat / incr.toNat : Nat) : Int) := by
      conv_lhs => rw [(Int.toNat_of_nonneg h1).symm, (Int.toNat_of_nonneg (le_of_lt h4)).symm]
      exact Int.tdiv_coe _ _
    rw [key]
    have hqle : ((upper - lower).toNat / incr.toNat : Nat) ≤ (upper - lower).toNat :=
      Nat.div_le_self _ _
    unfold Domain.toU
    generalize hq : (upper - lower).toNat / incr.toNat = q at hqle ⊢
    rw [Int.emod_eq_of_lt (by positivity) (by omega)]
    omega

/-- Characterization of `distTripCount` for a negative increment when the
range width fits the signed companion type. -/
theorem distTripCount_neg_char (D : Domain) {lower upper incr : Int}
    (h1 : 0 ≤ lower - upper) (h2 : lower - upper < 2 ^ (D.width - 1)) (h4 : incr < 0) :
    distTripCount D lower upper incr = (lower - upper).toNat / (-incr).toNat + 1 := by
  have hmn := D.mn_nonpos
  have hsz := D.size_pos
  have hhalf := D.half_lt_size
  have hmx := D.mx_lt_size
  have hmxe := D.mn_add_size
  unfold distTripCount
  by_cases hone : incr = -1
  · rw [if_neg (by omega), if_pos hone]
    subst hone
    simp only [neg_neg, Int.toNat_one, Nat.div_one]
    unfold Domain.toU
    rw [Int.emod_eq_of_lt (by omega) (by omega)]
    omega
  · rw [if_neg (by omega), if_neg hone]
    have hd : D.wrapS (D.wrapT (upper - lower)) = upper - lower := by
      rw [D.wrapS_wrapT]
      exact D.wrapS_eq_self (by omega) (by omega)
    rw [hd]
    have hneg : Int.tdiv (upper - lower) incr = Int.tdiv (lower - upper) (-incr) := by
      rw [show upper - lower = -(lower - upper) by ring, Int.neg_tdiv, Int.tdiv_neg]
    rw [hneg]
    have key : Int.tdiv (lower - upper) (-incr)
        = (((lower - upper).toNat / (-incr).toNat : Nat) : Int) := by
      conv_lhs => rw [(Int.toNat_of_nonneg h1).symm, (Int.toNat_of_nonneg (by omega : (0:Int) ≤ -incr)).symm]
      exact Int.tdiv_coe _ _
    rw [key]
    have hqle : ((lower - upper).toNat / (-incr).toNat : Nat) ≤ (lower - upper).toNat :=
      Nat.div_le_self _ _
    unfold Domain.toU
    generalize hq : (lower - upper).toNat / (-incr).toNat = q at hqle ⊢
    rw [Int.emod_eq_of_lt (by positivity) (by omega)]
    omega

theorem Domain.wrapT_congr_modEq (D : Domain) {x y : Int} (h : Int.ModEq D.size x y) :
    D.wrapT x = D.wrapT y :=
  D.wrapT_congr h

theorem Domain.wrapT_modEq (D : Domain) (x : Int) : Int.ModEq D.size (D.wrapT x) x :=
  D.wrapT_emod x

theorem Domain.wrapS_modEq (D : Domain) (x : Int) : Int.ModEq D.size (D.wrapS x) x :=
  D.wrapS_emod x

/-- Every grid point of index at most `m` lies between the base point and
the grid point of index `m`, whatever the sign of the increment. -/
theorem grid_between {l incr : Int} {k m : Nat} (hkm : k ≤ m) :
    min l (l + (m : Int) * incr) ≤ l + (k : Int) * incr ∧
      l + (k : Int) * incr ≤ max l (l + (m : Int) * incr) := by
  rcases le_or_lt 0 incr with h | h
  · have h1 : (k : Int) * incr ≤ (m : Int) * incr :=
      mul_le_mul_of_nonneg_right (by exact_mod_cast hkm) h
    have h2 : 0 ≤ (k : Int) * incr := mul_nonneg (by positivity) h
    exact ⟨le_trans (min_le_left _ _) (by omega), le_trans (by omega) (le_max_right _ _)⟩
  · have h1 : (m : Int) * incr ≤ (k : Int) * incr :=
      mul_le_mul_of_nonpos_right (by exact_mod_cast hkm) (le_of_lt h)
    have h2 : (k : Int) * incr ≤ 0 :=
      mul_nonpos_of_nonneg_of_nonpos (by positivity) (le_of_lt h)
    exact ⟨le_trans (min_le_right _ _) (by omega), le_trans (by omega) (le_max_left _ _)⟩

theorem bSize_pos {tid nth tc : Nat} (hnth : 1 ≤ nth) (htcn : nth ≤ tc) :
    1 ≤ bSize tid nth tc := by
  have h := Nat.div_pos htcn (by omega)
  unfold bSize
  omega

theorem bStart_add_bSize_le {tid nth tc : Nat} (hnth : 1 ≤ nth) (htid : tid < nth) :
    bStart tid nth tc + bSize tid nth tc ≤ tc := by
  have hdm := Nat.div_add_mod tc nth
  have hex : tc % nth < nth := Nat.mod_lt _ (by omega)
  unfold bStart bSize
  by_cases h : tid < tc % nth
  · rw [min_eq_left (le_of_lt h), if_pos h]
    have e1 : (tid + 1) * (tc / nth + 1) ≤ (tc % nth) * (tc / nth + 1) :=
      Nat.mul_le_mul_right _ (by omega)
    have e2 : (tc % nth) * (tc / nth + 1) = (tc % nth) * (tc / nth) + tc % nth := by ring
    have e3 : (tc % nth) * (tc / nth) ≤ nth * (tc / nth) :=
      Nat.mul_le_mul_right _ (le_of_lt hex)
    have e4 : (tid + 1) * (tc / nth + 1) = tid * (tc / nth) + tid + tc / nth + 1 := by ring
    omega
  · rw [min_eq_right (by omega), if_neg h]
    have e1 : (tid + 1) * (tc / nth) ≤ nth * (tc / nth) :=
      Nat.mul_le_mul_right _ (by omega)
    have e4 : (tid + 1) * (tc / nth) = tid * (tc / nth) + tc / nth := by ring
    omega

/-- Normal form of the balanced branch on a legal range: executor `tid`
receives the `bSize` iterations starting at grid index `bStart`, and the
raw last-iteration condition is `tid = nth - 1`. -/
theorem balancedBranch_char (D : Domain) (tid nth : Nat) (lower incr : Int) (tc : Nat)
    (hnth : 1 ≤ nth) (htcn : nth ≤ tc) (htid : tid < nth)
    (hg1 : D.mn ≤ min lower (lower + ((tc : Int) - 1) * incr))
    (hg2 : max lower (lower + ((tc : Int) - 1) * incr) ≤ D.mx) :
    (balancedBranch D tid nth lower incr tc).1
        = lower + (bStart tid nth tc : Int) * incr ∧
    (balancedBranch D tid nth lower incr tc).2.1
        = lower + ((bStart tid nth tc : Int) + (bSize tid nth tc : Int) - 1) * incr ∧
    (balancedBranch D tid nth lower incr tc).2.2 = decide (tid = nth - 1) := by
  have hsz1 := @bSize_pos tid nth tc hnth htcn
  have hsum := @bStart_add_bSize_le tid nth tc hnth htid
  have htc1 : 1 ≤ tc := le_trans hnth htcn
  have hmem : ∀ k : Nat, k ≤ tc - 1 →
      D.mn ≤ lower + (k : Int) * incr ∧ lower + (k : Int) * incr ≤ D.mx := by
    intro k hk
    have h1 : (tc - 1 : Nat) = ((tc : Int) - 1).toNat := by omega
    have hb := @grid_between lower incr k (tc - 1) hk
    have hcast : ((tc - 1 : Nat) : Int) = (tc : Int) - 1 := by omega
    rw [hcast] at hb
    exact ⟨le_trans hg1 hb.1, le_trans hb.2 hg2⟩
  have hlo : lower + (incr * (tid * (tc / nth) + min tid (tc % nth) : Nat))
      = lower + (bStart tid nth tc : Int) * incr := by
    unfold bStart
    push_cast
    ring
  have hstart_le : bStart tid nth tc ≤ tc - 1 := by omega
  have hloval := hmem (bStart tid nth tc) hstart_le
  have hupidx : bStart tid nth tc + (bSize tid nth tc - 1) ≤ tc - 1 := by omega
  have hupval := hmem (bStart tid nth tc + (bSize tid nth tc - 1)) hupidx
  unfold balancedBranch
  refine ⟨?_, ?_, rfl⟩
  · show D.wrapT (lower + incr * (tid * (tc / nth) + min tid (tc % nth) : Nat)) = _
    rw [hlo]
    exact D.wrapT_eq_self hloval.1 hloval.2
  · show D.wrapT (D.wrapT (lower + incr * (tid * (tc / nth) + min tid (tc % nth) : Nat))
        + (tc / nth : Nat) * incr - (if tid < tc % nth then 0 else incr)) = _
    rw [hlo, D.wrapT_eq_self hloval.1 hloval.2]
    have hval : lower + (bStart tid nth tc : Int) * incr + (tc / nth : Nat) * incr
        - (if tid < tc % nth then 0 else incr)
        = lower + ((bStart tid nth tc : Int) + (bSize tid nth tc : Int) - 1) * incr := by
      unfold bSize
      by_cases h : tid < tc % nth
      · rw [if_pos h, if_pos h]
        push_cast
        ring
      · rw [if_neg h, if_neg h]
        push_cast
        ring
    rw [hval]
    have hcast2 : (bStart tid nth tc : Int) + (bSize tid nth tc : Int) - 1
        = ((bStart tid nth tc + (bSize tid nth tc - 1) : Nat) : Int) := by
      push_cast
      omega
    rw [hcast2]
    exact D.wrapT_eq_self hupval.1 hupval.2

theorem gChunk_pos {tc nth : Nat} (hnth : 1 ≤ nth) (htcn : nth ≤ tc) :
    1 ≤ gChunk tc nth := by
  have h := Nat.div_pos htcn (by omega)
  unfold gChunk
  omega

theorem le_nth_mul_gChunk {tc nth : Nat} (hnth : 1 ≤ nth) :
    tc ≤ nth * gChunk tc nth := by
  have hdm := Nat.div_add_mod tc nth
  have hex : tc % nth < nth := Nat.mod_lt _ (by omega)
  unfold gChunk
  by_cases h : tc % nth = 0
  · rw [if_pos h]
    have e0 : nth * (tc / nth + 0) = nth * (tc / nth) := by ring
    omega
  · rw [if_neg h]
    have e : nth * (tc / nth + 1) = nth * (tc / nth) + nth := by ring
    omega

theorem nth_mul_gChunk_le {tc nth : Nat} (hnth : 1 ≤ nth) (htc : 1 ≤ tc) :
    nth * gChunk tc nth ≤ tc + nth - 1 := by
  have hdm := Nat.div_add_mod tc nth
  have hex : tc % nth < nth := Nat.mod_lt _ (by omega)
  unfold gChunk
  by_cases h : tc % nth = 0
  · rw [if_pos h]
    have e0 : nth * (tc / nth + 0) = nth * (tc / nth) := by ring
    omega
  · rw [if_neg h]
    have e : nth * (tc / nth + 1) = nth * (tc / nth) + nth := by ring
    omega

theorem gChunk_le {tc nth : Nat} (hnth : 2 ≤ nth) (htcn : nth ≤ tc) :
    gChunk tc nth ≤ tc - 1 := by
  have hdm := Nat.div_add_mod tc nth
  have hex : tc % nth < nth := Nat.mod_lt _ (by omega)
  have hq := Nat.div_pos htcn (by omega)
  have e1 : 2 * (tc / nth) ≤ nth * (tc / nth) := Nat.mul_le_mul_right _ hnth
  unfold gChunk
  by_cases h : tc % nth = 0
  · rw [if_pos h]
    omega
  · rw [if_neg h]
    omega

/-- Bound on the iteration indices touched by greedy executor `tid < nth`:
they stay below twice the trip count. -/
theorem greedy_idx_bound {tid nth tc : Nat} (hnth : 2 ≤ nth) (htcn : nth ≤ tc)
    (htid : tid < nth) :
    (tid + 1) * gChunk tc nth ≤ 2 * tc - 1 := by
  have h1 := @nth_mul_gChunk_le tc nth (by omega) (by omega)
  have h2 := @gChunk_pos tc nth (by omega) htcn
  have e1 : (tid + 1) * gChunk tc nth ≤ nth * gChunk tc nth :=
    Nat.mul_le_mul_right _ (by omega)
  omega

/-- Normal form of the greedy branch for a positive increment when the
executor's chunk start lies inside the range: the lower bound is the
grid point at index `tid * gChunk`, the upper bound is the raw chunk end
clamped to the original upper bound (through the domain sentinel when
the raw end overflows), and the raw last-iteration condition says the
chunk covers the end of the trip space. -/
theorem greedyBranch_pos_in (D : Domain) (tid nth : Nat) (lower upper incr : Int) (tc : Nat)
    (hmn : D.mn ≤ lower) (hmx : upper ≤ D.mx)
    (hdiff : upper - lower ≤ D.mx)
    (hincr : 0 < incr) (hnth : 2 ≤ nth) (htcn : nth ≤ tc)
    (htp1 : ((tc : Int) - 1) * incr ≤ upper - lower)
    (htp2 : upper - lower < (tc : Int) * incr)
    (hstart : lower + ((tid * gChunk tc nth : Nat) : Int) * incr ≤ upper) :
    (greedyBranch D tid nth lower upper incr tc).1
        = lower + ((tid * gChunk tc nth : Nat) : Int) * incr ∧
    (greedyBranch D tid nth lower upper incr tc).2.1
        = min (lower + ((((tid + 1) * gChunk tc nth : Nat) : Int) - 1) * incr) upper ∧
    (greedyBranch D tid nth lower upper incr tc).2.2
        = decide (tc ≤ (tid + 1) * gChunk tc nth) := by
  have hmn0 := D.mn_nonpos
  have hmxlt := D.mx_lt_size
  have htcc : (2 : Nat) ≤ tc := le_trans hnth htcn
  have hc1 : 1 ≤ gChunk tc nth := gChunk_pos (by omega) htcn
  have hcle : gChunk tc nth ≤ tc - 1 := gChunk_le hnth htcn
  have hcleI : (gChunk tc nth : Int) ≤ (tc : Int) - 1 := by omega
  have hbig_ub : (gChunk tc nth : Int) * incr ≤ ((tc : Int) - 1) * incr :=
    mul_le_mul_of_nonneg_right hcleI (le_of_lt hincr)
  have hbig_nonneg : 0 ≤ (gChunk tc nth : Int) * incr :=
    mul_nonneg (by positivity) (le_of_lt hincr)
  have hincr1 : incr * 1 ≤ incr * ((tc : Int) - 1) :=
    mul_le_mul_of_nonneg_left (by omega) (le_of_lt hincr)
  have hincr1' : incr ≤ ((tc : Int) - 1) * incr := by
    have e : incr * ((tc : Int) - 1) = ((tc : Int) - 1) * incr := by ring
    omega
  have hbig : D.wrapT ((gChunk tc nth : Int) * incr) = (gChunk tc nth : Int) * incr :=
    D.wrapT_eq_self (by omega) (by omega)
  have hA_nonneg : 0 ≤ ((tid * gChunk tc nth : Nat) : Int) * incr :=
    mul_nonneg (by positivity) (le_of_lt hincr)
  have hloeq : lower + (tid : Int) * ((gChunk tc nth : Int) * incr)
      = lower + ((tid * gChunk tc nth : Nat) : Int) * incr := by
    push_cast
    ring
  have hlo : D.wrapT (lower + (tid : Int) * ((gChunk tc nth : Int) * incr))
      = lower + ((tid * gChunk tc nth : Nat) : Int) * incr := by
    rw [hloeq]
    exact D.wrapT_eq_self (by omega) (by omega)
  have hAB : ((tid * gChunk tc nth : Nat) : Int) + (gChunk tc nth : Int)
      = (((tid + 1) * gChunk tc nth : Nat) : Int) := by
    push_cast
    ring
  have hVeq : lower + ((tid * gChunk tc nth : Nat) : Int) * incr
        + (gChunk tc nth : Int) * incr - incr
      = lower + ((((tid + 1) * gChunk tc nth : Nat) : Int) - 1) * incr := by
    push_cast
    ring
  have hVdiffeq : ((((tid + 1) * gChunk tc nth : Nat) : Int) - 1) * incr
      = ((tid * gChunk tc nth : Nat) : Int) * incr + ((gChunk tc nth : Int) - 1) * incr := by
    push_cast
    ring
  have hcm1 : ((gChunk tc nth : Int) - 1) * incr ≤ ((tc : Int) - 1) * incr :=
    mul_le_mul_of_nonneg_right (by omega) (le_of_lt hincr)
  have hcm1_nonneg : 0 ≤ ((gChunk tc nth : Int) - 1) * incr :=
    mul_nonneg (by omega) (le_of_lt hincr)
  have hui : D.wrapT (upper - incr) = upper - incr :=
    D.wrapT_eq_self (by omega) (by omega)
  have hgceq : (tc / nth + if tc % nth = 0 then 0 else 1) = gChunk tc nth := rfl
  simp only [greedyBranch]
  rw [if_pos hincr, hgceq, hbig, hlo, hVeq]
  rcases le_or_lt (lower + ((((tid + 1) * gChunk tc nth : Nat) : Int) - 1) * incr) D.mx
    with hcase | hcase
  · rw [D.wrapT_eq_self (by omega) hcase]
    have hnowrap : ¬ (lower + ((((tid + 1) * gChunk tc nth : Nat) : Int) - 1) * incr
        < lower + ((tid * gChunk tc nth : Nat) : Int) * incr) := by omega
    rw [if_neg hnowrap]
    refine ⟨rfl, ?_, ?_⟩
    · rcases le_or_lt (lower + ((((tid + 1) * gChunk tc nth : Nat) : Int) - 1) * incr) upper
        with h | h
      · rw [if_neg (not_lt.mpr h), min_eq_left h]
      · rw [if_pos h, min_eq_right (le_of_lt h)]
    · rw [hui]
      apply decide_eq_decide.mpr
      constructor
      · rintro ⟨h1, h2⟩
        have h3 : ((tc : Int) - 1) * incr < (((tid + 1) * gChunk tc nth : Nat) : Int) * incr := by
          have e : ((((tid + 1) * gChunk tc nth : Nat) : Int) - 1) * incr
              = (((tid + 1) * gChunk tc nth : Nat) : Int) * incr - incr := by ring
          omega
        have h4 : (tc : Int) - 1 < (((tid + 1) * gChunk tc nth : Nat) : Int) :=
          (mul_lt_mul_right hincr).mp h3
        omega
      · intro h
        refine ⟨hstart, ?_⟩
        have h3 : (tc : Int) * incr ≤ (((tid + 1) * gChunk tc nth : Nat) : Int) * incr :=
          mul_le_mul_of_nonneg_right (by omega) (le_of_lt hincr)
        have e : ((((tid + 1) * gChunk tc nth : Nat) : Int) - 1) * incr
            = (((tid + 1) * gChunk tc nth : Nat) : Int) * incr - incr := by ring
        omega
  · rw [D.wrapT_eq_sub_size hcase (by omega)]
    have hwrapped : lower + ((((tid + 1) * gChunk tc nth : Nat) : Int) - 1) * incr - D.size
        < lower + ((tid * gChunk tc nth : Nat) : Int) * incr := by omega
    rw [if_pos hwrapped]
    have hBgt : (tc : Int) - 1 < (((tid + 1) * gChunk tc nth : Nat) : Int) - 1 := by
      have h3 : ((tc : Int) - 1) * incr < ((((tid + 1) * gChunk tc nth : Nat) : Int) - 1) * incr := by
        omega
      exact (mul_lt_mul_right hincr).mp h3
    refine ⟨rfl, ?_, ?_⟩
    · have hminr : min (lower + ((((tid + 1) * gChunk tc nth : Nat) : Int) - 1) * incr) upper
          = upper := min_eq_right (by omega)
      rw [hminr]
      show (if upper < D.mx then upper else D.mx) = upper
      split <;> omega
    · rw [hui]
      exact decide_eq_decide.mpr (iff_of_true ⟨hstart, by omega⟩ (by omega))

/-- Normal form of the greedy branch for a positive increment when the
executor's chunk start lies beyond the range (possible even with at
least as many trips as executors): the assignment is empty, the upper
bound is clamped to the original upper bound, and the last-iteration
condition is false.  Requires the no-wrap condition
`2 * upper - lower ≤ mx` so that the start position itself does not
overflow the domain. -/
theorem greedyBranch_pos_out (D : Domain) (tid nth : Nat) (lower upper incr : Int) (tc : Nat)
    (hmn : D.mn ≤ lower) (hmx : upper ≤ D.mx)
    (hdiff : upper - lower ≤ D.mx) (hH : 2 * upper - lower ≤ D.mx)
    (hincr : 0 < incr) (hnth : 2 ≤ nth) (htcn : nth ≤ tc) (htid : tid < nth)
    (htp1 : ((tc : Int) - 1) * incr ≤ upper - lower)
    (hstart : upper < lower + ((tid * gChunk tc nth : Nat) : Int) * incr) :
    (greedyBranch D tid nth lower upper incr tc).1
        = lower + ((tid * gChunk tc nth : Nat) : Int) * incr ∧
    (greedyBranch D tid nth lower upper incr tc).2.1 = upper ∧
    (greedyBranch D tid nth lower upper incr tc).2.2 = false := by
  have hmn0 := D.mn_nonpos
  have hmxlt := D.mx_lt_size
  have htcc : (2 : Nat) ≤ tc := le_trans hnth htcn
  have hc1 : 1 ≤ gChunk tc nth := gChunk_pos (by omega) htcn
  have hcle : gChunk tc nth ≤ tc - 1 := gChunk_le hnth htcn
  have hcleI : (gChunk tc nth : Int) ≤ (tc : Int) - 1 := by omega
  have hbig_ub : (gChunk tc nth : Int) * incr ≤ ((tc : Int) - 1) * incr :=
    mul_le_mul_of_nonneg_right hcleI (le_of_lt hincr)
  have hbig_nonneg : 0 ≤ (gChunk tc nth : Int) * incr :=
    mul_nonneg (by positivity) (le_of_lt hincr)
  have hbig : D.wrapT ((gChunk tc nth : Int) * incr) = (gChunk tc nth : Int) * incr :=
    D.wrapT_eq_self (by omega) (by omega)
  have hidx := @greedy_idx_bound tid nth tc hnth htcn htid
  have hmulsplit : (tid + 1) * gChunk tc nth = tid * gChunk tc nth + gChunk tc nth := by ring
  have hAnat : tid * gChunk tc nth ≤ 2 * tc - 2 := by omega
  have hAcast : ((tid * gChunk tc nth : Nat) : Int) ≤ ((2 * tc - 2 : Nat) : Int) := by
    exact_mod_cast hAnat
  have h2tc : ((2 * tc - 2 : Nat) : Int) = 2 * ((tc : Int) - 1) := by omega
  have hAub : ((tid * gChunk tc nth : Nat) : Int) * incr ≤ (2 * ((tc : Int) - 1)) * incr :=
    mul_le_mul_of_nonneg_right (by omega) (le_of_lt hincr)
  have hdouble : (2 * ((tc : Int) - 1)) * incr = 2 * (((tc : Int) - 1) * incr) := by ring
  have hA_nonneg : 0 ≤ ((tid * gChunk tc nth : Nat) : Int) * incr :=
    mul_nonneg (by positivity) (le_of_lt hincr)
  have hloeq : lower + (tid : Int) * ((gChunk tc nth : Int) * incr)
      = lower + ((tid * gChunk tc nth : Nat) : Int) * incr := by
    push_cast
    ring
  have hlo : D.wrapT (lower + (tid : Int) * ((gChunk tc nth : Int) * incr))
      = lower + ((tid * gChunk tc nth : Nat) : Int) * incr := by
    rw [hloeq]
    exact D.wrapT_eq_self (by omega) (by omega)
  have hVeq : lower + ((tid * gChunk tc nth : Nat) : Int) * incr
        + (gChunk tc nth : Int) * incr - incr
      = lower + ((((tid + 1) * gChunk tc nth : Nat) : Int) - 1) * incr := by
    push_cast
    ring
  have hVdiffeq : ((((tid + 1) * gChunk tc nth : Nat) : Int) - 1) * incr
      = ((tid * gChunk tc nth : Nat) : Int) * incr + ((gChunk tc nth : Int) - 1) * incr := by
    push_cast
    ring
  have hcm1 : ((gChunk tc nth : Int) - 1) * incr ≤ ((tc : Int) - 1) * incr :=
    mul_le_mul_of_nonneg_right (by omega) (le_of_lt hincr)
  have hcm1_nonneg : 0 ≤ ((gChunk tc nth : Int) - 1) * incr :=
    mul_nonneg (by omega) (le_of_lt hincr)
  have hVnat : (tid + 1) * gChunk tc nth - 1 ≤ 2 * tc - 2 := by omega
  have hVcast : ((((tid + 1) * gChunk tc nth : Nat) : Int) - 1) ≤ 2 * ((tc : Int) - 1) := by
    have : (((tid + 1) * gChunk tc nth : Nat) : Int) ≤ ((2 * tc - 1 : Nat) : Int) := by
      exact_mod_cast hidx
    omega
  have hVub : ((((tid + 1) * gChunk tc nth : Nat) : Int) - 1) * incr
      ≤ (2 * ((tc : Int) - 1)) * incr :=
    mul_le_mul_of_nonneg_right hVcast (le_of_lt hincr)
  have hgceq : (tc / nth + if tc % nth = 0 then 0 else 1) = gChunk tc nth := rfl
  simp only [greedyBranch]
  rw [if_pos hincr, hgceq, hbig, hlo, hVeq]
  rw [D.wrapT_eq_self (by omega) (by omega)]
  have hnowrap : ¬ (lower + ((((tid + 1) * gChunk tc nth : Nat) : Int) - 1) * incr
      < lower + ((tid * gChunk tc nth : Nat) : Int) * incr) := by omega
  rw [if_neg hnowrap]
  rw [if_pos (show upper < lower + ((((tid + 1) * gChunk tc nth : Nat) : Int) - 1) * incr
    by omega)]
  refine ⟨rfl, rfl, ?_⟩
  exact decide_eq_false (fun hand => absurd hand.1 (not_le.mpr hstart))

theorem Domain.wrapT_absorb_mul (D : Domain) (a t b : Int) :
    D.wrapT (a + t * D.wrapT b) = D.wrapT (a + t * b) :=
  D.wrapT_congr_modEq ((Int.ModEq.refl a).add ((Int.ModEq.refl t).mul (D.wrapT_modEq b)))

theorem Domain.wrapT_absorb_mid (D : Domain) (a b c : Int) :
    D.wrapT (a + D.wrapT b - c) = D.wrapT (a + b - c) :=
  D.wrapT_congr_modEq (((Int.ModEq.refl a).add (D.wrapT_modEq b)).sub (Int.ModEq.refl c))

/-- Normal form of the greedy branch for a negative increment when the
executor's chunk start lies inside the range: mirror image of the
positive case, clamping through the domain minimum sentinel and the
original (smaller) upper bound. -/
theorem greedyBranch_neg_in (D : Domain) (tid nth : Nat) (lower upper incr : Int) (tc : Nat)
    (hmn : D.mn ≤ upper) (hmx : lower ≤ D.mx)
    (hdiff : lower - upper ≤ D.mx)
    (hincr : incr < 0) (hnth : 2 ≤ nth) (htcn : nth ≤ tc)
    (htp1 : ((tc : Int) - 1) * (-incr) ≤ lower - upper)
    (htp2 : lower - upper < (tc : Int) * (-incr))
    (hstart : upper ≤ lower + ((tid * gChunk tc nth : Nat) : Int) * incr) :
    (greedyBranch D tid nth lower upper incr tc).1
        = lower + ((tid * gChunk tc nth : Nat) : Int) * incr ∧
    (greedyBranch D tid nth lower upper incr tc).2.1
        = max (lower + ((((tid + 1) * gChunk tc nth : Nat) : Int) - 1) * incr) upper ∧
    (greedyBranch D tid nth lower upper incr tc).2.2
        = decide (tc ≤ (tid + 1) * gChunk tc nth) := by
  have hmn0 := D.mn_nonpos
  have hmx0 := D.mx_nonneg
  have hmxlt := D.mx_lt_size
  have htcc : (2 : Nat) ≤ tc := le_trans hnth htcn
  have hc1 : 1 ≤ gChunk tc nth := gChunk_pos (by omega) htcn
  have hcle : gChunk tc nth ≤ tc - 1 := gChunk_le hnth htcn
  have hcleI : (gChunk tc nth : Int) ≤ (tc : Int) - 1 := by omega
  have hincr1' : -incr ≤ ((tc : Int) - 1) * (-incr) := by
    have := mul_le_mul_of_nonneg_right (show (1 : Int) ≤ (tc : Int) - 1 by omega)
      (show (0 : Int) ≤ -incr by omega)
    omega
  have hA_nonpos : ((tid * gChunk tc nth : Nat) : Int) * incr ≤ 0 :=
    mul_nonpos_of_nonneg_of_nonpos (by positivity) (le_of_lt hincr)
  have hloeq : lower + (tid : Int) * ((gChunk tc nth : Int) * incr)
      = lower + ((tid * gChunk tc nth : Nat) : Int) * incr := by
    push_cast
    ring
  have hlo : D.wrapT (lower + (tid : Int) * ((gChunk tc nth : Int) * incr))
      = lower + ((tid * gChunk tc nth : Nat) : Int) * incr := by
    rw [hloeq]
    exact D.wrapT_eq_self (by omega) (by omega)
  have hVeq : lower + ((tid * gChunk tc nth : Nat) : Int) * incr
        + (gChunk tc nth : Int) * incr - incr
      = lower + ((((tid + 1) * gChunk tc nth : Nat) : Int) - 1) * incr := by
    push_cast
    ring
  have hVdiffeq : ((((tid + 1) * gChunk tc nth : Nat) : Int) - 1) * (-incr)
      = ((tid * gChunk tc nth : Nat) : Int) * (-incr) + ((gChunk tc nth : Int) - 1) * (-incr) := by
    push_cast
    ring
  have hVflip : ((((tid + 1) * gChunk tc nth : Nat) : Int) - 1) * incr
      = -(((((tid + 1) * gChunk tc nth : Nat) : Int) - 1) * (-incr)) := by ring
  have hAflip : ((tid * gChunk tc nth : Nat) : Int) * incr
      = -(((tid * gChunk tc nth : Nat) : Int) * (-incr)) := by ring
  have hcm1 : ((gChunk tc nth : Int) - 1) * (-incr) ≤ ((tc : Int) - 1) * (-incr) :=
    mul_le_mul_of_nonneg_right (by omega) (by omega)
  have hcm1_nonneg : 0 ≤ ((gChunk tc nth : Int) - 1) * (-incr) :=
    mul_nonneg (by omega) (by omega)
  have hui : D.wrapT (upper - incr) = upper - incr :=
    D.wrapT_eq_self (by omega) (by omega)
  have hgceq : (tc / nth + if tc % nth = 0 then 0 else 1) = gChunk tc nth := rfl
  simp only [greedyBranch]
  rw [if_neg (not_lt.mpr (le_of_lt hincr)), hgceq, D.wrapT_absorb_mul, hlo,
    D.wrapT_absorb_mid, hVeq]
  rcases le_or_lt D.mn (lower + ((((tid + 1) * gChunk tc nth : Nat) : Int) - 1) * incr)
    with hcase | hcase
  · rw [D.wrapT_eq_self hcase (by omega)]
    have hnowrap : ¬ (lower + ((tid * gChunk tc nth : Nat) : Int) * incr
        < lower + ((((tid + 1) * gChunk tc nth : Nat) : Int) - 1) * incr) := by omega
    rw [if_neg hnowrap]
    refine ⟨rfl, ?_, ?_⟩
    · rcases lt_or_le (lower + ((((tid + 1) * gChunk tc nth : Nat) : Int) - 1) * incr) upper
        with h | h
      · rw [if_pos h, max_eq_right (le_of_lt h)]
      · rw [if_neg (not_lt.mpr h), max_eq_left h]
    · rw [hui]
      apply decide_eq_decide.mpr
      constructor
      · rintro ⟨h1, h2⟩
        have h3 : ((tc : Int) - 1) * (-incr)
            < (((tid + 1) * gChunk tc nth : Nat) : Int) * (-incr) := by
          have e : ((((tid + 1) * gChunk tc nth : Nat) : Int) - 1) * (-incr)
              = (((tid + 1) * gChunk tc nth : Nat) : Int) * (-incr) - (-incr) := by ring
          omega
        have h4 : (tc : Int) - 1 < (((tid + 1) * gChunk tc nth : Nat) : Int) :=
          (mul_lt_mul_right (show (0 : Int) < -incr by omega)).mp h3
        omega
      · intro h
        refine ⟨hstart, ?_⟩
        have h3 : (tc : Int) * (-incr) ≤ (((tid + 1) * gChunk tc nth : Nat) : Int) * (-incr) :=
          mul_le_mul_of_nonneg_right (by omega) (by omega)
        have e : ((((tid + 1) * gChunk tc nth : Nat) : Int) - 1) * (-incr)
            = (((tid + 1) * gChunk tc nth : Nat) : Int) * (-incr) - (-incr) := by ring
        omega
  · rw [D.wrapT_eq_add_size hcase (by omega)]
    have hwrapped : lower + ((tid * gChunk tc nth : Nat) : Int) * incr
        < lower + ((((tid + 1) * gChunk tc nth : Nat) : Int) - 1) * incr + D.size := by omega
    rw [if_pos hwrapped]
    have hBgt : (tc : Int) - 1 < (((tid + 1) * gChunk tc nth : Nat) : Int) - 1 := by
      have h3 : ((tc : Int) - 1) * (-incr)
          < ((((tid + 1) * gChunk tc nth : Nat) : Int) - 1) * (-incr) := by
        omega
      exact (mul_lt_mul_right (show (0 : Int) < -incr by omega)).mp h3
    refine ⟨rfl, ?_, ?_⟩
    · have hmaxr : max (lower + ((((tid + 1) * gChunk tc nth : Nat) : Int) - 1) * incr) upper
          = upper := max_eq_right (by omega)
      rw [hmaxr]
      show (if D.mn < upper then upper else D.mn) = upper
      split <;> omega
    · rw [hui]
      exact decide_eq_decide.mpr (iff_of_true ⟨hstart, by omega⟩ (by omega))

/-- Normal form of the greedy branch for a negative increment when the
executor's chunk start lies beyond the (downward) range: the assignment
is empty with the upper bound clamped up to the original upper bound,
and the last-iteration condition is false. -/
theorem greedyBranch_neg_out (D : Domain) (tid nth : Nat) (lower upper incr : Int) (tc : Nat)
    (hmn : D.mn ≤ upper) (hmx : lower ≤ D.mx)
    (hdiff : lower - upper ≤ D.mx) (hH : D.mn ≤ 2 * upper - lower)
    (hincr : incr < 0) (hnth : 2 ≤ nth) (htcn : nth ≤ tc) (htid : tid < nth)
    (htp1 : ((tc : Int) - 1) * (-incr) ≤ lower - upper)
    (hstart : lower + ((tid * gChunk tc nth : Nat) : Int) * incr < upper) :
    (greedyBranch D tid nth lower upper incr tc).1
        = lower + ((tid * gChunk tc nth : Nat) : Int) * incr ∧
    (greedyBranch D tid nth lower upper incr tc).2.1 = upper ∧
    (greedyBranch D tid nth lower upper incr tc).2.2 = false := by
  have hmn0 := D.mn_nonpos
  have hmxlt := D.mx_lt_size
  have htcc : (2 : Nat) ≤ tc := le_trans hnth htcn
  have hc1 : 1 ≤ gChunk tc nth := gChunk_pos (by omega) htcn
  have hcle : gChunk tc nth ≤ tc - 1 := gChunk_le hnth htcn
  have hidx := @greedy_idx_bound tid nth tc hnth htcn htid
  have hmulsplit : (tid + 1) * gChunk tc nth = tid * gChunk tc nth + gChunk tc nth := by ring
  have hAnat : tid * gChunk tc nth ≤ 2 * tc - 2 := by omega
  have hAcast : ((tid * gChunk tc nth : Nat) : Int) ≤ 2 * ((tc : Int) - 1) := by
    have : ((tid * gChunk tc nth : Nat) : Int) ≤ ((2 * tc - 2 : Nat) : Int) := by
      exact_mod_cast hAnat
    omega
  have hAub : ((tid * gChunk tc nth : Nat) : Int) * (-incr) ≤ (2 * ((tc : Int) - 1)) * (-incr) :=
    mul_le_mul_of_nonneg_right hAcast (by omega)
  have hdouble : (2 * ((tc : Int) - 1)) * (-incr) = 2 * (((tc : Int) - 1) * (-incr)) := by ring
  have hAflip : ((tid * gChunk tc nth : Nat) : Int) * incr
      = -(((tid * gChunk tc nth : Nat) : Int) * (-incr)) := by ring
  have hA_nonneg : 0 ≤ ((tid * gChunk tc nth : Nat) : Int) * (-incr) :=
    mul_nonneg (by positivity) (by omega)
  have hloeq : lower + (tid : Int) * ((gChunk tc nth : Int) * incr)
      = lower + ((tid * gChunk tc nth : Nat) : Int) * incr := by
    push_cast
    ring
  have hlo : D.wrapT (lower + (tid : Int) * ((gChunk tc nth : Int) * incr))
      = lower + ((tid * gChunk tc nth : Nat) : Int) * incr := by
    rw [hloeq]
    exact D.wrapT_eq_self (by omega) (by omega)
  have hVeq : lower + ((tid * gChunk tc nth : Nat) : Int) * incr
        + (gChunk tc nth : Int) * incr - incr
      = lower + ((((tid + 1) * gChunk tc nth : Nat) : Int) - 1) * incr := by
    push_cast
    ring
  have hVdiffeq : ((((tid + 1) * gChunk tc nth : Nat) : Int) - 1) * (-incr)
      = ((tid * gChunk tc nth : Nat) : Int) * (-incr) + ((gChunk tc nth : Int) - 1) * (-incr) := by
    push_cast
    ring
  have hVflip : ((((tid + 1) * gChunk tc nth : Nat) : Int) - 1) * incr
      = -(((((tid + 1) * gChunk tc nth : Nat) : Int) - 1) * (-incr)) := by ring
  have hcm1_nonneg : 0 ≤ ((gChunk tc nth : Int) - 1) * (-incr) :=
    mul_nonneg (by omega) (by omega)
  have hVnat : (tid + 1) * gChunk tc nth - 1 ≤ 2 * tc - 2 := by omega
  have hVcast : ((((tid + 1) * gChunk tc nth : Nat) : Int) - 1) ≤ 2 * ((tc : Int) - 1) := by
    have : (((tid + 1) * gChunk tc nth : Nat) : Int) ≤ ((2 * tc - 1 : Nat) : Int) := by
      exact_mod_cast hidx
    omega
  have hVub : ((((tid + 1) * gChunk tc nth : Nat) : Int) - 1) * (-incr)
      ≤ (2 * ((tc : Int) - 1)) * (-incr) :=
    mul_le_mul_of_nonneg_right hVcast (by omega)
  have hgceq : (tc / nth + if tc % nth = 0 then 0 else 1) = gChunk tc nth := rfl
  simp only [greedyBranch]
  rw [if_neg (not_lt.mpr (le_of_lt hincr)), hgceq, D.wrapT_absorb_mul, hlo,
    D.wrapT_absorb_mid, hVeq]
  rw [D.wrapT_eq_self (by omega) (by omega)]
  have hnowrap : ¬ (lower + ((tid * gChunk tc nth : Nat) : Int) * incr
      < lower + ((((tid + 1) * gChunk tc nth : Nat) : Int) - 1) * incr) := by omega
  rw [if_neg hnowrap]
  rw [if_pos (show lower + ((((tid + 1) * gChunk tc nth : Nat) : Int) - 1) * incr < upper
    by omega)]
  refine ⟨rfl, rfl, ?_⟩
  exact decide_eq_false (fun hand => absurd hand.1 (not_le.mpr hstart))

theorem forStaticInit_zeroTrip (D : Domain) (flavor : Flavor) (check serialized : Bool)
    (sched : SchedType) (tid nth : Nat) (lower upper strideIn incr chunk : Int)
    (hz : zeroTrip incr lower upper) :
    forStaticInit D flavor check serialized sched tid nth lower upper strideIn incr chunk
      = ⟨lower, upper, incr, false,
          if check = true ∧ incr = 0 then [KmpError.zeroIncrement] else []⟩ := by
  unfold forStaticInit
  rw [if_pos hz]

theorem forStaticInit_serial (D : Domain) (flavor : Flavor) (check serialized : Bool)
    (sched : SchedType) (tid nth : Nat) (lower upper strideIn incr chunk : Int)
    (hz : ¬ zeroTrip incr lower upper) (hser : serialized = true ∨ nth = 1) :
    forStaticInit D flavor check serialized sched tid nth lower upper strideIn incr chunk
      = ⟨lower, upper, serialStride D lower upper incr, true,
          if check = true ∧ incr = 0 then [KmpError.zeroIncrement] else []⟩ := by
  unfold forStaticInit
  rw [if_neg hz, if_pos hser]

theorem forStaticInit_fewer (D : Domain) (flavor : Flavor) (check serialized : Bool)
    (tid nth : Nat) (lower upper strideIn incr chunk : Int)
    (hz : ¬ zeroTrip incr lower upper) (hser : ¬ (serialized = true ∨ nth = 1))
    (hlt : tripCount D lower upper incr < nth) :
    forStaticInit D flavor check serialized SchedType.static tid nth lower upper strideIn incr chunk
      = ⟨(fewerBranch D tid lower upper incr (tripCount D lower upper incr)).1,
         (fewerBranch D tid lower upper incr (tripCount D lower upper incr)).2.1,
         strideIn,
         (fewerBranch D tid lower upper incr (tripCount D lower upper incr)).2.2,
         staticErrs D check lower upper incr⟩ := by
  unfold forStaticInit staticErrs
  rw [if_neg hz, if_neg hser]
  simp only [if_pos hlt]

theorem forStaticInit_balanced (D : Domain) (check serialized : Bool)
    (tid nth : Nat) (lower upper strideIn incr chunk : Int)
    (hz : ¬ zeroTrip incr lower upper) (hser : ¬ (serialized = true ∨ nth = 1))
    (hge : ¬ tripCount D lower upper incr < nth) :
    forStaticInit D Flavor.balanced check serialized SchedType.static tid nth
        lower upper strideIn incr chunk
      = ⟨(balancedBranch D tid nth lower incr (tripCount D lower upper incr)).1,
         (balancedBranch D tid nth lower incr (tripCount D lower upper incr)).2.1,
         strideIn,
         (balancedBranch D tid nth lower incr (tripCount D lower upper incr)).2.2,
         staticErrs D check lower upper incr⟩ := by
  unfold forStaticInit staticErrs
  rw [if_neg hz, if_neg hser]
  simp only [if_neg hge]

theorem forStaticInit_greedy (D : Domain) (check serialized : Bool)
    (tid nth : Nat) (lower upper strideIn incr chunk : Int)
    (hz : ¬ zeroTrip incr lower upper) (hser : ¬ (serialized = true ∨ nth = 1))
    (hge : ¬ tripCount D lower upper incr < nth) :
    forStaticInit D Flavor.greedy check serialized SchedType.static tid nth
        lower upper strideIn incr chunk
      = ⟨(greedyBranch D tid nth lower upper incr (tripCount D lower upper incr)).1,
         (greedyBranch D tid nth lower upper incr (tripCount D lower upper incr)).2.1,
         strideIn,
         (greedyBranch D tid nth lower upper incr (tripCount D lower upper incr)).2.2,
         staticErrs D check lower upper incr⟩ := by
  unfold forStaticInit staticErrs
  rw [if_neg hz, if_neg hser]
  simp only [if_neg hge]

theorem forStaticInit_chunked (D : Domain) (flavor : Flavor) (check serialized : Bool)
    (tid nth : Nat) (lower upper strideIn incr chunk : Int)
    (hz : ¬ zeroTrip incr lower upper) (hser : ¬ (serialized = true ∨ nth = 1)) :
    forStaticInit D flavor check serialized SchedType.chunked tid nth
        lower upper strideIn incr chunk
      = ⟨(chunkedBranch D tid nth lower incr chunk (tripCount D lower upper incr)).1,
         (chunkedBranch D tid nth lower incr chunk (tripCount D lower upper incr)).2.1,
         (chunkedBranch D tid nth lower incr chunk (tripCount D lower upper incr)).2.2.1,
         (chunkedBranch D tid nth lower incr chunk (tripCount D lower upper incr)).2.2.2,
         staticErrs D check lower upper incr⟩ := by
  unfold forStaticInit staticErrs
  rw [if_neg hz, if_neg hser]

theorem trip_mul_bounds {d i : Nat} (hi : 0 < i) :
    (d / i) * i ≤ d ∧ d < (d / i + 1) * i := by
  have hdm := Nat.div_add_mod d i
  have hmod : d % i < i := Nat.mod_lt _ hi
  constructor
  · have e : (d / i) * i = i * (d / i) := by ring
    omega
  · have e : (d / i + 1) * i = i * (d / i) + i := by ring
    omega

theorem legalPos_trip_bounds (D : Domain) {lower upper incr : Int}
    (h : LegalPos D lower upper incr) :
    1 ≤ tripCount D lower upper incr ∧
    ((tripCount D lower upper incr : Int) - 1) * incr ≤ upper - lower ∧
    upper - lower < (tripCount D lower upper incr : Int) * incr ∧
    (tripCount D lower upper incr : Int) ≤ D.size := by
  obtain ⟨h1, h2, h3, h4, h5, h6, h7⟩ := h
  have hhalf := D.half_lt_size
  have hchar := tripCount_pos_char D (by omega) h6 h7 h3 (by omega)
  have hiN : ((incr.toNat : Nat) : Int) = incr := Int.toNat_of_nonneg (by omega)
  have hdN : (((upper - lower).toNat : Nat) : Int) = upper - lower :=
    Int.toNat_of_nonneg (by omega)
  obtain ⟨hb1, hb2⟩ := @trip_mul_bounds (upper - lower).toNat incr.toNat (by omega)
  have hqle : ((upper - lower).toNat / incr.toNat : Nat) ≤ (upper - lower).toNat :=
    Nat.div_le_self _ _
  rw [hchar]
  generalize hq : (upper - lower).toNat / incr.toNat = q at hb1 hb2 hqle ⊢
  have hb1' : ((q * incr.toNat : Nat) : Int) ≤ (((upper - lower).toNat : Nat) : Int) :=
    Nat.cast_le.mpr hb1
  have hb2' : (((upper - lower).toNat : Nat) : Int) < (((q + 1) * incr.toNat : Nat) : Int) :=
    Nat.cast_lt.mpr hb2
  push_cast at hb1' hb2'
  rw [hiN, hdN] at hb1' hb2'
  have hqle' : ((q : Nat) : Int) ≤ (((upper - lower).toNat : Nat) : Int) := Nat.cast_le.mpr hqle
  rw [hdN] at hqle'
  have e1 : (((q + 1 : Nat) : Int) - 1) * incr = (q : Int) * incr := by push_cast; ring
  have e2 : ((q + 1 : Nat) : Int) * incr = ((q : Int) + 1) * incr := by push_cast; ring
  refine ⟨by omega, by omega, by omega, by omega⟩

theorem legalNeg_trip_bounds (D : Domain) {lower upper incr : Int}
    (h : LegalNeg D lower upper incr) :
    1 ≤ tripCount D lower upper incr ∧
    ((tripCount D lower upper incr : Int) - 1) * (-incr) ≤ lower - upper ∧
    lower - upper < (tripCount D lower upper incr : Int) * (-incr) ∧
    (tripCount D lower upper incr : Int) ≤ D.size := by
  obtain ⟨h1, h2, h3, h4, h5, h6, h7⟩ := h
  have hhalf := D.half_lt_size
  have hchar := tripCount_neg_char D (by omega) h6 h7 h3 h4
  have hiN : (((-incr).toNat : Nat) : Int) = -incr := Int.toNat_of_nonneg (by omega)
  have hdN : (((lower - upper).toNat : Nat) : Int) = lower - upper :=
    Int.toNat_of_nonneg (by omega)
  obtain ⟨hb1, hb2⟩ := @trip_mul_bounds (lower - upper).toNat (-incr).toNat (by omega)
  have hqle : ((lower - upper).toNat / (-incr).toNat : Nat) ≤ (lower - upper).toNat :=
    Nat.div_le_self _ _
  rw [hchar]
  generalize hq : (lower - upper).toNat / (-incr).toNat = q at hb1 hb2 hqle ⊢
  have hb1' : ((q * (-incr).toNat : Nat) : Int) ≤ (((lower - upper).toNat : Nat) : Int) :=
    Nat.cast_le.mpr hb1
  have hb2' : (((lower - upper).toNat : Nat) : Int) < (((q + 1) * (-incr).toNat : Nat) : Int) :=
    Nat.cast_lt.mpr hb2
  push_cast at hb1' hb2'
  rw [hiN, hdN] at hb1' hb2'
  have hqle' : ((q : Nat) : Int) ≤ (((lower - upper).toNat : Nat) : Int) := Nat.cast_le.mpr hqle
  rw [hdN] at hqle'
  have e1 : (((q + 1 : Nat) : Int) - 1) * (-incr) = (q : Int) * (-incr) := by push_cast; ring
  have e2 : ((q + 1 : Nat) : Int) * (-incr) = ((q : Int) + 1) * (-incr) := by push_cast; ring
  refine ⟨by omega, by omega, by omega, by omega⟩

/-- Unique straddling index: exactly one executor chunk of size `c`
starts strictly inside the trip space and reaches its end. -/
theorem straddle_unique {tc c nth : Nat} (hc : 1 ≤ c) (htc : 1 ≤ tc) (hcov : tc ≤ nth * c) :
    ∃! t : Nat, t < nth ∧ t * c < tc ∧ tc ≤ (t + 1) * c := by
  obtain ⟨hb1, hb2⟩ := @trip_mul_bounds (tc - 1) c (by omega)
  refine ⟨(tc - 1) / c, ⟨?_, by omega, by omega⟩, ?_⟩
  · have hlt : (tc - 1) / c * c < nth * c := by omega
    exact Nat.lt_of_mul_lt_mul_right hlt
  · rintro y ⟨hy1, hy2, hy3⟩
    rcases lt_trichotomy y ((tc - 1) / c) with hlt | heq | hgt
    · have : (y + 1) * c ≤ (tc - 1) / c * c := Nat.mul_le_mul_right _ (by omega)
      omega
    · exact heq
    · have : ((tc - 1) / c + 1) * c ≤ y * c := Nat.mul_le_mul_right _ (by omega)
      omega

/-- C5: for every genuinely empty iteration space (upper below lower with
positive increment, or lower below upper with negative increment), the
single-level solver returns the bounds unchanged, sets the stride to the
increment, reports the last-iteration flag false, performs no executor
partitioning and reports no error: the empty range is a success
outcome. -/
theorem c5_zero_trip_success (D : Domain) (flavor : Flavor) (check serialized : Bool)
    (sched : SchedType) (tid nth : Nat) (lower upper strideIn incr chunk : Int)
    (hincr : incr ≠ 0)
    (hempty : if 0 < incr then upper < lower else lower < upper) :
    forStaticInit D flavor check serialized sched tid nth lower upper strideIn incr chunk
      = ⟨lower, upper, incr, false, []⟩ := by
  rw [forStaticInit_zeroTrip D flavor check serialized sched tid nth lower upper strideIn
    incr chunk hempty]
  rw [if_neg (show ¬ (check = true ∧ incr = 0) from fun h => hincr h.2)]

/-- Witness for C5 at the spec example `lower=5, upper=2, incr=1` with the
consistency check enabled. -/
theorem c5_witness :
    forStaticInit i32 Flavor.greedy true false SchedType.static 0 3 5 2 77 1 4
      = ⟨5, 2, 1, false, []⟩ :=
  c5_zero_trip_success i32 Flavor.greedy true false SchedType.static 0 3 5 2 77 1 4
    (by decide) (by decide)

/-- Counterexample to C6 as stated: with a single executor, `lower=0`,
`upper=8` and increment `2`, the code sets the stride to
`upper - lower + 1 = 9`, while the signed trip count is `5`; the claim
that the stride equals the signed trip count for every nonzero increment
is false. -/
theorem c6_counterexample :
    (forStaticInit i32 Flavor.greedy false false SchedType.static 0 1 0 8 77 2 4).stride = 9
    ∧ tripCount i32 0 8 2 = 5
    ∧ (forStaticInit i32 Flavor.greedy false false SchedType.static 0 1 0 8 77 2 4).stride
        ≠ ((tripCount i32 0 8 2 : Nat) : Int) := by
  decide

/-- C6 (amended): for a non-empty iteration space with a single executor
or serialized execution, the solver leaves the full range assigned, sets
the last-iteration flag true, reports no error, and sets the stride to
`upper - lower + 1` for a positive increment and `-(lower - upper + 1)`
for a negative one (computed with wraparound); this stride equals the
signed trip count exactly when the increment is `1` or `-1`, not for
every nonzero increment. -/
theorem c6_single_executor (D : Domain) (flavor : Flavor) (check serialized : Bool)
    (sched : SchedType) (tid nth : Nat) (lower upper strideIn incr chunk : Int)
    (hincr : incr ≠ 0)
    (hne : ¬ (if 0 < incr then upper < lower else lower < upper))
    (hser : serialized = true ∨ nth = 1) :
    forStaticInit D flavor check serialized sched tid nth lower upper strideIn incr chunk
      = ⟨lower, upper,
          if 0 < incr then D.wrapS (upper - lower + 1) else D.wrapS (-(lower - upper + 1)),
          true, []⟩
    ∧ (incr = 1 → upper - lower + 1 < 2 ^ (D.width - 1) →
        serialStride D lower upper incr = ((tripCount D lower upper incr : Nat) : Int))
    ∧ (incr = -1 → lower - upper + 1 < 2 ^ (D.width - 1) →
        serialStride D lower upper incr = -((tripCount D lower upper incr : Nat) : Int)) := by
  have hhalf := D.half_lt_size
  refine ⟨?_, ?_, ?_⟩
  · rw [forStaticInit_serial D flavor check serialized sched tid nth lower upper strideIn
      incr chunk hne hser]
    rw [if_neg (show ¬ (check = true ∧ incr = 0) from fun h => hincr h.2)]
    rfl
  · intro h1 hfit
    subst h1
    have hpos : (0 : Int) < 1 := by norm_num
    have hle : 0 ≤ upper - lower := by
      rw [if_pos hpos] at hne
      omega
    unfold serialStride tripCount
    rw [if_pos hpos, if_pos rfl]
    rw [D.wrapS_eq_self (by omega) (by omega)]
    rw [D.toU_eq (by omega) (by omega)]
  · intro h1 hfit
    subst h1
    have hneg : ¬ ((0 : Int) < -1) := by norm_num
    have hle : 0 ≤ lower - upper := by
      rw [if_neg hneg] at hne
      omega
    unfold serialStride tripCount
    rw [if_neg hneg, if_neg (by norm_num), if_pos rfl]
    rw [D.wrapS_eq_self (by omega) (by omega)]
    rw [D.toU_eq (by omega) (by omega)]

/-- Witness for C6 at `lower=0, upper=9, incr=1, nth=1`: the stride is
the full range width `10`, which for unit increment is the trip count. -/
theorem c6_witness :
    (forStaticInit i32 Flavor.balanced false false SchedType.static 0 1 0 9 77 1 4
      = ⟨0, 9, i32.wrapS (9 - 0 + 1), true, []⟩
    ∧ ((1 : Int) = 1 → (9 : Int) - 0 + 1 < 2 ^ (i32.width - 1) →
        serialStride i32 0 9 1 = ((tripCount i32 0 9 1 : Nat) : Int))
    ∧ ((1 : Int) = -1 → (0 : Int) - 9 + 1 < 2 ^ (i32.width - 1) →
        serialStride i32 0 9 1 = -((tripCount i32 0 9 1 : Nat) : Int)))
    ∧ i32.wrapS (9 - 0 + 1) = 10 := by
  refine ⟨?_, by decide⟩
  have h := c6_single_executor i32 Flavor.balanced false false SchedType.static 0 1 0 9 77 1 4
    (by decide) (by decide) (Or.inr rfl)
  simpa using h

/-- C9: in the single-level solver's chunked policy the returned upper
bound is never clamped: it is always exactly
`lower_i + chunk * incr - incr` in wraparound arithmetic, with no
comparison against the original upper bound or the domain sentinel. -/
theorem c9_chunked_no_clamp (D : Domain) (flavor : Flavor) (check serialized : Bool)
    (tid nth : Nat) (lower upper strideIn incr chunk : Int)
    (hz : ¬ zeroTrip incr lower upper) (hser : ¬ (serialized = true ∨ nth = 1)) :
    (forStaticInit D flavor check serialized SchedType.chunked tid nth
        lower upper strideIn incr chunk).upper
      = D.wrapT ((forStaticInit D flavor check serialized SchedType.chunked tid nth
            lower upper strideIn incr chunk).lower
          + D.wrapS ((if chunk < 1 then 1 else chunk) * incr) - incr) := by
  rw [forStaticInit_chunked D flavor check serialized tid nth lower upper strideIn incr chunk
    hz hser]
  rfl

/-- Witness for C9: with `lower=0, upper=5, incr=1, chunk=10, nth=2` the
executor `0` receives upper bound `9`, strictly above the original upper
bound `5` with no clamping; in the signed 8-bit domain with
`lower=100, upper=101, chunk=100` the unclamped upper bound even wraps
past the domain maximum to `-57`. -/
theorem c9_witness :
    ((forStaticInit i32 Flavor.greedy false false SchedType.chunked 0 2 0 5 77 1 10).upper
      = i32.wrapT ((forStaticInit i32 Flavor.greedy false false SchedType.chunked 0 2
            0 5 77 1 10).lower + i32.wrapS ((if (10 : Int) < 1 then 1 else 10) * 1) - 1))
    ∧ (forStaticInit i32 Flavor.greedy false false SchedType.chunked 0 2 0 5 77 1 10).upper = 9
    ∧ (forStaticInit i8 Flavor.greedy false false SchedType.chunked 0 2
        100 101 77 1 100).upper = -57 := by
  refine ⟨c9_chunked_no_clamp i32 Flavor.greedy false false 0 2 0 5 77 1 10
    (by decide) (by decide), by decide, by decide⟩

/-- C4: under the chunked policy with more than one executor, the solver
clamps the chunk to at least one, and returns
`stride = span * executorCount`, `lower_i = origLower + span * index`,
`upper_i = lower_i + span - incr` with `span = chunk * incr` (all in
wraparound arithmetic, exact whenever the values fit the domain), and
`isLastIteration = (index = ((tripCount - 1) / chunk) % executorCount)`. -/
theorem c4_chunked_formulas (D : Domain) (flavor : Flavor) (check serialized : Bool)
    (tid nth : Nat) (lower upper strideIn incr chunk : Int)
    (hz : ¬ zeroTrip incr lower upper) (hser : ¬ (serialized = true ∨ nth = 1)) :
    (if chunk < 1 then 1 else chunk) = max chunk 1 ∧
    (forStaticInit D flavor check serialized SchedType.chunked tid nth
        lower upper strideIn incr chunk).stride
      = D.wrapS (D.wrapS (max chunk 1 * incr) * nth) ∧
    (forStaticInit D flavor check serialized SchedType.chunked tid nth
        lower upper strideIn incr chunk).lower
      = D.wrapT (lower + D.wrapS (max chunk 1 * incr) * tid) ∧
    (forStaticInit D flavor check serialized SchedType.chunked tid nth
        lower upper strideIn incr chunk).upper
      = D.wrapT ((forStaticInit D flavor check serialized SchedType.chunked tid nth
            lower upper strideIn incr chunk).lower + D.wrapS (max chunk 1 * incr) - incr) ∧
    (forStaticInit D flavor check serialized SchedType.chunked tid nth
        lower upper strideIn incr chunk).last
      = decide (tid = D.toU ((tripCount D lower upper incr : Int) - 1)
          / D.toU (max chunk 1) % nth) ∧
    (1 ≤ tripCount D lower upper incr → (tripCount D lower upper incr : Int) ≤ D.size →
      max chunk 1 < D.size →
      (forStaticInit D flavor check serialized SchedType.chunked tid nth
          lower upper strideIn incr chunk).last
        = decide (tid = (tripCount D lower upper incr - 1) / (max chunk 1).toNat % nth)) ∧
    (-(2 ^ (D.width - 1)) ≤ max chunk 1 * incr → max chunk 1 * incr < 2 ^ (D.width - 1) →
     -(2 ^ (D.width - 1)) ≤ max chunk 1 * incr * nth →
      max chunk 1 * incr * nth < 2 ^ (D.width - 1) →
     D.mn ≤ lower + max chunk 1 * incr * tid → lower + max chunk 1 * incr * tid ≤ D.mx →
     D.mn ≤ lower + max chunk 1 * incr * tid + max chunk 1 * incr - incr →
      lower + max chunk 1 * incr * tid + max chunk 1 * incr - incr ≤ D.mx →
      (forStaticInit D flavor check serialized SchedType.chunked tid nth
          lower upper strideIn incr chunk).stride = max chunk 1 * incr * nth ∧
      (forStaticInit D flavor check serialized SchedType.chunked tid nth
          lower upper strideIn incr chunk).lower = lower + max chunk 1 * incr * tid ∧
      (forStaticInit D flavor check serialized SchedType.chunked tid nth
          lower upper strideIn incr chunk).upper
        = lower + max chunk 1 * incr * tid + max chunk 1 * incr - incr) := by
  have hmaxeq : (if chunk < 1 then 1 else chunk) = max chunk 1 := by
    rcases lt_or_le chunk 1 with h | h
    · rw [if_pos h, max_eq_right (le_of_lt h)]
    · rw [if_neg (not_lt.mpr h), max_eq_left h]
  rw [forStaticInit_chunked D flavor check serialized tid nth lower upper strideIn incr chunk
    hz hser]
  simp only [chunkedBranch]
  rw [hmaxeq]
  have htc1 : 1 ≤ tripCount D lower upper incr → (tripCount D lower upper incr : Int) ≤ D.size →
      max chunk 1 < D.size →
      decide (tid = D.toU ((tripCount D lower upper incr : Int) - 1)
          / D.toU (max chunk 1) % nth)
        = decide (tid = (tripCount D lower upper incr - 1) / (max chunk 1).toNat % nth) := by
    intro ht1 ht2 hch
    have h1 : D.toU ((tripCount D lower upper incr : Int) - 1)
        = tripCount D lower upper incr - 1 := by
      have := @Domain.toU_eq D ((tripCount D lower upper incr : Int) - 1) (by omega) (by omega)
      omega
    have h2 : D.toU (max chunk 1) = (max chunk 1).toNat := by
      have hch1 : (1 : Int) ≤ max chunk 1 := le_max_right _ _
      have := @Domain.toU_eq D (max chunk 1) (by omega) hch
      omega
    rw [h1, h2]
  refine ⟨rfl, rfl, rfl, rfl, rfl, fun a b c => htc1 a b c, ?_⟩
  intro f1 f2 f3 f4 f5 f6 f7 f8
  have hspan : D.wrapS (max chunk 1 * incr) = max chunk 1 * incr := D.wrapS_eq_self f1 f2
  have hhalf := D.half_lt_size
  have hmn0 := D.mn_nonpos
  rw [hspan]
  have hstr : D.wrapS (max chunk 1 * incr * nth) = max chunk 1 * incr * nth :=
    D.wrapS_eq_self f3 f4
  have hlo : D.wrapT (lower + max chunk 1 * incr * tid) = lower + max chunk 1 * incr * tid :=
    D.wrapT_eq_self f5 f6
  rw [hstr, hlo]
  refine ⟨rfl, rfl, ?_⟩
  exact D.wrapT_eq_self f7 f8

/-- Witness for C4 at the spec example `lower=0, upper=19, incr=1,
chunk=2, n=4`: the chunk clamp is a max with one, and the first round
gives executors the ranges `[0,1], [2,3], [4,5], [6,7]` with stride `8`;
the last-iteration flag is true exactly for executor `1` since
`((20-1)/2) % 4 = 1`. -/
theorem c4_witness :
    ((if (2 : Int) < 1 then 1 else 2) = max (2 : Int) 1)
    ∧ ((forStaticInit i32 Flavor.greedy false false SchedType.chunked 0 4 0 19 77 1 2).lower = 0
      ∧ (forStaticInit i32 Flavor.greedy false false SchedType.chunked 0 4 0 19 77 1 2).upper = 1
      ∧ (forStaticInit i32 Flavor.greedy false false SchedType.chunked 0 4 0 19 77 1 2).last
          = false)
    ∧ ((forStaticInit i32 Flavor.greedy false false SchedType.chunked 1 4 0 19 77 1 2).lower = 2
      ∧ (forStaticInit i32 Flavor.greedy false false SchedType.chunked 1 4 0 19 77 1 2).upper = 3
      ∧ (forStaticInit i32 Flavor.greedy false false SchedType.chunked 1 4 0 19 77 1 2).last
          = true)
    ∧ ((forStaticInit i32 Flavor.greedy false false SchedType.chunked 2 4 0 19 77 1 2).lower = 4
      ∧ (forStaticInit i32 Flavor.greedy false false SchedType.chunked 2 4 0 19 77 1 2).upper = 5
      ∧ (forStaticInit i32 Flavor.greedy false false SchedType.chunked 2 4 0 19 77 1 2).last
          = false)
    ∧ ((forStaticInit i32 Flavor.greedy false false SchedType.chunked 3 4 0 19 77 1 2).lower = 6
      ∧ (forStaticInit i32 Flavor.greedy false false SchedType.chunked 3 4 0 19 77 1 2).upper = 7
      ∧ (forStaticInit i32 Flavor.greedy false false SchedType.chunked 3 4 0 19 77 1 2).last
          = false)
    ∧ (forStaticInit i32 Flavor.greedy false false SchedType.chunked 3 4 0 19 77 1 2).stride
        = 8 :=
  ⟨(c4_chunked_formulas i32 Flavor.greedy false false 1 4 0 19 77 1 2
      (by decide) (by decide)).1,
    by decide, by decide, by decide, by decide, by decide⟩

/-- C3: under the balanced policy with at least as many trips as
executors and more than one executor, executor `index` receives
`lower_i = origLower + incr * (index * smallChunk + min index extras)`
and `upper_i = lower_i + smallChunk * incr - (index < extras ? 0 : incr)`
with `smallChunk = tripCount / executorCount` and
`extras = tripCount % executorCount` (wraparound arithmetic, exact on a
legal range), so the first `extras` executors receive `smallChunk + 1`
iterations and the rest `smallChunk`, all sizes differing by at most
one; `isLastIteration = (index = executorCount - 1)`. -/
theorem c3_balanced_formulas (D : Domain) (check serialized : Bool)
    (tid nth : Nat) (lower upper strideIn incr chunk : Int)
    (hz : ¬ zeroTrip incr lower upper) (hser : ¬ (serialized = true ∨ nth = 1))
    (hnth : 1 < nth)
    (hge : ¬ tripCount D lower upper incr < nth) :
    ((forStaticInit D Flavor.balanced check serialized SchedType.static tid nth
        lower upper strideIn incr chunk).lower
      = D.wrapT (lower + incr * (tid * (tripCount D lower upper incr / nth)
          + min tid (tripCount D lower upper incr % nth)))
    ∧ (forStaticInit D Flavor.balanced check serialized SchedType.static tid nth
        lower upper strideIn incr chunk).upper
      = D.wrapT ((forStaticInit D Flavor.balanced check serialized SchedType.static tid nth
            lower upper strideIn incr chunk).lower
          + (tripCount D lower upper incr / nth : Nat) * incr
          - (if tid < tripCount D lower upper incr % nth then 0 else incr))
    ∧ (forStaticInit D Flavor.balanced check serialized SchedType.static tid nth
        lower upper strideIn incr chunk).last
      = decide (tid = nth - 1)
    ∧ (forStaticInit D Flavor.balanced check serialized SchedType.static tid nth
        lower upper strideIn incr chunk).stride = strideIn)
    ∧ (tid < nth →
       D.mn ≤ min lower (lower + ((tripCount D lower upper incr : Int) - 1) * incr) →
       max lower (lower + ((tripCount D lower upper incr : Int) - 1) * incr) ≤ D.mx →
        (forStaticInit D Flavor.balanced check serialized SchedType.static tid nth
            lower upper strideIn incr chunk).lower
          = lower + (bStart tid nth (tripCount D lower upper incr) : Int) * incr
        ∧ (forStaticInit D Flavor.balanced check serialized SchedType.static tid nth
            lower upper strideIn incr chunk).upper
          = (forStaticInit D Flavor.balanced check serialized SchedType.static tid nth
              lower upper strideIn incr chunk).lower
            + ((bSize tid nth (tripCount D lower upper incr) : Int) - 1) * incr
        ∧ bSize tid nth (tripCount D lower upper incr)
            = tripCount D lower upper incr / nth
              + (if tid < tripCount D lower upper incr % nth then 1 else 0)
        ∧ 1 ≤ bSize tid nth (tripCount D lower upper incr)
        ∧ bSize tid nth (tripCount D lower upper incr)
            ≤ tripCount D lower upper incr / nth + 1) := by
  have hnth1 : 1 ≤ nth := by omega
  have htcn : nth ≤ tripCount D lower upper incr := by omega
  constructor
  · rw [forStaticInit_balanced D check serialized tid nth lower upper strideIn incr chunk
      hz hser hge]
    exact ⟨rfl, rfl, rfl, rfl⟩
  · intro htid hg1 hg2
    obtain ⟨e1, e2, e3⟩ := balancedBranch_char D tid nth lower incr
      (tripCount D lower upper incr) hnth1 htcn htid hg1 hg2
    rw [forStaticInit_balanced D check serialized tid nth lower upper strideIn incr chunk
      hz hser hge]
    have hsz := @bSize_pos tid nth (tripCount D lower upper incr) hnth1 htcn
    refine ⟨e1, ?_, rfl, hsz, ?_⟩
    · show (balancedBranch D tid nth lower incr (tripCount D lower upper incr)).2.1 = _
      rw [e2, e1]
      ring
    · unfold bSize
      split <;> omega

/-- Witness for C3 at the spec example: trip count `10`, `nth = 3` gives
sizes `4, 3, 3` in index order, so `idx0:[0,3]`, `idx1:[4,6]`,
`idx2:[7,9]`, with the last-iteration flag true only for index `2`. -/
theorem c3_witness :
    ((forStaticInit i32 Flavor.balanced false false SchedType.static 0 3 0 9 77 1 4).lower
      = i32.wrapT (0 + 1 * ((0 : Nat) * (tripCount i32 0 9 1 / 3)
          + min (0 : Nat) (tripCount i32 0 9 1 % 3)))
    ∧ (forStaticInit i32 Flavor.balanced false false SchedType.static 0 3 0 9 77 1 4).upper
      = i32.wrapT ((forStaticInit i32 Flavor.balanced false false SchedType.static 0 3
            0 9 77 1 4).lower + (tripCount i32 0 9 1 / 3 : Nat) * 1
          - (if (0 : Nat) < tripCount i32 0 9 1 % 3 then 0 else 1))
    ∧ (forStaticInit i32 Flavor.balanced false false SchedType.static 0 3 0 9 77 1 4).last
      = decide ((0 : Nat) = 3 - 1)
    ∧ (forStaticInit i32 Flavor.balanced false false SchedType.static 0 3 0 9 77 1 4).stride
      = 77)
    ∧ ((forStaticInit i32 Flavor.balanced false false SchedType.static 0 3 0 9 77 1 4).lower = 0
      ∧ (forStaticInit i32 Flavor.balanced false false SchedType.static 0 3 0 9 77 1 4).upper = 3
      ∧ (forStaticInit i32 Flavor.balanced false false SchedType.static 1 3 0 9 77 1 4).lower = 4
      ∧ (forStaticInit i32 Flavor.balanced false false SchedType.static 1 3 0 9 77 1 4).upper = 6
      ∧ (forStaticInit i32 Flavor.balanced false false SchedType.static 2 3 0 9 77 1 4).lower = 7
      ∧ (forStaticInit i32 Flavor.balanced false false SchedType.static 2 3 0 9 77 1 4).upper = 9
      ∧ (forStaticInit i32 Flavor.balanced false false SchedType.static 0 3 0 9 77 1 4).last
          = false
      ∧ (forStaticInit i32 Flavor.balanced false false SchedType.static 1 3 0 9 77 1 4).last
          = false
      ∧ (forStaticInit i32 Flavor.balanced false false SchedType.static 2 3 0 9 77 1 4).last
          = true) :=
  ⟨(c3_balanced_formulas i32 false false 0 3 0 9 77 1 4
      (by decide) (by decide) (by decide) (by decide)).1,
    by decide⟩

/-- C2: in the greedy branch with a positive increment, when the raw
chunk end would wrap past the domain maximum the upper bound is first
set to the domain max sentinel and then clamped down to the original
upper bound (the returned upper bound is `min` of the sentinel-corrected
raw end and the original upper bound); afterwards an executor whose
chunk start lies inside the range never has `upper < lower`.
Symmetrically with the domain min sentinel for a negative increment. -/
theorem c2_greedy_overflow_clamp (D : Domain) (check serialized : Bool)
    (tid nth : Nat) (lower upper strideIn incr chunk : Int)
    (hz : ¬ zeroTrip incr lower upper) (hser : ¬ (serialized = true ∨ nth = 1))
    (hnth : 2 ≤ nth)
    (hge : nth ≤ tripCount D lower upper incr) :
    (LegalPos D lower upper incr →
     lower + ((tid * gChunk (tripCount D lower upper incr) nth : Nat) : Int) * incr ≤ upper →
      (forStaticInit D Flavor.greedy check serialized SchedType.static tid nth
          lower upper strideIn incr chunk).upper
        = min (if D.mx < lower
                + ((((tid + 1) * gChunk (tripCount D lower upper incr) nth : Nat) : Int) - 1)
                  * incr
               then D.mx
               else lower
                + ((((tid + 1) * gChunk (tripCount D lower upper incr) nth : Nat) : Int) - 1)
                  * incr)
            upper
      ∧ (forStaticInit D Flavor.greedy check serialized SchedType.static tid nth
          lower upper strideIn incr chunk).lower
        ≤ (forStaticInit D Flavor.greedy check serialized SchedType.static tid nth
            lower upper strideIn incr chunk).upper
      ∧ (forStaticInit D Flavor.greedy check serialized SchedType.static tid nth
          lower upper strideIn incr chunk).upper ≤ upper)
    ∧ (LegalNeg D lower upper incr →
       upper ≤ lower + ((tid * gChunk (tripCount D lower upper incr) nth : Nat) : Int) * incr →
      (forStaticInit D Flavor.greedy check serialized SchedType.static tid nth
          lower upper strideIn incr chunk).upper
        = max (if lower
                + ((((tid + 1) * gChunk (tripCount D lower upper incr) nth : Nat) : Int) - 1)
                  * incr < D.mn
               then D.mn
               else lower
                + ((((tid + 1) * gChunk (tripCount D lower upper incr) nth : Nat) : Int) - 1)
                  * incr)
            upper
      ∧ (forStaticInit D Flavor.greedy check serialized SchedType.static tid nth
          lower upper strideIn incr chunk).upper
        ≤ (forStaticInit D Flavor.greedy check serialized SchedType.static tid nth
            lower upper strideIn incr chunk).lower
      ∧ upper ≤ (forStaticInit D Flavor.greedy check serialized SchedType.static tid nth
          lower upper strideIn incr chunk).upper) := by
  rw [forStaticInit_greedy D check serialized tid nth lower upper strideIn incr chunk
    hz hser (by omega)]
  dsimp only
  constructor
  · intro hp hstart
    obtain ⟨hp1, hp2, hp3, hp4, hp5, hp6, hp7⟩ := hp
    obtain ⟨ht0, ht1, ht2, ht3⟩ := legalPos_trip_bounds D ⟨hp1, hp2, hp3, hp4, hp5, hp6, hp7⟩
    obtain ⟨e1, e2, e3⟩ := greedyBranch_pos_in D tid nth lower upper incr
      (tripCount D lower upper incr) hp1 hp2 hp6 hp3 hnth hge ht1 ht2 hstart
    have hsplit : (tid + 1) * gChunk (tripCount D lower upper incr) nth
        = tid * gChunk (tripCount D lower upper incr) nth
          + gChunk (tripCount D lower upper incr) nth := by ring
    have hc1 : 1 ≤ gChunk (tripCount D lower upper incr) nth := gChunk_pos (by omega) hge
    have hAB : ((tid * gChunk (tripCount D lower upper incr) nth : Nat) : Int) + 1
        ≤ (((tid + 1) * gChunk (tripCount D lower upper incr) nth : Nat) : Int) := by
      have : tid * gChunk (tripCount D lower upper incr) nth + 1
          ≤ (tid + 1) * gChunk (tripCount D lower upper incr) nth := by omega
      exact_mod_cast this
    have hVge : ((tid * gChunk (tripCount D lower upper incr) nth : Nat) : Int) * incr
        ≤ ((((tid + 1) * gChunk (tripCount D lower upper incr) nth : Nat) : Int) - 1) * incr :=
      mul_le_mul_of_nonneg_right (by omega) (le_of_lt hp3)
    refine ⟨?_, ?_, ?_⟩
    · rw [e2]
      rcases le_or_lt (lower
          + ((((tid + 1) * gChunk (tripCount D lower upper incr) nth : Nat) : Int) - 1) * incr)
          D.mx with h | h
      · rw [if_neg (not_lt.mpr h)]
      · rw [if_pos h]
        have h1 : min (lower
            + ((((tid + 1) * gChunk (tripCount D lower upper incr) nth : Nat) : Int) - 1)
              * incr) upper = upper := min_eq_right (by omega)
        have h2 : min D.mx upper = upper := min_eq_right hp2
        rw [h1, h2]
    · rw [e1, e2]
      exact le_min (by omega) hstart
    · rw [e2]
      exact min_le_right _ _
  · intro hn hstart
    obtain ⟨hn1, hn2, hn3, hn4, hn5, hn6, hn7⟩ := hn
    obtain ⟨ht0, ht1, ht2, ht3⟩ := legalNeg_trip_bounds D ⟨hn1, hn2, hn3, hn4, hn5, hn6, hn7⟩
    obtain ⟨e1, e2, e3⟩ := greedyBranch_neg_in D tid nth lower upper incr
      (tripCount D lower upper incr) hn1 hn2 hn6 hn3 hnth hge ht1 ht2 hstart
    have hsplit : (tid + 1) * gChunk (tripCount D lower upper incr) nth
        = tid * gChunk (tripCount D lower upper incr) nth
          + gChunk (tripCount D lower upper incr) nth := by ring
    have hc1 : 1 ≤ gChunk (tripCount D lower upper incr) nth := gChunk_pos (by omega) hge
    have hAB : ((tid * gChunk (tripCount D lower upper incr) nth : Nat) : Int) + 1
        ≤ (((tid + 1) * gChunk (tripCount D lower upper incr) nth : Nat) : Int) := by
      have : tid * gChunk (tripCount D lower upper incr) nth + 1
          ≤ (tid + 1) * gChunk (tripCount D lower upper incr) nth := by omega
      exact_mod_cast this
    have hVle : ((((tid + 1) * gChunk (tripCount D lower upper incr) nth : Nat) : Int) - 1)
          * (-incr)
        ≥ ((tid * gChunk (tripCount D lower upper incr) nth : Nat) : Int) * (-incr) :=
      mul_le_mul_of_nonneg_right (by omega) (by omega)
    have hflip1 : ((((tid + 1) * gChunk (tripCount D lower upper incr) nth : Nat) : Int) - 1)
          * incr
        = -(((((tid + 1) * gChunk (tripCount D lower upper incr) nth : Nat) : Int) - 1)
          * (-incr)) := by ring
    have hflip2 : ((tid * gChunk (tripCount D lower upper incr) nth : Nat) : Int) * incr
        = -(((tid * gChunk (tripCount D lower upper incr) nth : Nat) : Int) * (-incr)) := by
      ring
    refine ⟨?_, ?_, ?_⟩
    · rw [e2]
      rcases le_or_lt D.mn (lower
          + ((((tid + 1) * gChunk (tripCount D lower upper incr) nth : Nat) : Int) - 1) * incr)
          with h | h
      · rw [if_neg (not_lt.mpr h)]
      · rw [if_pos h]
        have h1 : max (lower
            + ((((tid + 1) * gChunk (tripCount D lower upper incr) nth : Nat) : Int) - 1)
              * incr) upper = upper := max_eq_right (by omega)
        have h2 : max D.mn upper = upper := max_eq_right hn1
        rw [h1, h2]
    · rw [e1, e2]
      exact max_le (by omega) hstart
    · rw [e2]
      exact le_max_right _ _

/-- Witness for C2 in the signed 8-bit domain at
`lower=101, upper=127, incr=1, nth=2, tid=1`: the raw chunk end `128`
wraps past the domain maximum `127`, is set to the sentinel and clamped,
yielding the non-empty assignment `[115, 127]`. -/
theorem c2_witness :
    ((forStaticInit i8 Flavor.greedy false false SchedType.static 1 2 101 127 77 1 4).upper
      = min (if i8.mx < 101 + ((((1 + 1) * gChunk (tripCount i8 101 127 1) 2 : Nat) : Int) - 1)
              * 1 then i8.mx
             else 101 + ((((1 + 1) * gChunk (tripCount i8 101 127 1) 2 : Nat) : Int) - 1) * 1)
          127
    ∧ (forStaticInit i8 Flavor.greedy false false SchedType.static 1 2 101 127 77 1 4).lower
      ≤ (forStaticInit i8 Flavor.greedy false false SchedType.static 1 2 101 127 77 1 4).upper
    ∧ (forStaticInit i8 Flavor.greedy false false SchedType.static 1 2 101 127 77 1 4).upper
      ≤ 127)
    ∧ (forStaticInit i8 Flavor.greedy false false SchedType.static 1 2 101 127 77 1 4).lower
        = 115
    ∧ (forStaticInit i8 Flavor.greedy false false SchedType.static 1 2 101 127 77 1 4).upper
        = 127
    ∧ i8.mx < 101 + ((((1 + 1) * gChunk (tripCount i8 101 127 1) 2 : Nat) : Int) - 1) * 1 :=
  ⟨(c2_greedy_overflow_clamp i8 false false 1 2 101 127 77 1 4
      (by decide) (by decide) (by decide) (by decide)).1 (by decide) (by decide),
    by decide, by decide, by decide⟩

/-- Characterization of the iteration points executor `tid` visits under
the greedy policy on a legal upward range with no overflow: they are
exactly the grid points whose trip index lies in
`[tid * gChunk, min ((tid+1) * gChunk) tc)`. -/
theorem greedy_mem_char (D : Domain) (check serialized : Bool)
    (tid nth : Nat) (lower upper strideIn incr chunk : Int)
    (hz : ¬ zeroTrip incr lower upper) (hser : ¬ (serialized = true ∨ nth = 1))
    (hnth : 2 ≤ nth) (hge : nth ≤ tripCount D lower upper incr)
    (hp : LegalPos D lower upper incr) (hH : 2 * upper - lower ≤ D.mx)
    (htid : tid < nth) (x : Int) :
    memAssign (forStaticInit D Flavor.greedy check serialized SchedType.static tid nth
        lower upper strideIn incr chunk) incr x
      ↔ ∃ k : Nat, x = lower + (k : Int) * incr
          ∧ tid * gChunk (tripCount D lower upper incr) nth ≤ k
          ∧ k < min ((tid + 1) * gChunk (tripCount D lower upper incr) nth)
              (tripCount D lower upper incr) := by
  obtain ⟨hp1, hp2, hp3, hp4, hp5, hp6, hp7⟩ := hp
  obtain ⟨ht0, ht1, ht2, ht3⟩ := legalPos_trip_bounds D ⟨hp1, hp2, hp3, hp4, hp5, hp6, hp7⟩
  rw [forStaticInit_greedy D check serialized tid nth lower upper strideIn incr chunk
    hz hser (by omega)]
  unfold memAssign
  dsimp only
  have hc1 : 1 ≤ gChunk (tripCount D lower upper incr) nth := gChunk_pos (by omega) hge
  have hsplit : (tid + 1) * gChunk (tripCount D lower upper incr) nth
      = tid * gChunk (tripCount D lower upper incr) nth
        + gChunk (tripCount D lower upper incr) nth := by ring
  rcases le_or_lt (lower
      + ((tid * gChunk (tripCount D lower upper incr) nth : Nat) : Int) * incr) upper
      with hin | hout
  · obtain ⟨e1, e2, e3⟩ := greedyBranch_pos_in D tid nth lower upper incr
      (tripCount D lower upper incr) hp1 hp2 hp6 hp3 hnth hge ht1 ht2 hin
    rw [e1, e2]
    constructor
    · rintro ⟨hx1, hx2, j, hj⟩
      have hj0 : 0 ≤ j := by
        by_contra hneg
        have : incr * j ≤ incr * (-1) :=
          mul_le_mul_of_nonneg_left (by omega) (le_of_lt hp3)
        omega
      refine ⟨tid * gChunk (tripCount D lower upper incr) nth + j.toNat, ?_, by omega, ?_⟩
      · have hcast : ((tid * gChunk (tripCount D lower upper incr) nth + j.toNat : Nat) : Int)
            = ((tid * gChunk (tripCount D lower upper incr) nth : Nat) : Int) + j := by
          push_cast
          omega
        rw [hcast]
        have e : (((tid * gChunk (tripCount D lower upper incr) nth : Nat) : Int) + j) * incr
            = ((tid * gChunk (tripCount D lower upper incr) nth : Nat) : Int) * incr
              + incr * j := by ring
        omega
      · rw [lt_min_iff]
        have hxv : x = lower
            + (((tid * gChunk (tripCount D lower upper incr) nth : Nat) : Int) + j) * incr := by
          have e : (((tid * gChunk (tripCount D lower upper incr) nth : Nat) : Int) + j) * incr
              = ((tid * gChunk (tripCount D lower upper incr) nth : Nat) : Int) * incr
                + incr * j := by ring
          omega
        constructor
        · have hxle : x ≤ lower
              + ((((tid + 1) * gChunk (tripCount D lower upper incr) nth : Nat) : Int) - 1)
                * incr := le_trans hx2 (min_le_left _ _)
          have hmul : (((tid * gChunk (tripCount D lower upper incr) nth : Nat) : Int) + j)
                * incr
              ≤ ((((tid + 1) * gChunk (tripCount D lower upper incr) nth : Nat) : Int) - 1)
                * incr := by omega
          have hle := le_of_mul_le_mul_right hmul hp3
          omega
        · have hxle : x ≤ upper := le_trans hx2 (min_le_right _ _)
          have hmul : (((tid * gChunk (tripCount D lower upper incr) nth : Nat) : Int) + j)
              * incr < ((tripCount D lower upper incr : Nat) : Int) * incr := by omega
          have hlt := lt_of_mul_lt_mul_right hmul (le_of_lt hp3)
          omega
    · rintro ⟨k, hkx, hk1, hk2⟩
      rw [lt_min_iff] at hk2
      have hk1' : ((tid * gChunk (tripCount D lower upper incr) nth : Nat) : Int) ≤ (k : Int) :=
        by exact_mod_cast hk1
      have hk2a : (k : Int)
          ≤ (((tid + 1) * gChunk (tripCount D lower upper incr) nth : Nat) : Int) - 1 := by
        have : (k : Int) < (((tid + 1) * gChunk (tripCount D lower upper incr) nth : Nat) : Int) :=
          by exact_mod_cast hk2.1
        omega
      have hk2b : (k : Int) ≤ ((tripCount D lower upper incr : Nat) : Int) - 1 := by
        have : (k : Int) < ((tripCount D lower upper incr : Nat) : Int) := by
          exact_mod_cast hk2.2
        omega
      have hm1 : ((tid * gChunk (tripCount D lower upper incr) nth : Nat) : Int) * incr
          ≤ (k : Int) * incr := mul_le_mul_of_nonneg_right hk1' (le_of_lt hp3)
      have hm2 : (k : Int) * incr
          ≤ ((((tid + 1) * gChunk (tripCount D lower upper incr) nth : Nat) : Int) - 1)
            * incr := mul_le_mul_of_nonneg_right hk2a (le_of_lt hp3)
      have hm3 : (k : Int) * incr ≤ ((tripCount D lower upper incr : Nat) : Int) * incr - incr := by
        have := mul_le_mul_of_nonneg_right hk2b (le_of_lt hp3)
        have e : (((tripCount D lower upper incr : Nat) : Int) - 1) * incr
            = ((tripCount D lower upper incr : Nat) : Int) * incr - incr := by ring
        omega
      have ebr : ((tripCount D lower upper incr : Nat) : Int) * incr - incr
          = ((tripCount D lower upper incr : Int) - 1) * incr := by ring
      refine ⟨by omega, le_min (by omega) (by omega), ?_⟩
      refine ⟨(k : Int) - ((tid * gChunk (tripCount D lower upper incr) nth : Nat) : Int), ?_⟩
      have e : ((k : Int) - ((tid * gChunk (tripCount D lower upper incr) nth : Nat) : Int))
            * incr
          = (k : Int) * incr
            - ((tid * gChunk (tripCount D lower upper incr) nth : Nat) : Int) * incr := by ring
      have e2 : incr * ((k : Int)
            - ((tid * gChunk (tripCount D lower upper incr) nth : Nat) : Int))
          = ((k : Int) - ((tid * gChunk (tripCount D lower upper incr) nth : Nat) : Int))
            * incr := by ring
      omega
  · obtain ⟨e1, e2, e3⟩ := greedyBranch_pos_out D tid nth lower upper incr
      (tripCount D lower upper incr) hp1 hp2 hp6 hH hp3 hnth hge htid ht1 hout
    rw [e1, e2]
    have hkout : ((tripCount D lower upper incr : Nat) : Int)
        ≤ ((tid * gChunk (tripCount D lower upper incr) nth : Nat) : Int) := by
      by_contra hlt
      have hle : ((tid * gChunk (tripCount D lower upper incr) nth : Nat) : Int)
          ≤ ((tripCount D lower upper incr : Nat) : Int) - 1 := by omega
      have := mul_le_mul_of_nonneg_right hle (le_of_lt hp3)
      omega
    constructor
    · rintro ⟨hx1, hx2, _⟩
      exfalso
      omega
    · rintro ⟨k, hkx, hk1, hk2⟩
      exfalso
      rw [lt_min_iff] at hk2
      have : (k : Int) < ((tripCount D lower upper incr : Nat) : Int) := by
        exact_mod_cast hk2.2
      have hk1' : ((tid * gChunk (tripCount D lower upper incr) nth : Nat) : Int) ≤ (k : Int) :=
        by exact_mod_cast hk1
      omega

/-- Counterexample to C1 as stated: the legal space `lower=0, upper=3,
incr=1` has trip count `4`, at least the executor count `3`, yet under
the greedy policy executor `2` receives an empty assignment (its lower
bound `4` exceeds its clamped upper bound `3`); so empty assignments are
not restricted to `tripCount < n`. -/
theorem c1_counterexample :
    tripCount i32 0 3 1 = 4
    ∧ 3 ≤ tripCount i32 0 3 1
    ∧ LegalPos i32 0 3 1
    ∧ (forStaticInit i32 Flavor.greedy false false SchedType.static 2 3 0 3 77 1 4).upper
        < (forStaticInit i32 Flavor.greedy false false SchedType.static 2 3 0 3 77 1 4).lower := by
  decide

/-- C1 (amended): for a legal upward iteration space whose greedy chunk
arithmetic does not overflow the domain (`2 * upper - lower ≤ mx`) and
`tripCount ≥ executorCount > 1`, the union of the greedy-assigned ranges
over all executors is exactly the set of iteration points of
`[lower, upper]`, with no overlap and no gap; executor `index` receives
an empty assignment if and only if `index * ceil(tripCount / n) ≥
tripCount`, which can also happen when `tripCount ≥ n`. -/
theorem c1_greedy_union (D : Domain) (check serialized : Bool) (nth : Nat)
    (lower upper strideIn incr chunk : Int)
    (hz : ¬ zeroTrip incr lower upper) (hser : ¬ (serialized = true ∨ nth = 1))
    (hnth : 2 ≤ nth) (hge : nth ≤ tripCount D lower upper incr)
    (hp : LegalPos D lower upper incr) (hH : 2 * upper - lower ≤ D.mx) :
    (∀ x : Int,
      (∃ tid : Nat, tid < nth ∧ memAssign (forStaticInit D Flavor.greedy check serialized
          SchedType.static tid nth lower upper strideIn incr chunk) incr x)
        ↔ (∃ k : Nat, k < tripCount D lower upper incr ∧ x = lower + (k : Int) * incr))
    ∧ (∀ t1 t2 : Nat, ∀ x : Int, t1 < nth → t2 < nth →
        memAssign (forStaticInit D Flavor.greedy check serialized SchedType.static t1 nth
          lower upper strideIn incr chunk) incr x →
        memAssign (forStaticInit D Flavor.greedy check serialized SchedType.static t2 nth
          lower upper strideIn incr chunk) incr x → t1 = t2)
    ∧ (∀ tid : Nat, tid < nth →
        ((forStaticInit D Flavor.greedy check serialized SchedType.static tid nth
            lower upper strideIn incr chunk).upper
          < (forStaticInit D Flavor.greedy check serialized SchedType.static tid nth
              lower upper strideIn incr chunk).lower
          ↔ tripCount D lower upper incr
              ≤ tid * gChunk (tripCount D lower upper incr) nth)) := by
  obtain ⟨hp1, hp2, hp3, hp4, hp5, hp6, hp7⟩ := hp
  obtain ⟨ht0, ht1, ht2, ht3⟩ := legalPos_trip_bounds D ⟨hp1, hp2, hp3, hp4, hp5, hp6, hp7⟩
  have hc1 : 1 ≤ gChunk (tripCount D lower upper incr) nth := gChunk_pos (by omega) hge
  have hcov := @le_nth_mul_gChunk (tripCount D lower upper incr) nth (by omega)
  refine ⟨?_, ?_, ?_⟩
  · intro x
    constructor
    · rintro ⟨tid, htid, hmem⟩
      obtain ⟨k, hkx, hk1, hk2⟩ := (greedy_mem_char D check serialized tid nth lower upper
        strideIn incr chunk hz hser hnth hge ⟨hp1, hp2, hp3, hp4, hp5, hp6, hp7⟩ hH htid x).mp
        hmem
      rw [lt_min_iff] at hk2
      exact ⟨k, hk2.2, hkx⟩
    · rintro ⟨k, hk, hkx⟩
      have htid : k / gChunk (tripCount D lower upper incr) nth < nth := by
        rw [Nat.div_lt_iff_lt_mul (by omega)]
        have e : nth * gChunk (tripCount D lower upper incr) nth
            = gChunk (tripCount D lower upper incr) nth * nth := by ring
        omega
      refine ⟨k / gChunk (tripCount D lower upper incr) nth, htid, ?_⟩
      apply (greedy_mem_char D check serialized _ nth lower upper strideIn incr chunk
        hz hser hnth hge ⟨hp1, hp2, hp3, hp4, hp5, hp6, hp7⟩ hH htid x).mpr
      obtain ⟨hb1, hb2⟩ :=
        @trip_mul_bounds k (gChunk (tripCount D lower upper incr) nth) (by omega)
      exact ⟨k, hkx, hb1, lt_min_iff.mpr ⟨hb2, hk⟩⟩
  · intro t1 t2 x ht1' ht2' hm1 hm2
    obtain ⟨k1, hkx1, hka1, hkb1⟩ := (greedy_mem_char D check serialized t1 nth lower upper
      strideIn incr chunk hz hser hnth hge ⟨hp1, hp2, hp3, hp4, hp5, hp6, hp7⟩ hH ht1' x).mp hm1
    obtain ⟨k2, hkx2, hka2, hkb2⟩ := (greedy_mem_char D check serialized t2 nth lower upper
      strideIn incr chunk hz hser hnth hge ⟨hp1, hp2, hp3, hp4, hp5, hp6, hp7⟩ hH ht2' x).mp hm2
    have hkk : k1 = k2 := by
      have hmul : (k1 : Int) * incr = (k2 : Int) * incr := by omega
      have := mul_right_cancel₀ (ne_of_gt hp3) hmul
      exact_mod_cast this
    subst hkk
    rw [lt_min_iff] at hkb1 hkb2
    rcases lt_trichotomy t1 t2 with h | h | h
    · exfalso
      have : (t1 + 1) * gChunk (tripCount D lower upper incr) nth
          ≤ t2 * gChunk (tripCount D lower upper incr) nth :=
        Nat.mul_le_mul_right _ (by omega)
      omega
    · exact h
    · exfalso
      have : (t2 + 1) * gChunk (tripCount D lower upper incr) nth
          ≤ t1 * gChunk (tripCount D lower upper incr) nth :=
        Nat.mul_le_mul_right _ (by omega)
      omega
  · intro tid htid
    rw [forStaticInit_greedy D check serialized tid nth lower upper strideIn incr chunk
      hz hser (by omega)]
    dsimp only
    constructor
    · intro hlt
      by_contra hnle
      have hin : lower + ((tid * gChunk (tripCount D lower upper incr) nth : Nat) : Int) * incr
          ≤ upper := by
        have hA : ((tid * gChunk (tripCount D lower upper incr) nth : Nat) : Int)
            ≤ (tripCount D lower upper incr : Int) - 1 := by
          have : (tid * gChunk (tripCount D lower upper incr) nth : Nat)
              < tripCount D lower upper incr := by omega
          have hcast : ((tid * gChunk (tripCount D lower upper incr) nth : Nat) : Int)
              < (tripCount D lower upper incr : Int) := by exact_mod_cast this
          omega
        have := mul_le_mul_of_nonneg_right hA (le_of_lt hp3)
        omega
      obtain ⟨e1, e2, e3⟩ := greedyBranch_pos_in D tid nth lower upper incr
        (tripCount D lower upper incr) hp1 hp2 hp6 hp3 hnth hge ht1 ht2 hin
      rw [e1, e2] at hlt
      have hsplit : (tid + 1) * gChunk (tripCount D lower upper incr) nth
          = tid * gChunk (tripCount D lower upper incr) nth
            + gChunk (tripCount D lower upper incr) nth := by ring
      have hAB : ((tid * gChunk (tripCount D lower upper incr) nth : Nat) : Int) + 1
          ≤ (((tid + 1) * gChunk (tripCount D lower upper incr) nth : Nat) : Int) := by
        have : tid * gChunk (tripCount D lower upper incr) nth + 1
            ≤ (tid + 1) * gChunk (tripCount D lower upper incr) nth := by omega
        exact_mod_cast this
      have hVge : ((tid * gChunk (tripCount D lower upper incr) nth : Nat) : Int) * incr
          ≤ ((((tid + 1) * gChunk (tripCount D lower upper incr) nth : Nat) : Int) - 1)
            * incr := mul_le_mul_of_nonneg_right (by omega) (le_of_lt hp3)
      rw [min_lt_iff] at hlt
      rcases hlt with hlt | hlt <;> omega
    · intro hout
      have hA : (tripCount D lower upper incr : Int)
          ≤ ((tid * gChunk (tripCount D lower upper incr) nth : Nat) : Int) := by
        exact_mod_cast hout
      have hstart : upper
          < lower + ((tid * gChunk (tripCount D lower upper incr) nth : Nat) : Int) * incr := by
        have := mul_le_mul_of_nonneg_right hA (le_of_lt hp3)
        omega
      obtain ⟨e1, e2, e3⟩ := greedyBranch_pos_out D tid nth lower upper incr
        (tripCount D lower upper incr) hp1 hp2 hp6 hH hp3 hnth hge htid ht1 hstart
      rw [e1, e2]
      omega

/-- Witness for C1 at `lower=0, upper=9, incr=1, nth=3`: the three
greedy assignments `[0,3], [4,7], [8,9]` cover the ten iteration points
exactly once, and no executor is empty. -/
theorem c1_witness :
    ((∀ x : Int,
      (∃ tid : Nat, tid < 3 ∧ memAssign (forStaticInit i32 Flavor.greedy false false
          SchedType.static tid 3 0 9 77 1 4) 1 x)
        ↔ (∃ k : Nat, k < tripCount i32 0 9 1 ∧ x = 0 + (k : Int) * 1))
    ∧ (∀ t1 t2 : Nat, ∀ x : Int, t1 < 3 → t2 < 3 →
        memAssign (forStaticInit i32 Flavor.greedy false false SchedType.static t1 3
          0 9 77 1 4) 1 x →
        memAssign (forStaticInit i32 Flavor.greedy false false SchedType.static t2 3
          0 9 77 1 4) 1 x → t1 = t2)
    ∧ (∀ tid : Nat, tid < 3 →
        ((forStaticInit i32 Flavor.greedy false false SchedType.static tid 3
            0 9 77 1 4).upper
          < (forStaticInit i32 Flavor.greedy false false SchedType.static tid 3
              0 9 77 1 4).lower
          ↔ tripCount i32 0 9 1 ≤ tid * gChunk (tripCount i32 0 9 1) 3)))
    ∧ memAssign (forStaticInit i32 Flavor.greedy false false SchedType.static 1 3
        0 9 77 1 4) 1 5
    ∧ ¬ memAssign (forStaticInit i32 Flavor.greedy false false SchedType.static 2 3
        0 9 77 1 4) 1 5 :=
  ⟨c1_greedy_union i32 false false 3 0 9 77 1 4 (by decide) (by decide) (by decide)
      (by decide) (by decide) (by decide),
    by decide, by decide⟩

theorem Domain.half_le_mx (D : Domain) : 2 ^ (D.width - 1) - 1 ≤ D.mx := by
  have h := D.two_pow_pred
  have h1 : (0 : Int) < 2 ^ (D.width - 1) := by positivity
  unfold Domain.mx
  cases D.signed <;> simp only [if_true, if_false, Bool.false_eq_true] <;> unfold Domain.size at * <;> omega

/-- On a legal range the trip counts of `__kmp_for_static_init` and of
the distribute and team solvers agree, positive increment. -/
theorem tripCount_eq_distTripCount_pos (D : Domain) {lower upper incr : Int}
    (h1 : 0 ≤ upper - lower) (h2 : upper - lower < 2 ^ (D.width - 1)) (h4 : 0 < incr)
    (h5 : incr < 2 ^ (D.width - 1)) :
    tripCount D lower upper incr = distTripCount D lower upper incr := by
  have hh1 := D.half_le_mx
  have hh2 := D.half_lt_size
  rw [tripCount_pos_char D h1 (by omega) (by omega) h4 (by omega),
    distTripCount_pos_char D h1 h2 h4]

/-- On a legal range the trip counts of `__kmp_for_static_init` and of
the distribute and team solvers agree, negative increment. -/
theorem tripCount_eq_distTripCount_neg (D : Domain) {lower upper incr : Int}
    (h1 : 0 ≤ lower - upper) (h2 : lower - upper < 2 ^ (D.width - 1)) (h4 : incr < 0)
    (h5 : -(2 ^ (D.width - 1)) < incr) :
    tripCount D lower upper incr = distTripCount D lower upper incr := by
  have hh1 := D.half_le_mx
  have hh2 := D.half_lt_size
  rw [tripCount_neg_char D h1 (by omega) (by omega) h4 h5,
    distTripCount_neg_char D h1 h2 h4]

/-- C8: for a non-empty legal iteration space, the team chunk solver
computes exactly the chunked formula of the single-level solver with the
team count and index in place of the executor count and index (same
lower bound, stride and last-iteration flag), and then clamps the
resulting upper bound to the domain sentinel on wraparound and to the
original upper bound; its last-iteration flag is
`teamIndex = ((tripCount - 1) / chunk) % teamCount`. -/
theorem c8_team_chunk_solver (D : Domain) (flavor : Flavor) (check checkT : Bool)
    (team_id nteams : Nat) (lower upper strideIn incr chunk : Int)
    (hz : ¬ zeroTrip incr lower upper) (hn2 : 2 ≤ nteams)
    (hST : -(2 ^ (D.width - 1)) < incr ∧ incr < 2 ^ (D.width - 1)) (hincr0 : incr ≠ 0)
    (hfitp : 0 < incr → upper - lower < 2 ^ (D.width - 1))
    (hfitn : incr < 0 → lower - upper < 2 ^ (D.width - 1)) :
    (teamStaticInit D checkT team_id nteams lower upper incr chunk).lower
      = (forStaticInit D flavor check false SchedType.chunked team_id nteams
          lower upper strideIn incr chunk).lower
    ∧ (teamStaticInit D checkT team_id nteams lower upper incr chunk).stride
      = (forStaticInit D flavor check false SchedType.chunked team_id nteams
          lower upper strideIn incr chunk).stride
    ∧ (teamStaticInit D checkT team_id nteams lower upper incr chunk).last
      = (forStaticInit D flavor check false SchedType.chunked team_id nteams
          lower upper strideIn incr chunk).last
    ∧ (teamStaticInit D checkT team_id nteams lower upper incr chunk).upper
      = (if 0 < incr then
          min (if (forStaticInit D flavor check false SchedType.chunked team_id nteams
                  lower upper strideIn incr chunk).upper
                < (forStaticInit D flavor check false SchedType.chunked team_id nteams
                    lower upper strideIn incr chunk).lower
               then D.mx
               else (forStaticInit D flavor check false SchedType.chunked team_id nteams
                  lower upper strideIn incr chunk).upper) upper
         else
          max (if (forStaticInit D flavor check false SchedType.chunked team_id nteams
                  lower upper strideIn incr chunk).lower
                < (forStaticInit D flavor check false SchedType.chunked team_id nteams
                    lower upper strideIn incr chunk).upper
               then D.mn
               else (forStaticInit D flavor check false SchedType.chunked team_id nteams
                  lower upper strideIn incr chunk).upper) upper)
    ∧ (teamStaticInit D checkT team_id nteams lower upper incr chunk).last
      = decide (team_id = D.toU ((distTripCount D lower upper incr : Int) - 1)
          / D.toU (max chunk 1) % nteams) := by
  have htr : tripCount D lower upper incr = distTripCount D lower upper incr := by
    rcases lt_trichotomy incr 0 with h | h | h
    · unfold zeroTrip at hz
      rw [if_neg (by omega)] at hz
      exact tripCount_eq_distTripCount_neg D (by omega) (hfitn h) h hST.1
    · exact absurd h hincr0
    · unfold zeroTrip at hz
      rw [if_pos h] at hz
      exact tripCount_eq_distTripCount_pos D (by omega) (hfitp h) h hST.2
  have hmaxeq : (if chunk < 1 then 1 else chunk) = max chunk 1 := by
    rcases lt_or_le chunk 1 with h | h
    · rw [if_pos h, max_eq_right (le_of_lt h)]
    · rw [if_neg (not_lt.mpr h), max_eq_left h]
  rw [forStaticInit_chunked D flavor check false team_id nteams lower upper strideIn incr chunk
    hz (by simp; omega)]
  simp only [teamStaticInit]
  rw [htr]
  refine ⟨rfl, rfl, rfl, ?_, ?_⟩
  · rcases lt_trichotomy incr 0 with h | h | h
    · rw [if_neg (not_lt.mpr (le_of_lt h)), if_neg (not_lt.mpr (le_of_lt h))]
      rcases lt_or_le (chunkedBranch D team_id nteams lower incr chunk
          (distTripCount D lower upper incr)).1
          (chunkedBranch D team_id nteams lower incr chunk
            (distTripCount D lower upper incr)).2.1 with hw | hw
      · rw [if_pos hw]
        rcases lt_or_le (chunkedBranch D team_id nteams lower incr chunk
            (distTripCount D lower upper incr)).1 D.mn with hq | hq
        · rcases lt_or_le D.mn upper with h2 | h2
          · rw [if_pos h2, max_eq_right (le_of_lt h2)]
          · rw [if_neg (not_lt.mpr h2), max_eq_left h2]
        · rcases lt_or_le D.mn upper with h2 | h2
          · rw [if_pos h2, max_eq_right (le_of_lt h2)]
          · rw [if_neg (not_lt.mpr h2), max_eq_left h2]
      · rw [if_neg (not_lt.mpr hw)]
        rcases lt_or_le (chunkedBranch D team_id nteams lower incr chunk
            (distTripCount D lower upper incr)).2.1 upper with h2 | h2
        · rw [if_pos h2, max_eq_right (le_of_lt h2)]
        · rw [if_neg (not_lt.mpr h2), max_eq_left h2]
    · exact absurd h hincr0
    · rw [if_pos h, if_pos h]
      rcases lt_or_le (chunkedBranch D team_id nteams lower incr chunk
          (distTripCount D lower upper incr)).2.1
          (chunkedBranch D team_id nteams lower incr chunk
            (distTripCount D lower upper incr)).1 with hw | hw
      · rw [if_pos hw]
        rcases lt_or_le upper D.mx with h2 | h2
        · rw [if_pos h2, min_eq_right (le_of_lt h2)]
        · rw [if_neg (not_lt.mpr h2), min_eq_left h2]
      · rw [if_neg (not_lt.mpr hw)]
        rcases lt_or_le upper (chunkedBranch D team_id nteams lower incr chunk
            (distTripCount D lower upper incr)).2.1 with h2 | h2
        · rw [if_pos h2, min_eq_right (le_of_lt h2)]
        · rw [if_neg (not_lt.mpr h2), min_eq_left h2]
  · show (chunkedBranch D team_id nteams lower incr chunk
        (distTripCount D lower upper incr)).2.2.2 = _
    unfold chunkedBranch
    rw [hmaxeq]

/-- Witness for C8 at `lower=0, upper=19, incr=1, chunk=2, nteams=4`,
team `1`: the team solver agrees with the single-level chunked formula
(`[2,3]`, stride `8`, last flag true) and its upper bound is the clamped
raw chunk end. -/
theorem c8_witness :
    ((teamStaticInit i32 false 1 4 0 19 1 2).lower
      = (forStaticInit i32 Flavor.greedy false false SchedType.chunked 1 4
          0 19 77 1 2).lower
    ∧ (teamStaticInit i32 false 1 4 0 19 1 2).stride
      = (forStaticInit i32 Flavor.greedy false false SchedType.chunked 1 4
          0 19 77 1 2).stride
    ∧ (teamStaticInit i32 false 1 4 0 19 1 2).last
      = (forStaticInit i32 Flavor.greedy false false SchedType.chunked 1 4
          0 19 77 1 2).last
    ∧ (teamStaticInit i32 false 1 4 0 19 1 2).upper
      = (if (0 : Int) < 1 then
          min (if (forStaticInit i32 Flavor.greedy false false SchedType.chunked 1 4
                  0 19 77 1 2).upper
                < (forStaticInit i32 Flavor.greedy false false SchedType.chunked 1 4
                    0 19 77 1 2).lower
               then i32.mx
               else (forStaticInit i32 Flavor.greedy false false SchedType.chunked 1 4
                  0 19 77 1 2).upper) 19
         else
          max (if (forStaticInit i32 Flavor.greedy false false SchedType.chunked 1 4
                  0 19 77 1 2).lower
                < (forStaticInit i32 Flavor.greedy false false SchedType.chunked 1 4
                    0 19 77 1 2).upper
               then i32.mn
               else (forStaticInit i32 Flavor.greedy false false SchedType.chunked 1 4
                  0 19 77 1 2).upper) 19)
    ∧ (teamStaticInit i32 false 1 4 0 19 1 2).last
      = decide ((1 : Nat) = i32.toU ((distTripCount i32 0 19 1 : Int) - 1)
          / i32.toU (max 2 1) % 4))
    ∧ (teamStaticInit i32 false 1 4 0 19 1 2).lower = 2
    ∧ (teamStaticInit i32 false 1 4 0 19 1 2).upper = 3
    ∧ (teamStaticInit i32 false 1 4 0 19 1 2).stride = 8
    ∧ (teamStaticInit i32 false 1 4 0 19 1 2).last = true :=
  ⟨c8_team_chunk_solver i32 Flavor.greedy false false 1 4 0 19 77 1 2
      (by decide) (by decide) (by decide) (by decide) (fun h => by decide) (fun h => by decide),
    by decide, by decide, by decide, by decide⟩

theorem Domain.wrapS_neg_ne_zero (D : Domain) {incr : Int}
    (h1 : -(2 ^ (D.width - 1)) ≤ incr) (h2 : incr < -1) : D.wrapS (-incr) ≠ 0 := by
  have hp := D.two_pow_pred
  rcases lt_or_le (-incr) (2 ^ (D.width - 1)) with hx | hx
  · rw [D.wrapS_eq_self (by omega) hx]
    omega
  · have hxe : -incr = 2 ^ (D.width - 1) := by omega
    unfold Domain.wrapS
    rw [hxe]
    have e : (2 : Int) ^ (D.width - 1) + 2 ^ (D.width - 1) = D.size := by
      unfold Domain.size
      omega
    rw [e, Int.emod_self]
    have h0 : (0 : Int) < 2 ^ (D.width - 1) := by positivity
    omega

theorem Domain.wrapS_neg_emod_ne_zero (D : Domain) {incr : Int}
    (h1 : -(2 ^ (D.width - 1)) ≤ incr) (h2 : incr < -1) :
    D.wrapS (-incr) % D.size ≠ 0 := by
  have hh := D.half_lt_size
  rw [D.wrapS_emod, Int.emod_eq_of_lt (by omega) (by omega)]
  omega

theorem Domain.toU_clamp_ne_zero (D : Domain) {chunk : Int} (h : chunk < D.size) :
    (D.toU (if chunk < 1 then 1 else chunk) : Int) ≠ 0 := by
  have hh := D.half_lt_size
  have h0 : (0 : Int) < 2 ^ (D.width - 1) := by positivity
  rcases lt_or_le chunk 1 with hc | hc
  · rw [if_pos hc, D.toU_eq (by omega) (by omega)]
    omega
  · rw [if_neg (not_lt.mpr hc), D.toU_eq (by omega) h]
    omega

theorem tripDivisors_ne_zero (D : Domain) {incr : Int} (h0 : incr ≠ 0)
    (h1 : -(2 ^ (D.width - 1)) ≤ incr) (h2 : incr < 2 ^ (D.width - 1)) :
    (0 : Int) ∉ tripDivisors D incr := by
  unfold tripDivisors
  have hh := D.half_lt_size
  split_ifs with ha hb hc hs hs2
  · simp
  · simp
  · intro hmem
    rw [List.mem_singleton] at hmem
    omega
  · intro hmem
    rw [List.mem_singleton] at hmem
    rw [Int.emod_eq_of_lt (by omega) (by omega)] at hmem
    omega
  · intro hmem
    rw [List.mem_singleton] at hmem
    exact D.wrapS_neg_ne_zero h1 (by omega) hmem.symm
  · intro hmem
    rw [List.mem_singleton] at hmem
    exact D.wrapS_neg_emod_ne_zero h1 (by omega) hmem.symm

theorem distTripDivisors_ne_zero {incr : Int} (h0 : incr ≠ 0) :
    (0 : Int) ∉ distTripDivisors incr := by
  unfold distTripDivisors
  split_ifs with ha hb
  · simp
  · simp
  · intro hmem
    rw [List.mem_singleton] at hmem
    omega

theorem Domain.toU_one (D : Domain) : (D.toU 1 : Int) = 1 := by
  have hh := D.half_lt_size
  have h0 : (0 : Int) < 2 ^ (D.width - 1) := by positivity
  exact D.toU_eq (by omega) (by omega)

theorem forStaticDivisors_ne_zero (D : Domain) (serialized : Bool)
    (sched : SchedType) (nth : Nat) (lower upper incr chunk : Int)
    (h0 : incr ≠ 0) (h1 : -(2 ^ (D.width - 1)) ≤ incr)
    (h2 : incr < 2 ^ (D.width - 1)) (hnth : 1 ≤ nth) (hchunk : chunk < D.size) :
    (0 : Int) ∉ forStaticDivisors D serialized sched nth lower upper incr chunk := by
  have hnt : nth ≠ 0 := by omega
  cases sched with
  | static =>
    intro hmem
    simp only [forStaticDivisors] at hmem
    split_ifs at hmem with hz hs hf
    · simp at hmem
    · simp at hmem
    · rw [List.append_nil] at hmem
      exact tripDivisors_ne_zero D h0 h1 h2 hmem
    · rw [List.mem_append] at hmem
      rcases hmem with hmem | hmem
      · exact tripDivisors_ne_zero D h0 h1 h2 hmem
      · rw [List.mem_cons, List.mem_singleton] at hmem
        rcases hmem with hmem | hmem <;> omega
  | chunked =>
    intro hmem
    simp only [forStaticDivisors] at hmem
    split_ifs at hmem with hz hs hc
    · simp at hmem
    · simp at hmem
    · rw [List.mem_append] at hmem
      rcases hmem with hmem | hmem
      · exact tripDivisors_ne_zero D h0 h1 h2 hmem
      · rw [List.mem_cons, List.mem_singleton] at hmem
        have h1' := D.toU_one
        rcases hmem with hmem | hmem
        · omega
        · omega
    · rw [List.mem_append] at hmem
      rcases hmem with hmem | hmem
      · exact tripDivisors_ne_zero D h0 h1 h2 hmem
      · rw [List.mem_cons, List.mem_singleton] at hmem
        have h1' := @Domain.toU_eq D chunk (by omega) hchunk
        rcases hmem with hmem | hmem
        · omega
        · omega

theorem distThreadDivisors_ne_zero (D : Domain) (sched : SchedType) (nth : Nat)
    (lo1 upD incr chunk : Int) (h0 : incr ≠ 0) (hnth : 1 ≤ nth)
    (hchunk : chunk < D.size) :
    (0 : Int) ∉ distThreadDivisors D sched nth lo1 upD incr chunk := by
  have hnt : nth ≠ 0 := by omega
  cases sched with
  | static =>
    intro hmem
    simp only [distThreadDivisors] at hmem
    split_ifs at hmem with hf
    · rw [List.append_nil] at hmem
      exact distTripDivisors_ne_zero h0 hmem
    · rw [List.mem_append] at hmem
      rcases hmem with hmem | hmem
      · exact distTripDivisors_ne_zero h0 hmem
      · rw [List.mem_cons, List.mem_singleton] at hmem
        rcases hmem with hmem | hmem <;> omega
  | chunked =>
    intro hmem
    simp only [distThreadDivisors] at hmem
    split_ifs at hmem with hc
    · rw [List.mem_append] at hmem
      rcases hmem with hmem | hmem
      · exact distTripDivisors_ne_zero h0 hmem
      · rw [List.mem_cons, List.mem_singleton] at hmem
        have h1' := D.toU_one
        rcases hmem with hmem | hmem
        · omega
        · omega
    · rw [List.mem_append] at hmem
      rcases hmem with hmem | hmem
      · exact distTripDivisors_ne_zero h0 hmem
      · rw [List.mem_cons, List.mem_singleton] at hmem
        have h1' := @Domain.toU_eq D chunk (by omega) hchunk
        rcases hmem with hmem | hmem
        · omega
        · omega

theorem distDivisors_ne_zero (D : Domain) (flavor : Flavor) (sched : SchedType)
    (nth team_id nteams : Nat) (lower upper incr chunk : Int)
    (h0 : incr ≠ 0) (hnth : 1 ≤ nth) (hnteams : 1 ≤ nteams)
    (hchunk : chunk < D.size) :
    (0 : Int) ∉ distDivisors D flavor sched nth team_id nteams lower upper incr chunk := by
  have hnt : nteams ≠ 0 := by omega
  cases flavor with
  | balanced =>
    intro hmem
    simp only [distDivisors] at hmem
    split_ifs at hmem with hf
    · rw [List.append_nil] at hmem
      exact distTripDivisors_ne_zero h0 hmem
    · rw [List.mem_append] at hmem
      rcases hmem with hmem | hmem
      · exact distTripDivisors_ne_zero h0 hmem
      · rw [List.cons_append, List.cons_append, List.nil_append,
          List.mem_cons, List.mem_cons] at hmem
        rcases hmem with hmem | hmem | hmem
        · omega
        · omega
        · exact distThreadDivisors_ne_zero D sched nth _ _ incr chunk h0 hnth hchunk hmem
  | greedy =>
    intro hmem
    simp only [distDivisors] at hmem
    split_ifs at hmem with hf hg
    · rw [List.append_nil] at hmem
      exact distTripDivisors_ne_zero h0 hmem
    · rw [List.append_nil] at hmem
      rw [List.mem_append] at hmem
      rcases hmem with hmem | hmem
      · exact distTripDivisors_ne_zero h0 hmem
      · rw [List.mem_cons, List.mem_singleton] at hmem
        rcases hmem with hmem | hmem <;> omega
    · rw [List.mem_append] at hmem
      rcases hmem with hmem | hmem
      · exact distTripDivisors_ne_zero h0 hmem
      · rw [List.cons_append, List.cons_append, List.nil_append,
          List.mem_cons, List.mem_cons] at hmem
        rcases hmem with hmem | hmem | hmem
        · omega
        · omega
        · exact distThreadDivisors_ne_zero D sched nth _ _ incr chunk h0 hnth hchunk hmem
    · rw [List.append_nil] at hmem
      rw [List.mem_append] at hmem
      rcases hmem with hmem | hmem
      · exact distTripDivisors_ne_zero h0 hmem
      · rw [List.mem_cons, List.mem_singleton] at hmem
        rcases hmem with hmem | hmem <;> omega
    · rw [List.mem_append] at hmem
      rcases hmem with hmem | hmem
      · exact distTripDivisors_ne_zero h0 hmem
      · rw [List.cons_append, List.cons_append, List.nil_append,
          List.mem_cons, List.mem_cons] at hmem
        rcases hmem with hmem | hmem | hmem
        · omega
        · omega
        · exact distThreadDivisors_ne_zero D sched nth _ _ incr chunk h0 hnth hchunk hmem

theorem teamDivisors_ne_zero (D : Domain) (nteams : Nat) (incr chunk : Int)
    (h0 : incr ≠ 0) (hnteams : 1 ≤ nteams) (hchunk : chunk < D.size) :
    (0 : Int) ∉ teamDivisors D nteams incr chunk := by
  have hnt : nteams ≠ 0 := by omega
  intro hmem
  simp only [teamDivisors] at hmem
  split_ifs at hmem with hc
  · rw [List.mem_append] at hmem
    rcases hmem with hmem | hmem
    · exact distTripDivisors_ne_zero h0 hmem
    · rw [List.mem_cons, List.mem_singleton] at hmem
      have h1' := D.toU_one
      rcases hmem with hmem | hmem
      · omega
      · omega
  · rw [List.mem_append] at hmem
    rcases hmem with hmem | hmem
    · exact distTripDivisors_ne_zero h0 hmem
    · rw [List.mem_cons, List.mem_singleton] at hmem
      have h1' := @Domain.toU_eq D chunk (by omega) hchunk
      rcases hmem with hmem | hmem
      · omega
      · omega

/-- C10: for every input whose increment is nonzero and representable in the
signed companion type, with at least one executor, one team and one thread,
and a chunk value representable in the type, every division and modulus
performed by `__kmp_for_static_init`, `__kmp_dist_for_static_init` and
`__kmp_team_static_init` — as collected in evaluation order by
`forStaticDivisors`, `distDivisors` and `teamDivisors` — has a nonzero
divisor: the trip-count division only occurs for |increment| > 1, divisions
by the executor/team count only occur on branches where that count is below
the trip count, and divisions by the chunk occur only after it has been
clamped to at least 1. -/
theorem c10_nonzero_divisors (D : Domain) (flavor : Flavor) (sched : SchedType)
    (serialized : Bool) (nth team_id nteams : Nat) (lower upper incr chunk : Int)
    (h0 : incr ≠ 0) (h1 : -(2 ^ (D.width - 1)) ≤ incr)
    (h2 : incr < 2 ^ (D.width - 1)) (hnth : 1 ≤ nth) (hnteams : 1 ≤ nteams)
    (hchunk : chunk < D.size) :
    (0 : Int) ∉ forStaticDivisors D serialized sched nth lower upper incr chunk
    ∧ (0 : Int) ∉ distDivisors D flavor sched nth team_id nteams lower upper incr chunk
    ∧ (0 : Int) ∉ teamDivisors D nteams incr chunk :=
  ⟨forStaticDivisors_ne_zero D serialized sched nth lower upper incr chunk
      h0 h1 h2 hnth hchunk,
    distDivisors_ne_zero D flavor sched nth team_id nteams lower upper incr chunk
      h0 hnth hnteams hchunk,
    teamDivisors_ne_zero D nteams incr chunk h0 hnteams hchunk⟩

theorem c10_witness :
    (0 : Int) ∉ forStaticDivisors i8 false SchedType.chunked 2 0 9 (-2) 3
    ∧ (0 : Int) ∉ distDivisors i8 Flavor.greedy SchedType.chunked 2 0 2 0 9 (-2) 3
    ∧ (0 : Int) ∉ teamDivisors i8 2 (-2) 3 :=
  c10_nonzero_divisors i8 Flavor.greedy SchedType.chunked false 2 0 2 0 9 (-2) 3
    (by decide) (by decide) (by decide) (by decide) (by decide) (by decide)

theorem fewerBranch_last (D : Domain) (tid : Nat) (lower upper incr : Int) (tc : Nat) :
    (fewerBranch D tid lower upper incr tc).2.2
      = decide (tid = D.toU ((tc : Int) - 1)) := by
  unfold fewerBranch
  split_ifs <;> rfl

theorem balancedBranch_lastflag (D : Domain) (tid nth : Nat) (lower incr : Int) (tc : Nat) :
    (balancedBranch D tid nth lower incr tc).2.2 = decide (tid = nth - 1) := rfl

theorem chunkedBranch_lastflag (D : Domain) (tid nth : Nat) (lower incr chunk : Int) (tc : Nat) :
    (chunkedBranch D tid nth lower incr chunk tc).2.2.2
      = decide (tid = D.toU ((tc : Int) - 1) / D.toU (if chunk < 1 then 1 else chunk) % nth) := rfl

theorem distThreadPhase_last (D : Domain) (flavor : Flavor) (sched : SchedType)
    (tid nth : Nat) (lo1 upperG upD stride0 incr chunk : Int)
    (lastTeam : Bool) (errs : List KmpError) :
    (distThreadPhase D flavor sched tid nth lo1 upperG upD stride0 incr chunk lastTeam errs).last
      = (lastTeam && distThreadLastCond D flavor sched tid nth lo1 upD incr chunk) := by
  simp only [distThreadPhase, distThreadLastCond]
  cases sched with
  | static =>
    by_cases h : distTripCount D lo1 upD incr ≤ nth
    · simp only [if_pos h]
      rw [fewerBranch_last]
    · simp only [if_neg h]
      cases flavor <;> rfl
  | chunked => rfl

theorem greedyBranch_pos_one (D : Domain) (lower upper incr : Int) (tc : Nat)
    (hmn : D.mn ≤ lower) (hmx : upper ≤ D.mx)
    (hincr : 0 < incr) (htc : 2 ≤ tc)
    (htp1 : ((tc : Int) - 1) * incr ≤ upper - lower)
    (htp2 : upper - lower < (tc : Int) * incr) :
    (greedyBranch D 0 1 lower upper incr tc).1 = lower ∧
    (greedyBranch D 0 1 lower upper incr tc).2.1 = lower + ((tc : Int) - 1) * incr ∧
    (greedyBranch D 0 1 lower upper incr tc).2.2 = true := by
  have hmn0 := D.mn_nonpos
  have hincr1' : incr ≤ ((tc : Int) - 1) * incr := by
    have e : incr * 1 ≤ incr * ((tc : Int) - 1) :=
      mul_le_mul_of_nonneg_left (by omega) (le_of_lt hincr)
    have e2 : incr * ((tc : Int) - 1) = ((tc : Int) - 1) * incr := by ring
    omega
  have hU1 : 0 ≤ ((tc : Int) - 1) * incr :=
    mul_nonneg (by omega) (le_of_lt hincr)
  have hgceq : (tc / 1 + if tc % 1 = 0 then 0 else 1) = tc := by
    simp [Nat.div_one, Nat.mod_one]
  simp only [greedyBranch, Nat.cast_zero, zero_mul, add_zero]
  rw [if_pos hincr, hgceq]
  have hlo : D.wrapT lower = lower := D.wrapT_eq_self hmn (by omega)
  rw [hlo, D.wrapT_absorb_mid]
  have e3 : lower + (tc : Int) * incr - incr = lower + ((tc : Int) - 1) * incr := by ring
  rw [e3]
  have hU : D.wrapT (lower + ((tc : Int) - 1) * incr) = lower + ((tc : Int) - 1) * incr :=
    D.wrapT_eq_self (by omega) (by omega)
  rw [hU]
  rw [if_neg (by omega : ¬ (lower + ((tc : Int) - 1) * incr < lower))]
  refine ⟨rfl, ?_, ?_⟩
  · rw [if_neg (by omega : ¬ (upper < lower + ((tc : Int) - 1) * incr))]
  · have hui : D.wrapT (upper - incr) = upper - incr :=
      D.wrapT_eq_self (by omega) (by omega)
    rw [hui]
    exact decide_eq_true ⟨by omega, by omega⟩

theorem forStatic_last_unique (D : Domain) (flavor : Flavor) (sched : SchedType)
    (check : Bool) (nth : Nat) (lower upper strideIn incr chunk : Int)
    (hL : LegalPos D lower upper incr) (hH : 2 * upper - lower ≤ D.mx)
    (hnth : 1 ≤ nth) :
    ∃! tid : Nat, tid < nth ∧
      (forStaticInit D flavor check false sched tid nth lower upper strideIn
          incr chunk).last = true := by
  obtain ⟨hmn, hmx, hincr, hST, hle, hdiff, hsize⟩ := hL
  have hz : ¬ zeroTrip incr lower upper := by
    unfold zeroTrip
    rw [if_pos hincr]
    omega
  by_cases hone : nth = 1
  · subst hone
    refine ⟨0, ⟨by omega, ?_⟩, ?_⟩
    · rw [forStaticInit_serial D flavor check false sched 0 1 lower upper strideIn
        incr chunk hz (Or.inr rfl)]
    · rintro y ⟨hy, h2⟩
      omega
  · have hser : ¬ ((false = true) ∨ nth = 1) := by simp [hone]
    have hnth2 : 2 ≤ nth := by omega
    obtain ⟨htc1, htp1, htp2, htcsz⟩ :=
      legalPos_trip_bounds D ⟨hmn, hmx, hincr, hST, hle, hdiff, hsize⟩
    cases sched with
    | chunked =>
      refine ⟨D.toU ((tripCount D lower upper incr : Int) - 1)
          / D.toU (if chunk < 1 then 1 else chunk) % nth,
        ⟨Nat.mod_lt _ (by omega), ?_⟩, ?_⟩
      · rw [forStaticInit_chunked D flavor check false _ nth lower upper strideIn
          incr chunk hz hser]
        rw [chunkedBranch_lastflag]
        exact decide_eq_true rfl
      · rintro y ⟨hy, h2⟩
        rw [forStaticInit_chunked D flavor check false _ nth lower upper strideIn
          incr chunk hz hser] at h2
        rw [chunkedBranch_lastflag] at h2
        exact of_decide_eq_true h2
    | static =>
      by_cases hlt : tripCount D lower upper incr < nth
      · have htoU : D.toU ((tripCount D lower upper incr : Int) - 1)
            = tripCount D lower upper incr - 1 := by
          have h := @Domain.toU_eq D ((tripCount D lower upper incr : Int) - 1)
            (by omega) (by omega)
          omega
        refine ⟨tripCount D lower upper incr - 1, ⟨by omega, ?_⟩, ?_⟩
        · rw [forStaticInit_fewer D flavor check false _ nth lower upper strideIn
            incr chunk hz hser hlt]
          rw [fewerBranch_last, htoU]
          exact decide_eq_true rfl
        · rintro y ⟨hy, h2⟩
          rw [forStaticInit_fewer D flavor check false _ nth lower upper strideIn
            incr chunk hz hser hlt] at h2
          rw [fewerBranch_last, htoU] at h2
          exact of_decide_eq_true h2
      · cases flavor with
        | balanced =>
          refine ⟨nth - 1, ⟨by omega, ?_⟩, ?_⟩
          · rw [forStaticInit_balanced D check false _ nth lower upper strideIn
              incr chunk hz hser hlt]
            rw [balancedBranch_lastflag]
            exact decide_eq_true rfl
          · rintro y ⟨hy, h2⟩
            rw [forStaticInit_balanced D check false _ nth lower upper strideIn
              incr chunk hz hser hlt] at h2
            rw [balancedBranch_lastflag] at h2
            exact of_decide_eq_true h2
        | greedy =>
          have htcn : nth ≤ tripCount D lower upper incr := by omega
          have hc1 : 1 ≤ gChunk (tripCount D lower upper incr) nth :=
            gChunk_pos (by omega) htcn
          have hcov : tripCount D lower upper incr
              ≤ nth * gChunk (tripCount D lower upper incr) nth :=
            le_nth_mul_gChunk (by omega)
          obtain ⟨t, ⟨ht1, ht2, ht3⟩, htu⟩ := straddle_unique hc1 (by omega) hcov
          have hstart : ∀ y : Nat, y * gChunk (tripCount D lower upper incr) nth
              < tripCount D lower upper incr →
              lower + ((y * gChunk (tripCount D lower upper incr) nth : Nat) : Int) * incr
                ≤ upper := by
            intro y hy
            have hyc : ((y * gChunk (tripCount D lower upper incr) nth : Nat) : Int)
                ≤ (tripCount D lower upper incr : Int) - 1 := by omega
            have hmul : ((y * gChunk (tripCount D lower upper incr) nth : Nat) : Int) * incr
                ≤ ((tripCount D lower upper incr : Int) - 1) * incr :=
              mul_le_mul_of_nonneg_right hyc (le_of_lt hincr)
            omega
          refine ⟨t, ⟨ht1, ?_⟩, ?_⟩
          · rw [forStaticInit_greedy D check false t nth lower upper strideIn
              incr chunk hz hser hlt]
            have hin := greedyBranch_pos_in D t nth lower upper incr
              (tripCount D lower upper incr) hmn hmx hdiff hincr hnth2 htcn htp1 htp2
              (hstart t ht2)
            rw [hin.2.2]
            exact decide_eq_true ht3
          · rintro y ⟨hy, h2⟩
            rw [forStaticInit_greedy D check false y nth lower upper strideIn
              incr chunk hz hser hlt] at h2
            rcases le_or_lt
                (lower + ((y * gChunk (tripCount D lower upper incr) nth : Nat) : Int) * incr)
                upper with hs | hs
            · have hin := greedyBranch_pos_in D y nth lower upper incr
                (tripCount D lower upper incr) hmn hmx hdiff hincr hnth2 htcn htp1 htp2 hs
              rw [hin.2.2] at h2
              have hylt : y * gChunk (tripCount D lower upper incr) nth
                  < tripCount D lower upper incr := by
                by_contra hcon
                push_neg at hcon
                have hm2 : ((tripCount D lower upper incr : Nat) : Int) * incr
                    ≤ ((y * gChunk (tripCount D lower upper incr) nth : Nat) : Int) * incr :=
                  mul_le_mul_of_nonneg_right (by exact_mod_cast hcon) (le_of_lt hincr)
                omega
              exact htu y ⟨hy, hylt, of_decide_eq_true h2⟩
            · have hout := greedyBranch_pos_out D y nth lower upper incr
                (tripCount D lower upper incr) hmn hmx hdiff hH hincr hnth2 htcn hy htp1 hs
              rw [hout.2.2] at h2
              exact Bool.noConfusion h2

theorem distThreadLastCond_unique (D : Domain) (flavor : Flavor) (sched : SchedType)
    (nth : Nat) (lo1 upD incr chunk : Int)
    (hL : LegalPos D lo1 upD incr) (hD : upD - lo1 < 2 ^ (D.width - 1))
    (hH : 2 * upD - lo1 ≤ D.mx) (hnth : 1 ≤ nth) :
    ∃! tid : Nat, tid < nth ∧
      distThreadLastCond D flavor sched tid nth lo1 upD incr chunk = true := by
  obtain ⟨hmn, hmx, hincr, hST, hle, hdiff, hsize⟩ := hL
  have htceq : tripCount D lo1 upD incr = distTripCount D lo1 upD incr :=
    tripCount_eq_distTripCount_pos D (by omega) hD hincr hST
  obtain ⟨htc1, htp1, htp2, htcsz⟩ :=
    legalPos_trip_bounds D ⟨hmn, hmx, hincr, hST, hle, hdiff, hsize⟩
  rw [htceq] at htc1 htp1 htp2 htcsz
  cases sched with
  | chunked =>
    refine ⟨D.toU ((distTripCount D lo1 upD incr : Int) - 1)
        / D.toU (if chunk < 1 then 1 else chunk) % nth,
      ⟨Nat.mod_lt _ (by omega), ?_⟩, ?_⟩
    · simp only [distThreadLastCond]
      rw [chunkedBranch_lastflag]
      exact decide_eq_true rfl
    · rintro y ⟨hy, h2⟩
      simp only [distThreadLastCond] at h2
      rw [chunkedBranch_lastflag] at h2
      exact of_decide_eq_true h2
  | static =>
    by_cases hfew : distTripCount D lo1 upD incr ≤ nth
    · have htoU : D.toU ((distTripCount D lo1 upD incr : Int) - 1)
          = distTripCount D lo1 upD incr - 1 := by
        have h := @Domain.toU_eq D ((distTripCount D lo1 upD incr : Int) - 1)
          (by omega) (by omega)
        omega
      refine ⟨distTripCount D lo1 upD incr - 1, ⟨by omega, ?_⟩, ?_⟩
      · simp only [distThreadLastCond]
        rw [if_pos hfew, htoU]
        exact decide_eq_true rfl
      · rintro y ⟨hy, h2⟩
        simp only [distThreadLastCond] at h2
        rw [if_pos hfew, htoU] at h2
        exact of_decide_eq_true h2
    · cases flavor with
      | balanced =>
        refine ⟨nth - 1, ⟨by omega, ?_⟩, ?_⟩
        · simp only [distThreadLastCond]
          rw [if_neg hfew, balancedBranch_lastflag]
          exact decide_eq_true rfl
        · rintro y ⟨hy, h2⟩
          simp only [distThreadLastCond] at h2
          rw [if_neg hfew, balancedBranch_lastflag] at h2
          exact of_decide_eq_true h2
      | greedy =>
        by_cases hone : nth = 1
        · subst hone
          refine ⟨0, ⟨by omega, ?_⟩, ?_⟩
          · simp only [distThreadLastCond]
            rw [if_neg hfew]
            exact (greedyBranch_pos_one D lo1 upD incr
              (distTripCount D lo1 upD incr) hmn hmx hincr (by omega) htp1 htp2).2.2
          · rintro y ⟨hy, h2⟩
            omega
        · have hnth2 : 2 ≤ nth := by omega
          have htcn : nth ≤ distTripCount D lo1 upD incr := by omega
          have hc1 : 1 ≤ gChunk (distTripCount D lo1 upD incr) nth :=
            gChunk_pos (by omega) htcn
          have hcov : distTripCount D lo1 upD incr
              ≤ nth * gChunk (distTripCount D lo1 upD incr) nth :=
            le_nth_mul_gChunk (by omega)
          obtain ⟨t, ⟨ht1, ht2, ht3⟩, htu⟩ := straddle_unique hc1 (by omega) hcov
          have hstart : ∀ y : Nat, y * gChunk (distTripCount D lo1 upD incr) nth
              < distTripCount D lo1 upD incr →
              lo1 + ((y * gChunk (distTripCount D lo1 upD incr) nth : Nat) : Int) * incr
                ≤ upD := by
            intro y hy
            have hyc : ((y * gChunk (distTripCount D lo1 upD incr) nth : Nat) : Int)
                ≤ (distTripCount D lo1 upD incr : Int) - 1 := by omega
            have hmul : ((y * gChunk (distTripCount D lo1 upD incr) nth : Nat) : Int) * incr
                ≤ ((distTripCount D lo1 upD incr : Int) - 1) * incr :=
              mul_le_mul_of_nonneg_right hyc (le_of_lt hincr)
            omega
          refine ⟨t, ⟨ht1, ?_⟩, ?_⟩
          · simp only [distThreadLastCond]
            rw [if_neg hfew]
            have hin := greedyBranch_pos_in D t nth lo1 upD incr
              (distTripCount D lo1 upD incr) hmn hmx hdiff hincr hnth2 htcn htp1 htp2
              (hstart t ht2)
            rw [hin.2.2]
            exact decide_eq_true ht3
          · rintro y ⟨hy, h2⟩
            simp only [distThreadLastCond] at h2
            rw [if_neg hfew] at h2
            rcases le_or_lt
                (lo1 + ((y * gChunk (distTripCount D lo1 upD incr) nth : Nat) : Int) * incr)
                upD with hs | hs
            · have hin := greedyBranch_pos_in D y nth lo1 upD incr
                (distTripCount D lo1 upD incr) hmn hmx hdiff hincr hnth2 htcn htp1 htp2 hs
              rw [hin.2.2] at h2
              have hylt : y * gChunk (distTripCount D lo1 upD incr) nth
                  < distTripCount D lo1 upD incr := by
                by_contra hcon
                push_neg at hcon
                have hm2 : ((distTripCount D lo1 upD incr : Nat) : Int) * incr
                    ≤ ((y * gChunk (distTripCount D lo1 upD incr) nth : Nat) : Int) * incr :=
                  mul_le_mul_of_nonneg_right (by exact_mod_cast hcon) (le_of_lt hincr)
                omega
              exact htu y ⟨hy, hylt, of_decide_eq_true h2⟩
            · have hout := greedyBranch_pos_out D y nth lo1 upD incr
                (distTripCount D lo1 upD incr) hmn hmx hdiff hH hincr hnth2 htcn hy htp1 hs
              rw [hout.2.2] at h2
              exact Bool.noConfusion h2

theorem dist_last_few (D : Domain) (flavor : Flavor) (sched : SchedType) (check : Bool)
    (tid nth team_id nteams : Nat) (lower upper incr chunk : Int)
    (hfew : distTripCount D lower upper incr ≤ nteams) :
    (distForStaticInit D flavor check sched tid nth team_id nteams lower upper
        incr chunk).last
      = decide (tid = 0 ∧ team_id = D.toU ((distTripCount D lower upper incr : Int) - 1)) := by
  simp only [distForStaticInit]
  rw [if_pos hfew]
  by_cases h : team_id < distTripCount D lower upper incr ∧ tid = 0
  · rw [if_pos h]
  · rw [if_neg h]

theorem dist_last_and (D : Domain) (flavor : Flavor) (sched : SchedType) (check : Bool)
    (tid nth team_id nteams : Nat) (lower upper incr chunk : Int)
    (hmn : D.mn ≤ lower) (hmx : upper ≤ D.mx) (hdiff : upper - lower ≤ D.mx)
    (hH : 2 * upper - lower ≤ D.mx) (hincr : 0 < incr)
    (hteam : team_id < nteams)
    (hfew : nteams < distTripCount D lower upper incr)
    (htp1 : ((distTripCount D lower upper incr : Int) - 1) * incr ≤ upper - lower)
    (htp2 : upper - lower < (distTripCount D lower upper incr : Int) * incr) :
    (distForStaticInit D flavor check sched tid nth team_id nteams lower upper
        incr chunk).last
      = (distTeamLastCand D flavor team_id nteams lower upper incr
          && distThreadLastCond D flavor sched tid nth
               (distTeamRange D flavor team_id nteams lower upper incr).1
               (distTeamRange D flavor team_id nteams lower upper incr).2 incr chunk) := by
  cases flavor with
  | balanced =>
    simp only [distForStaticInit, distTeamLastCand, distTeamRange]
    rw [if_neg (by omega : ¬ distTripCount D lower upper incr ≤ nteams)]
    rw [distThreadPhase_last]
  | greedy =>
    simp only [distForStaticInit, distTeamLastCand, distTeamRange]
    rw [if_neg (by omega : ¬ distTripCount D lower upper incr ≤ nteams)]
    simp only [if_pos hincr]
    by_cases hone : nteams = 1
    · have h0 : team_id = 0 := by omega
      subst h0
      subst hone
      have hp1 := greedyBranch_pos_one D lower upper incr
        (distTripCount D lower upper incr) hmn hmx hincr (by omega) htp1 htp2
      have hne : ¬ ((greedyBranch D 0 1 lower upper incr
            (distTripCount D lower upper incr)).2.1
          < (greedyBranch D 0 1 lower upper incr
            (distTripCount D lower upper incr)).1) := by
        rw [hp1.1, hp1.2.1]
        have h0' : 0 ≤ ((distTripCount D lower upper incr : Int) - 1) * incr :=
          mul_nonneg (by omega) (le_of_lt hincr)
        generalize hE : ((distTripCount D lower upper incr : Int) - 1) * incr = E at h0' ⊢
        omega
      rw [if_neg hne, distThreadPhase_last]
    · have hnt2 : 2 ≤ nteams := by omega
      have htcn : nteams ≤ distTripCount D lower upper incr := by omega
      rcases le_or_lt
          (lower + ((team_id * gChunk (distTripCount D lower upper incr) nteams : Nat) : Int)
            * incr) upper with hs | hs
      · have hin := greedyBranch_pos_in D team_id nteams lower upper incr
          (distTripCount D lower upper incr) hmn hmx hdiff hincr hnt2 htcn htp1 htp2 hs
        have hne : ¬ ((greedyBranch D team_id nteams lower upper incr
              (distTripCount D lower upper incr)).2.1
            < (greedyBranch D team_id nteams lower upper incr
              (distTripCount D lower upper incr)).1) := by
          rw [hin.1, hin.2.1]
          have hgle : ((team_id * gChunk (distTripCount D lower upper incr) nteams : Nat) : Int)
              ≤ (((team_id + 1) * gChunk (distTripCount D lower upper incr) nteams : Nat) : Int)
                - 1 := by
            have hc1 : 1 ≤ gChunk (distTripCount D lower upper incr) nteams :=
              gChunk_pos (by omega) htcn
            have e : (team_id + 1) * gChunk (distTripCount D lower upper incr) nteams
                = team_id * gChunk (distTripCount D lower upper incr) nteams
                  + gChunk (distTripCount D lower upper incr) nteams := by ring
            omega
          have hmono : ((team_id * gChunk (distTripCount D lower upper incr) nteams : Nat)
                : Int) * incr
              ≤ ((((team_id + 1) * gChunk (distTripCount D lower upper incr) nteams : Nat)
                : Int) - 1) * incr :=
            mul_le_mul_of_nonneg_right hgle (le_of_lt hincr)
          generalize hA : ((team_id * gChunk (distTripCount D lower upper incr) nteams : Nat)
              : Int) * incr = A at hmono hs ⊢
          generalize hB : ((((team_id + 1) * gChunk (distTripCount D lower upper incr) nteams
              : Nat) : Int) - 1) * incr = B at hmono ⊢
          omega
        rw [if_neg hne, distThreadPhase_last]
      · have hout := greedyBranch_pos_out D team_id nteams lower upper incr
          (distTripCount D lower upper incr) hmn hmx hdiff hH hincr hnt2 htcn hteam htp1 hs
        have hyes : ((greedyBranch D team_id nteams lower upper incr
              (distTripCount D lower upper incr)).2.1
            < (greedyBranch D team_id nteams lower upper incr
              (distTripCount D lower upper incr)).1) := by
          rw [hout.1, hout.2.1]
          exact hs
        rw [if_pos hyes, hout.2.2, Bool.false_and]

theorem dist_last_unique (D : Domain) (flavor : Flavor) (sched : SchedType) (check : Bool)
    (nth nteams : Nat) (lower upper incr chunk : Int)
    (hL : LegalPos D lower upper incr) (hD2 : upper - lower < 2 ^ (D.width - 1))
    (hH : 2 * upper - lower ≤ D.mx) (hnth : 1 ≤ nth) (hnteams : 1 ≤ nteams) :
    ∃! p : Nat × Nat, p.1 < nteams ∧ p.2 < nth ∧
      (distForStaticInit D flavor check sched p.2 nth p.1 nteams lower upper
          incr chunk).last = true := by
  obtain ⟨hmn, hmx, hincr, hST, hle, hdiff, hsize⟩ := hL
  have htceq : tripCount D lower upper incr = distTripCount D lower upper incr :=
    tripCount_eq_distTripCount_pos D (by omega) hD2 hincr hST
  obtain ⟨htc1, htp1, htp2, htcsz⟩ :=
    legalPos_trip_bounds D ⟨hmn, hmx, hincr, hST, hle, hdiff, hsize⟩
  rw [htceq] at htc1 htp1 htp2 htcsz
  by_cases hfew : distTripCount D lower upper incr ≤ nteams
  · have htoU : D.toU ((distTripCount D lower upper incr : Int) - 1)
        = distTripCount D lower upper incr - 1 := by
      have h := @Domain.toU_eq D ((distTripCount D lower upper incr : Int) - 1)
        (by omega) (by omega)
      omega
    refine ⟨(distTripCount D lower upper incr - 1, 0), ⟨by omega, by omega, ?_⟩, ?_⟩
    · rw [dist_last_few D flavor sched check 0 nth _ nteams lower upper incr chunk hfew,
        htoU]
      exact decide_eq_true ⟨rfl, rfl⟩
    · rintro ⟨a, b⟩ ⟨ha, hb, h2⟩
      rw [dist_last_few D flavor sched check b nth a nteams lower upper incr chunk hfew,
        htoU] at h2
      obtain ⟨h3, h4⟩ := of_decide_eq_true h2
      simp only [Prod.mk.injEq]
      exact ⟨h4, h3⟩
  · push_neg at hfew
    cases flavor with
    | balanced =>
      have hRchar1 : (distTeamRange D Flavor.balanced (nteams - 1) nteams lower upper incr).1
          = lower + ((bStart (nteams - 1) nteams (distTripCount D lower upper incr)
              : Nat) : Int) * incr := by
        have h0' : 0 ≤ ((distTripCount D lower upper incr : Int) - 1) * incr :=
          mul_nonneg (by omega) (le_of_lt hincr)
        have hg1 : D.mn ≤ min lower
            (lower + ((distTripCount D lower upper incr : Int) - 1) * incr) := by
          generalize hE : ((distTripCount D lower upper incr : Int) - 1) * incr = E at h0' ⊢
          omega
        have hg2 : max lower
            (lower + ((distTripCount D lower upper incr : Int) - 1) * incr) ≤ D.mx := by
          generalize hE : ((distTripCount D lower upper incr : Int) - 1) * incr = E
            at h0' htp1 ⊢
          omega
        exact (balancedBranch_char D (nteams - 1) nteams lower incr
          (distTripCount D lower upper incr) hnteams (by omega) (by omega) hg1 hg2).1
      have hRchar2 : (distTeamRange D Flavor.balanced (nteams - 1) nteams lower upper incr).2
          = lower + (((bStart (nteams - 1) nteams (distTripCount D lower upper incr)
              : Nat) : Int)
            + ((bSize (nteams - 1) nteams (distTripCount D lower upper incr) : Nat) : Int)
            - 1) * incr := by
        have h0' : 0 ≤ ((distTripCount D lower upper incr : Int) - 1) * incr :=
          mul_nonneg (by omega) (le_of_lt hincr)
        have hg1 : D.mn ≤ min lower
            (lower + ((distTripCount D lower upper incr : Int) - 1) * incr) := by
          generalize hE : ((distTripCount D lower upper incr : Int) - 1) * incr = E at h0' ⊢
          omega
        have hg2 : max lower
            (lower + ((distTripCount D lower upper incr : Int) - 1) * incr) ≤ D.mx := by
          generalize hE : ((distTripCount D lower upper incr : Int) - 1) * incr = E
            at h0' htp1 ⊢
          omega
        exact (balancedBranch_char D (nteams - 1) nteams lower incr
          (distTripCount D lower upper incr) hnteams (by omega) (by omega) hg1 hg2).2.1
      have hz1 : 1 ≤ bSize (nteams - 1) nteams (distTripCount D lower upper incr) :=
        bSize_pos hnteams (by omega)
      have hsum : bStart (nteams - 1) nteams (distTripCount D lower upper incr)
          + bSize (nteams - 1) nteams (distTripCount D lower upper incr)
          ≤ distTripCount D lower upper incr :=
        bStart_add_bSize_le hnteams (by omega)
      have hkey : lower
            ≤ (distTeamRange D Flavor.balanced (nteams - 1) nteams lower upper incr).1
          ∧ (distTeamRange D Flavor.balanced (nteams - 1) nteams lower upper incr).1
            ≤ (distTeamRange D Flavor.balanced (nteams - 1) nteams lower upper incr).2
          ∧ (distTeamRange D Flavor.balanced (nteams - 1) nteams lower upper incr).2
            ≤ upper := by
        rw [hRchar1, hRchar2]
        have hc1 : ((bStart (nteams - 1) nteams (distTripCount D lower upper incr)
              : Nat) : Int)
            ≤ ((bStart (nteams - 1) nteams (distTripCount D lower upper incr) : Nat) : Int)
              + ((bSize (nteams - 1) nteams (distTripCount D lower upper incr) : Nat) : Int)
              - 1 := by omega
        have hc2 : ((bStart (nteams - 1) nteams (distTripCount D lower upper incr)
              : Nat) : Int)
              + ((bSize (nteams - 1) nteams (distTripCount D lower upper incr) : Nat) : Int)
              - 1
            ≤ (distTripCount D lower upper incr : Int) - 1 := by omega
        have hA0 : 0 ≤ ((bStart (nteams - 1) nteams (distTripCount D lower upper incr)
              : Nat) : Int) * incr :=
          mul_nonneg (by positivity) (le_of_lt hincr)
        have hAB : ((bStart (nteams - 1) nteams (distTripCount D lower upper incr)
              : Nat) : Int) * incr
            ≤ (((bStart (nteams - 1) nteams (distTripCount D lower upper incr)
                : Nat) : Int)
              + ((bSize (nteams - 1) nteams (distTripCount D lower upper incr) : Nat) : Int)
              - 1) * incr :=
          mul_le_mul_of_nonneg_right hc1 (le_of_lt hincr)
        have hBE : (((bStart (nteams - 1) nteams (distTripCount D lower upper incr)
                : Nat) : Int)
              + ((bSize (nteams - 1) nteams (distTripCount D lower upper incr) : Nat) : Int)
              - 1) * incr
            ≤ ((distTripCount D lower upper incr : Int) - 1) * incr :=
          mul_le_mul_of_nonneg_right hc2 (le_of_lt hincr)
        generalize hA : ((bStart (nteams - 1) nteams (distTripCount D lower upper incr)
            : Nat) : Int) * incr = A at hA0 hAB ⊢
        generalize hB : (((bStart (nteams - 1) nteams (distTripCount D lower upper incr)
              : Nat) : Int)
            + ((bSize (nteams - 1) nteams (distTripCount D lower upper incr) : Nat) : Int)
            - 1) * incr = B at hAB hBE ⊢
        generalize hE : ((distTripCount D lower upper incr : Int) - 1) * incr = E
          at hBE htp1
        exact ⟨by omega, by omega, by omega⟩
      obtain ⟨hk1, hk2, hk3⟩ := hkey
      obtain ⟨t, ⟨ht1, ht2⟩, htu⟩ := distThreadLastCond_unique D Flavor.balanced sched nth
        (distTeamRange D Flavor.balanced (nteams - 1) nteams lower upper incr).1
        (distTeamRange D Flavor.balanced (nteams - 1) nteams lower upper incr).2 incr chunk
        ⟨by omega, by omega, hincr, hST, by omega, by omega, by omega⟩
        (by omega) (by omega) hnth
      have hcand : distTeamLastCand D Flavor.balanced (nteams - 1) nteams lower upper incr
          = true := by
        simp only [distTeamLastCand]
        rw [balancedBranch_lastflag]
        exact decide_eq_true rfl
      refine ⟨(nteams - 1, t), ⟨by omega, ht1, ?_⟩, ?_⟩
      · rw [dist_last_and D Flavor.balanced sched check t nth (nteams - 1) nteams lower
          upper incr chunk hmn hmx hdiff hH hincr (by omega) hfew htp1 htp2]
        rw [hcand, ht2]
        rfl
      · rintro ⟨a, b⟩ ⟨ha, hb, h2⟩
        rw [dist_last_and D Flavor.balanced sched check b nth a nteams lower upper incr
          chunk hmn hmx hdiff hH hincr ha hfew htp1 htp2] at h2
        rw [Bool.and_eq_true] at h2
        obtain ⟨hcanda, hcond⟩ := h2
        have ha' : a = nteams - 1 := by
          simp only [distTeamLastCand] at hcanda
          rw [balancedBranch_lastflag] at hcanda
          exact of_decide_eq_true hcanda
        subst ha'
        have hb' := htu b ⟨hb, hcond⟩
        rw [hb']
    | greedy =>
      by_cases hone : nteams = 1
      · subst hone
        have hp1 := greedyBranch_pos_one D lower upper incr
          (distTripCount D lower upper incr) hmn hmx hincr (by omega) htp1 htp2
        have hRchar1 : (distTeamRange D Flavor.greedy 0 1 lower upper incr).1 = lower :=
          hp1.1
        have hRchar2 : (distTeamRange D Flavor.greedy 0 1 lower upper incr).2
            = lower + ((distTripCount D lower upper incr : Int) - 1) * incr :=
          hp1.2.1
        have h0' : 0 ≤ ((distTripCount D lower upper incr : Int) - 1) * incr :=
          mul_nonneg (by omega) (le_of_lt hincr)
        have hkey : lower ≤ (distTeamRange D Flavor.greedy 0 1 lower upper incr).1
            ∧ (distTeamRange D Flavor.greedy 0 1 lower upper incr).1
              ≤ (distTeamRange D Flavor.greedy 0 1 lower upper incr).2
            ∧ (distTeamRange D Flavor.greedy 0 1 lower upper incr).2 ≤ upper := by
          rw [hRchar1, hRchar2]
          generalize hE : ((distTripCount D lower upper incr : Int) - 1) * incr = E
            at h0' htp1
          exact ⟨le_refl lower, by omega, by omega⟩
        obtain ⟨hk1, hk2, hk3⟩ := hkey
        obtain ⟨t, ⟨ht1, ht2⟩, htu⟩ := distThreadLastCond_unique D Flavor.greedy sched nth
          (distTeamRange D Flavor.greedy 0 1 lower upper incr).1
          (distTeamRange D Flavor.greedy 0 1 lower upper incr).2 incr chunk
          ⟨by omega, by omega, hincr, hST, by omega, by omega, by omega⟩
          (by omega) (by omega) hnth
        have hcand : distTeamLastCand D Flavor.greedy 0 1 lower upper incr = true := by
          simp only [distTeamLastCand]
          exact hp1.2.2
        refine ⟨(0, t), ⟨by omega, ht1, ?_⟩, ?_⟩
        · rw [dist_last_and D Flavor.greedy sched check t nth 0 1 lower upper incr chunk
            hmn hmx hdiff hH hincr (by omega) hfew htp1 htp2]
          rw [hcand, ht2]
          rfl
        · rintro ⟨a, b⟩ ⟨ha, hb, h2⟩
          have ha' : a = 0 := by omega
          subst ha'
          rw [dist_last_and D Flavor.greedy sched check b nth 0 1 lower upper incr chunk
            hmn hmx hdiff hH hincr (by omega) hfew htp1 htp2] at h2
          rw [Bool.and_eq_true] at h2
          obtain ⟨hcanda, hcond⟩ := h2
          have hb' := htu b ⟨hb, hcond⟩
          rw [hb']
      · have hnt2 : 2 ≤ nteams := by omega
        have htcn : nteams ≤ distTripCount D lower upper incr := by omega
        have hc1 : 1 ≤ gChunk (distTripCount D lower upper incr) nteams :=
          gChunk_pos (by omega) htcn
        have hcov : distTripCount D lower upper incr
            ≤ nteams * gChunk (distTripCount D lower upper incr) nteams :=
          le_nth_mul_gChunk (by omega)
        obtain ⟨ts, ⟨hts1, hts2, hts3⟩, hstu⟩ := straddle_unique hc1 (by omega) hcov
        have hstart : ∀ y : Nat, y * gChunk (distTripCount D lower upper incr) nteams
            < distTripCount D lower upper incr →
            lower + ((y * gChunk (distTripCount D lower upper incr) nteams : Nat) : Int)
              * incr ≤ upper := by
          intro y hy
          have hyc : ((y * gChunk (distTripCount D lower upper incr) nteams : Nat) : Int)
              ≤ (distTripCount D lower upper incr : Int) - 1 := by omega
          have hmul : ((y * gChunk (distTripCount D lower upper incr) nteams : Nat) : Int)
                * incr
              ≤ ((distTripCount D lower upper incr : Int) - 1) * incr :=
            mul_le_mul_of_nonneg_right hyc (le_of_lt hincr)
          omega
        have hin := greedyBranch_pos_in D ts nteams lower upper incr
          (distTripCount D lower upper incr) hmn hmx hdiff hincr hnt2 htcn htp1 htp2
          (hstart ts hts2)
        have hRchar1 : (distTeamRange D Flavor.greedy ts nteams lower upper incr).1
            = lower + ((ts * gChunk (distTripCount D lower upper incr) nteams : Nat) : Int)
              * incr := hin.1
        have hRchar2 : (distTeamRange D Flavor.greedy ts nteams lower upper incr).2
            = min (lower + ((((ts + 1) * gChunk (distTripCount D lower upper incr) nteams
                : Nat) : Int) - 1) * incr) upper := hin.2.1
        have hkey : lower ≤ (distTeamRange D Flavor.greedy ts nteams lower upper incr).1
            ∧ (distTeamRange D Flavor.greedy ts nteams lower upper incr).1
              ≤ (distTeamRange D Flavor.greedy ts nteams lower upper incr).2
            ∧ (distTeamRange D Flavor.greedy ts nteams lower upper incr).2 ≤ upper := by
          rw [hRchar1, hRchar2]
          have hgle : ((ts * gChunk (distTripCount D lower upper incr) nteams : Nat) : Int)
              ≤ (((ts + 1) * gChunk (distTripCount D lower upper incr) nteams : Nat) : Int)
                - 1 := by
            have e : (ts + 1) * gChunk (distTripCount D lower upper incr) nteams
                = ts * gChunk (distTripCount D lower upper incr) nteams
                  + gChunk (distTripCount D lower upper incr) nteams := by ring
            omega
          have hA0 : 0 ≤ ((ts * gChunk (distTripCount D lower upper incr) nteams
              : Nat) : Int) * incr :=
            mul_nonneg (by positivity) (le_of_lt hincr)
          have hAB : ((ts * gChunk (distTripCount D lower upper incr) nteams : Nat) : Int)
                * incr
              ≤ ((((ts + 1) * gChunk (distTripCount D lower upper incr) nteams
                : Nat) : Int) - 1) * incr :=
            mul_le_mul_of_nonneg_right hgle (le_of_lt hincr)
          have hsy := hstart ts hts2
          generalize hA : ((ts * gChunk (distTripCount D lower upper incr) nteams
              : Nat) : Int) * incr = A at hA0 hAB hsy ⊢
          generalize hB : ((((ts + 1) * gChunk (distTripCount D lower upper incr) nteams
              : Nat) : Int) - 1) * incr = B at hAB ⊢
          exact ⟨by omega, by omega, by omega⟩
        obtain ⟨hk1, hk2, hk3⟩ := hkey
        obtain ⟨t, ⟨ht1, ht2⟩, htu⟩ := distThreadLastCond_unique D Flavor.greedy sched nth
          (distTeamRange D Flavor.greedy ts nteams lower upper incr).1
          (distTeamRange D Flavor.greedy ts nteams lower upper incr).2 incr chunk
          ⟨by omega, by omega, hincr, hST, by omega, by omega, by omega⟩
          (by omega) (by omega) hnth
        have hcand : distTeamLastCand D Flavor.greedy ts nteams lower upper incr = true := by
          simp only [distTeamLastCand]
          rw [hin.2.2]
          exact decide_eq_true hts3
        refine ⟨(ts, t), ⟨hts1, ht1, ?_⟩, ?_⟩
        · rw [dist_last_and D Flavor.greedy sched check t nth ts nteams lower upper incr
            chunk hmn hmx hdiff hH hincr hts1 hfew htp1 htp2]
          rw [hcand, ht2]
          rfl
        · rintro ⟨a, b⟩ ⟨ha, hb, h2⟩
          rw [dist_last_and D Flavor.greedy sched check b nth a nteams lower upper incr
            chunk hmn hmx hdiff hH hincr ha hfew htp1 htp2] at h2
          rw [Bool.and_eq_true] at h2
          obtain ⟨hcanda, hcond⟩ := h2
          have ha' : a = ts := by
            simp only [distTeamLastCand] at hcanda
            rcases le_or_lt
                (lower + ((a * gChunk (distTripCount D lower upper incr) nteams : Nat)
                  : Int) * incr) upper with hs | hs
            · have hina := greedyBranch_pos_in D a nteams lower upper incr
                (distTripCount D lower upper incr) hmn hmx hdiff hincr hnt2 htcn htp1
                htp2 hs
              rw [hina.2.2] at hcanda
              have hylt : a * gChunk (distTripCount D lower upper incr) nteams
                  < distTripCount D lower upper incr := by
                by_contra hcon
                push_neg at hcon
                have hm2 : ((distTripCount D lower upper incr : Nat) : Int) * incr
                    ≤ ((a * gChunk (distTripCount D lower upper incr) nteams : Nat)
                      : Int) * incr :=
                  mul_le_mul_of_nonneg_right (by exact_mod_cast hcon) (le_of_lt hincr)
                omega
              exact hstu a ⟨ha, hylt, of_decide_eq_true hcanda⟩
            · have houta := greedyBranch_pos_out D a nteams lower upper incr
                (distTripCount D lower upper incr) hmn hmx hdiff hH hincr hnt2 htcn ha
                htp1 hs
              rw [houta.2.2] at hcanda
              exact Bool.noConfusion hcanda
          subst ha'
          have hb' := htu b ⟨hb, hcond⟩
          rw [hb']

end KmpSched

namespace KmpSched

/-- Normal form of the greedy branch with a single executor and a negative
increment: the sole executor receives the whole descending trip space and
the raw last-iteration condition holds. -/
theorem greedyBranch_neg_one (D : Domain) (lower upper incr : Int) (tc : Nat)
    (hmn : D.mn ≤ upper) (hmx : lower ≤ D.mx)
    (hincr : incr < 0) (htc : 2 ≤ tc)
    (htp1 : ((tc : Int) - 1) * (-incr) ≤ lower - upper)
    (htp2 : lower - upper < (tc : Int) * (-incr)) :
    (greedyBranch D 0 1 lower upper incr tc).1 = lower ∧
    (greedyBranch D 0 1 lower upper incr tc).2.1 = lower + ((tc : Int) - 1) * incr ∧
    (greedyBranch D 0 1 lower upper incr tc).2.2 = true := by
  have hmn0 := D.mn_nonpos
  have hincr1' : -incr ≤ ((tc : Int) - 1) * (-incr) := by
    have := mul_le_mul_of_nonneg_right (show (1 : Int) ≤ (tc : Int) - 1 by omega)
      (show (0 : Int) ≤ -incr by omega)
    omega
  have ebr : ((tc : Int) - 1) * incr = -(((tc : Int) - 1) * (-incr)) := by ring
  have e2 : (tc : Int) * (-incr) = ((tc : Int) - 1) * (-incr) + (-incr) := by ring
  have hE0 : ((tc : Int) - 1) * incr ≤ 0 := by omega
  have hUlb : upper ≤ lower + ((tc : Int) - 1) * incr := by omega
  have hgceq : (tc / 1 + if tc % 1 = 0 then 0 else 1) = tc := by
    simp [Nat.div_one, Nat.mod_one]
  simp only [greedyBranch, Nat.cast_zero, zero_mul, add_zero]
  rw [if_neg (not_lt.mpr (le_of_lt hincr)), hgceq]
  have hlo : D.wrapT lower = lower := D.wrapT_eq_self (by omega) hmx
  rw [hlo, D.wrapT_absorb_mid]
  have e3 : lower + (tc : Int) * incr - incr = lower + ((tc : Int) - 1) * incr := by ring
  rw [e3]
  have hU : D.wrapT (lower + ((tc : Int) - 1) * incr) = lower + ((tc : Int) - 1) * incr :=
    D.wrapT_eq_self (by omega) (by omega)
  rw [hU]
  rw [if_neg (by omega : ¬ (lower < lower + ((tc : Int) - 1) * incr))]
  refine ⟨rfl, ?_, ?_⟩
  · rw [if_neg (by omega : ¬ (lower + ((tc : Int) - 1) * incr < upper))]
  · have hui : D.wrapT (upper - incr) = upper - incr :=
      D.wrapT_eq_self (by omega) (by omega)
    rw [hui]
    exact decide_eq_true ⟨by omega, by omega⟩

end KmpSched

namespace KmpSched

theorem forStatic_last_unique_neg (D : Domain) (flavor : Flavor) (sched : SchedType)
    (check : Bool) (nth : Nat) (lower upper strideIn incr chunk : Int)
    (hL : LegalNeg D lower upper incr) (hH : D.mn ≤ 2 * upper - lower)
    (hnth : 1 ≤ nth) :
    ∃! tid : Nat, tid < nth ∧
      (forStaticInit D flavor check false sched tid nth lower upper strideIn
          incr chunk).last = true := by
  obtain ⟨hmn, hmx, hincr, hST, hle, hdiff, hsize⟩ := hL
  have hz : ¬ zeroTrip incr lower upper := by
    unfold zeroTrip
    rw [if_neg (by omega : ¬ (0 : Int) < incr)]
    omega
  by_cases hone : nth = 1
  · subst hone
    refine ⟨0, ⟨by omega, ?_⟩, ?_⟩
    · rw [forStaticInit_serial D flavor check false sched 0 1 lower upper strideIn
        incr chunk hz (Or.inr rfl)]
    · rintro y ⟨hy, h2⟩
      omega
  · have hser : ¬ ((false = true) ∨ nth = 1) := by simp [hone]
    have hnth2 : 2 ≤ nth := by omega
    obtain ⟨htc1, htp1, htp2, htcsz⟩ :=
      legalNeg_trip_bounds D ⟨hmn, hmx, hincr, hST, hle, hdiff, hsize⟩
    cases sched with
    | chunked =>
      refine ⟨D.toU ((tripCount D lower upper incr : Int) - 1)
          / D.toU (if chunk < 1 then 1 else chunk) % nth,
        ⟨Nat.mod_lt _ (by omega), ?_⟩, ?_⟩
      · rw [forStaticInit_chunked D flavor check false _ nth lower upper strideIn
          incr chunk hz hser]
        rw [chunkedBranch_lastflag]
        exact decide_eq_true rfl
      · rintro y ⟨hy, h2⟩
        rw [forStaticInit_chunked D flavor check false _ nth lower upper strideIn
          incr chunk hz hser] at h2
        rw [chunkedBranch_lastflag] at h2
        exact of_decide_eq_true h2
    | static =>
      by_cases hlt : tripCount D lower upper incr < nth
      · have htoU : D.toU ((tripCount D lower upper incr : Int) - 1)
            = tripCount D lower upper incr - 1 := by
          have h := @Domain.toU_eq D ((tripCount D lower upper incr : Int) - 1)
            (by omega) (by omega)
          omega
        refine ⟨tripCount D lower upper incr - 1, ⟨by omega, ?_⟩, ?_⟩
        · rw [forStaticInit_fewer D flavor check false _ nth lower upper strideIn
            incr chunk hz hser hlt]
          rw [fewerBranch_last, htoU]
          exact decide_eq_true rfl
        · rintro y ⟨hy, h2⟩
          rw [forStaticInit_fewer D flavor check false _ nth lower upper strideIn
            incr chunk hz hser hlt] at h2
          rw [fewerBranch_last, htoU] at h2
          exact of_decide_eq_true h2
      · cases flavor with
        | balanced =>
          refine ⟨nth - 1, ⟨by omega, ?_⟩, ?_⟩
          · rw [forStaticInit_balanced D check false _ nth lower upper strideIn
              incr chunk hz hser hlt]
            rw [balancedBranch_lastflag]
            exact decide_eq_true rfl
          · rintro y ⟨hy, h2⟩
            rw [forStaticInit_balanced D check false _ nth lower upper strideIn
              incr chunk hz hser hlt] at h2
            rw [balancedBranch_lastflag] at h2
            exact of_decide_eq_true h2
        | greedy =>
          have htcn : nth ≤ tripCount D lower upper incr := by omega
          have hc1 : 1 ≤ gChunk (tripCount D lower upper incr) nth :=
            gChunk_pos (by omega) htcn
          have hcov : tripCount D lower upper incr
              ≤ nth * gChunk (tripCount D lower upper incr) nth :=
            le_nth_mul_gChunk (by omega)
          obtain ⟨t, ⟨ht1, ht2, ht3⟩, htu⟩ := straddle_unique hc1 (by omega) hcov
          have hstart : ∀ y : Nat, y * gChunk (tripCount D lower upper incr) nth
              < tripCount D lower upper incr →
              upper ≤ lower
                + ((y * gChunk (tripCount D lower upper incr) nth : Nat) : Int) * incr := by
            intro y hy
            have hyc : ((y * gChunk (tripCount D lower upper incr) nth : Nat) : Int)
                ≤ (tripCount D lower upper incr : Int) - 1 := by omega
            have hmul : ((y * gChunk (tripCount D lower upper incr) nth : Nat) : Int)
                  * (-incr)
                ≤ ((tripCount D lower upper incr : Int) - 1) * (-incr) :=
              mul_le_mul_of_nonneg_right hyc (by omega)
            have ebr : ((y * gChunk (tripCount D lower upper incr) nth : Nat) : Int) * incr
                = -(((y * gChunk (tripCount D lower upper incr) nth : Nat) : Int)
                    * (-incr)) := by ring
            omega
          refine ⟨t, ⟨ht1, ?_⟩, ?_⟩
          · rw [forStaticInit_greedy D check false t nth lower upper strideIn
              incr chunk hz hser hlt]
            have hin := greedyBranch_neg_in D t nth lower upper incr
              (tripCount D lower upper incr) hmn hmx hdiff hincr hnth2 htcn htp1 htp2
              (hstart t ht2)
            rw [hin.2.2]
            exact decide_eq_true ht3
          · rintro y ⟨hy, h2⟩
            rw [forStaticInit_greedy D check false y nth lower upper strideIn
              incr chunk hz hser hlt] at h2
            rcases le_or_lt upper
                (lower + ((y * gChunk (tripCount D lower upper incr) nth : Nat) : Int)
                  * incr) with hs | hs
            · have hin := greedyBranch_neg_in D y nth lower upper incr
                (tripCount D lower upper incr) hmn hmx hdiff hincr hnth2 htcn htp1 htp2 hs
              rw [hin.2.2] at h2
              have hylt : y * gChunk (tripCount D lower upper incr) nth
                  < tripCount D lower upper incr := by
                by_contra hcon
                push_neg at hcon
                have hm2 : ((tripCount D lower upper incr : Nat) : Int) * (-incr)
                    ≤ ((y * gChunk (tripCount D lower upper incr) nth : Nat) : Int)
                      * (-incr) :=
                  mul_le_mul_of_nonneg_right (by exact_mod_cast hcon) (by omega)
                have ebr : ((y * gChunk (tripCount D lower upper incr) nth : Nat) : Int)
                      * incr
                    = -(((y * gChunk (tripCount D lower upper incr) nth : Nat) : Int)
                        * (-incr)) := by ring
                omega
              exact htu y ⟨hy, hylt, of_decide_eq_true h2⟩
            · have hout := greedyBranch_neg_out D y nth lower upper incr
                (tripCount D lower upper incr) hmn hmx hdiff hH hincr hnth2 htcn hy htp1 hs
              rw [hout.2.2] at h2
              exact Bool.noConfusion h2

end KmpSched

namespace KmpSched

theorem distThreadLastCond_unique_neg (D : Domain) (flavor : Flavor) (sched : SchedType)
    (nth : Nat) (lo1 upD incr chunk : Int)
    (hL : LegalNeg D lo1 upD incr) (hD : lo1 - upD < 2 ^ (D.width - 1))
    (hH : D.mn ≤ 2 * upD - lo1) (hnth : 1 ≤ nth) :
    ∃! tid : Nat, tid < nth ∧
      distThreadLastCond D flavor sched tid nth lo1 upD incr chunk = true := by
  obtain ⟨hmn, hmx, hincr, hST, hle, hdiff, hsize⟩ := hL
  have htceq : tripCount D lo1 upD incr = distTripCount D lo1 upD incr :=
    tripCount_eq_distTripCount_neg D (by omega) hD hincr hST
  obtain ⟨htc1, htp1, htp2, htcsz⟩ :=
    legalNeg_trip_bounds D ⟨hmn, hmx, hincr, hST, hle, hdiff, hsize⟩
  rw [htceq] at htc1 htp1 htp2 htcsz
  cases sched with
  | chunked =>
    refine ⟨D.toU ((distTripCount D lo1 upD incr : Int) - 1)
        / D.toU (if chunk < 1 then 1 else chunk) % nth,
      ⟨Nat.mod_lt _ (by omega), ?_⟩, ?_⟩
    · simp only [distThreadLastCond]
      rw [chunkedBranch_lastflag]
      exact decide_eq_true rfl
    · rintro y ⟨hy, h2⟩
      simp only [distThreadLastCond] at h2
      rw [chunkedBranch_lastflag] at h2
      exact of_decide_eq_true h2
  | static =>
    by_cases hfew : distTripCount D lo1 upD incr ≤ nth
    · have htoU : D.toU ((distTripCount D lo1 upD incr : Int) - 1)
          = distTripCount D lo1 upD incr - 1 := by
        have h := @Domain.toU_eq D ((distTripCount D lo1 upD incr : Int) - 1)
          (by omega) (by omega)
        omega
      refine ⟨distTripCount D lo1 upD incr - 1, ⟨by omega, ?_⟩, ?_⟩
      · simp only [distThreadLastCond]
        rw [if_pos hfew, htoU]
        exact decide_eq_true rfl
      · rintro y ⟨hy, h2⟩
        simp only [distThreadLastCond] at h2
        rw [if_pos hfew, htoU] at h2
        exact of_decide_eq_true h2
    · cases flavor with
      | balanced =>
        refine ⟨nth - 1, ⟨by omega, ?_⟩, ?_⟩
        · simp only [distThreadLastCond]
          rw [if_neg hfew, balancedBranch_lastflag]
          exact decide_eq_true rfl
        · rintro y ⟨hy, h2⟩
          simp only [distThreadLastCond] at h2
          rw [if_neg hfew, balancedBranch_lastflag] at h2
          exact of_decide_eq_true h2
      | greedy =>
        by_cases hone : nth = 1
        · subst hone
          refine ⟨0, ⟨by omega, ?_⟩, ?_⟩
          · simp only [distThreadLastCond]
            rw [if_neg hfew]
            exact (greedyBranch_neg_one D lo1 upD incr
              (distTripCount D lo1 upD incr) hmn hmx hincr (by omega) htp1 htp2).2.2
          · rintro y ⟨hy, h2⟩
            omega
        · have hnth2 : 2 ≤ nth := by omega
          have htcn : nth ≤ distTripCount D lo1 upD incr := by omega
          have hc1 : 1 ≤ gChunk (distTripCount D lo1 upD incr) nth :=
            gChunk_pos (by omega) htcn
          have hcov : distTripCount D lo1 upD incr
              ≤ nth * gChunk (distTripCount D lo1 upD incr) nth :=
            le_nth_mul_gChunk (by omega)
          obtain ⟨t, ⟨ht1, ht2, ht3⟩, htu⟩ := straddle_unique hc1 (by omega) hcov
          have hstart : ∀ y : Nat, y * gChunk (distTripCount D lo1 upD incr) nth
              < distTripCount D lo1 upD incr →
              upD ≤ lo1
                + ((y * gChunk (distTripCount D lo1 upD incr) nth : Nat) : Int) * incr := by
            intro y hy
            have hyc : ((y * gChunk (distTripCount D lo1 upD incr) nth : Nat) : Int)
                ≤ (distTripCount D lo1 upD incr : Int) - 1 := by omega
            have hmul : ((y * gChunk (distTripCount D lo1 upD incr) nth : Nat) : Int)
                  * (-incr)
                ≤ ((distTripCount D lo1 upD incr : Int) - 1) * (-incr) :=
              mul_le_mul_of_nonneg_right hyc (by omega)
            have ebr : ((y * gChunk (distTripCount D lo1 upD incr) nth : Nat) : Int) * incr
                = -(((y * gChunk (distTripCount D lo1 upD incr) nth : Nat) : Int)
                    * (-incr)) := by ring
            omega
          refine ⟨t, ⟨ht1, ?_⟩, ?_⟩
          · simp only [distThreadLastCond]
            rw [if_neg hfew]
            have hin := greedyBranch_neg_in D t nth lo1 upD incr
              (distTripCount D lo1 upD incr) hmn hmx hdiff hincr hnth2 htcn htp1 htp2
              (hstart t ht2)
            rw [hin.2.2]
            exact decide_eq_true ht3
          · rintro y ⟨hy, h2⟩
            simp only [distThreadLastCond] at h2
            rw [if_neg hfew] at h2
            rcases le_or_lt upD
                (lo1 + ((y * gChunk (distTripCount D lo1 upD incr) nth : Nat) : Int)
                  * incr) with hs | hs
            · have hin := greedyBranch_neg_in D y nth lo1 upD incr
                (distTripCount D lo1 upD incr) hmn hmx hdiff hincr hnth2 htcn htp1 htp2 hs
              rw [hin.2.2] at h2
              have hylt : y * gChunk (distTripCount D lo1 upD incr) nth
                  < distTripCount D lo1 upD incr := by
                by_contra hcon
                push_neg at hcon
                have hm2 : ((distTripCount D lo1 upD incr : Nat) : Int) * (-incr)
                    ≤ ((y * gChunk (distTripCount D lo1 upD incr) nth : Nat) : Int)
                      * (-incr) :=
                  mul_le_mul_of_nonneg_right (by exact_mod_cast hcon) (by omega)
                have ebr : ((y * gChunk (distTripCount D lo1 upD incr) nth : Nat) : Int)
                      * incr
                    = -(((y * gChunk (distTripCount D lo1 upD incr) nth : Nat) : Int)
                        * (-incr)) := by ring
                omega
              exact htu y ⟨hy, hylt, of_decide_eq_true h2⟩
            · have hout := greedyBranch_neg_out D y nth lo1 upD incr
                (distTripCount D lo1 upD incr) hmn hmx hdiff hH hincr hnth2 htcn hy htp1 hs
              rw [hout.2.2] at h2
              exact Bool.noConfusion h2

end KmpSched

namespace KmpSched

theorem dist_last_and_neg (D : Domain) (flavor : Flavor) (sched : SchedType) (check : Bool)
    (tid nth team_id nteams : Nat) (lower upper incr chunk : Int)
    (hmn : D.mn ≤ upper) (hmx : lower ≤ D.mx) (hdiff : lower - upper ≤ D.mx)
    (hH : D.mn ≤ 2 * upper - lower) (hincr : incr < 0)
    (hteam : team_id < nteams)
    (hfew : nteams < distTripCount D lower upper incr)
    (htp1 : ((distTripCount D lower upper incr : Int) - 1) * (-incr) ≤ lower - upper)
    (htp2 : lower - upper < (distTripCount D lower upper incr : Int) * (-incr)) :
    (distForStaticInit D flavor check sched tid nth team_id nteams lower upper
        incr chunk).last
      = (distTeamLastCand D flavor team_id nteams lower upper incr
          && distThreadLastCond D flavor sched tid nth
               (distTeamRange D flavor team_id nteams lower upper incr).1
               (distTeamRange D flavor team_id nteams lower upper incr).2 incr chunk) := by
  cases flavor with
  | balanced =>
    simp only [distForStaticInit, distTeamLastCand, distTeamRange]
    rw [if_neg (by omega : ¬ distTripCount D lower upper incr ≤ nteams)]
    rw [distThreadPhase_last]
  | greedy =>
    simp only [distForStaticInit, distTeamLastCand, distTeamRange]
    rw [if_neg (by omega : ¬ distTripCount D lower upper incr ≤ nteams)]
    simp only [if_neg (not_lt.mpr (le_of_lt hincr))]
    by_cases hone : nteams = 1
    · have h0 : team_id = 0 := by omega
      subst h0
      subst hone
      have hp1 := greedyBranch_neg_one D lower upper incr
        (distTripCount D lower upper incr) hmn hmx hincr (by omega) htp1 htp2
      have hne : ¬ ((greedyBranch D 0 1 lower upper incr
            (distTripCount D lower upper incr)).1
          < (greedyBranch D 0 1 lower upper incr
            (distTripCount D lower upper incr)).2.1) := by
        rw [hp1.1, hp1.2.1]
        have h0' : 0 ≤ ((distTripCount D lower upper incr : Int) - 1) * (-incr) :=
          mul_nonneg (by omega) (by omega)
        have ebr : ((distTripCount D lower upper incr : Int) - 1) * incr
            = -(((distTripCount D lower upper incr : Int) - 1) * (-incr)) := by ring
        omega
      rw [if_neg hne, distThreadPhase_last]
    · have hnt2 : 2 ≤ nteams := by omega
      have htcn : nteams ≤ distTripCount D lower upper incr := by omega
      rcases le_or_lt upper
          (lower + ((team_id * gChunk (distTripCount D lower upper incr) nteams : Nat)
            : Int) * incr) with hs | hs
      · have hin := greedyBranch_neg_in D team_id nteams lower upper incr
          (distTripCount D lower upper incr) hmn hmx hdiff hincr hnt2 htcn htp1 htp2 hs
        have hne : ¬ ((greedyBranch D team_id nteams lower upper incr
              (distTripCount D lower upper incr)).1
            < (greedyBranch D team_id nteams lower upper incr
              (distTripCount D lower upper incr)).2.1) := by
          rw [hin.1, hin.2.1]
          have hgle : ((team_id * gChunk (distTripCount D lower upper incr) nteams : Nat)
                : Int)
              ≤ (((team_id + 1) * gChunk (distTripCount D lower upper incr) nteams : Nat)
                : Int) - 1 := by
            have hc1 : 1 ≤ gChunk (distTripCount D lower upper incr) nteams :=
              gChunk_pos (by omega) htcn
            have e : (team_id + 1) * gChunk (distTripCount D lower upper incr) nteams
                = team_id * gChunk (distTripCount D lower upper incr) nteams
                  + gChunk (distTripCount D lower upper incr) nteams := by ring
            omega
          have hmono : ((((team_id + 1) * gChunk (distTripCount D lower upper incr) nteams
                : Nat) : Int) - 1) * incr
              ≤ ((team_id * gChunk (distTripCount D lower upper incr) nteams : Nat)
                : Int) * incr :=
            mul_le_mul_of_nonpos_right hgle (le_of_lt hincr)
          generalize hA : ((team_id * gChunk (distTripCount D lower upper incr) nteams
              : Nat) : Int) * incr = A at hmono hs ⊢
          generalize hB : ((((team_id + 1) * gChunk (distTripCount D lower upper incr)
              nteams : Nat) : Int) - 1) * incr = B at hmono ⊢
          omega
        rw [if_neg hne, distThreadPhase_last]
      · have hout := greedyBranch_neg_out D team_id nteams lower upper incr
          (distTripCount D lower upper incr) hmn hmx hdiff hH hincr hnt2 htcn hteam htp1 hs
        have hyes : ((greedyBranch D team_id nteams lower upper incr
              (distTripCount D lower upper incr)).1
            < (greedyBranch D team_id nteams lower upper incr
              (distTripCount D lower upper incr)).2.1) := by
          rw [hout.1, hout.2.1]
          exact hs
        rw [if_pos hyes, hout.2.2, Bool.false_and]

end KmpSched

namespace KmpSched

theorem dist_last_unique_neg (D : Domain) (flavor : Flavor) (sched : SchedType)
    (check : Bool) (nth nteams : Nat) (lower upper incr chunk : Int)
    (hL : LegalNeg D lower upper incr) (hD2 : lower - upper < 2 ^ (D.width - 1))
    (hH : D.mn ≤ 2 * upper - lower) (hnth : 1 ≤ nth) (hnteams : 1 ≤ nteams) :
    ∃! p : Nat × Nat, p.1 < nteams ∧ p.2 < nth ∧
      (distForStaticInit D flavor check sched p.2 nth p.1 nteams lower upper
          incr chunk).last = true := by
  obtain ⟨hmn, hmx, hincr, hST, hle, hdiff, hsize⟩ := hL
  have htceq : tripCount D lower upper incr = distTripCount D lower upper incr :=
    tripCount_eq_distTripCount_neg D (by omega) hD2 hincr hST
  obtain ⟨htc1, htp1, htp2, htcsz⟩ :=
    legalNeg_trip_bounds D ⟨hmn, hmx, hincr, hST, hle, hdiff, hsize⟩
  rw [htceq] at htc1 htp1 htp2 htcsz
  by_cases hfew : distTripCount D lower upper incr ≤ nteams
  · have htoU : D.toU ((distTripCount D lower upper incr : Int) - 1)
        = distTripCount D lower upper incr - 1 := by
      have h := @Domain.toU_eq D ((distTripCount D lower upper incr : Int) - 1)
        (by omega) (by omega)
      omega
    refine ⟨(distTripCount D lower upper incr - 1, 0), ⟨by omega, by omega, ?_⟩, ?_⟩
    · rw [dist_last_few D flavor sched check 0 nth _ nteams lower upper incr chunk hfew,
        htoU]
      exact decide_eq_true ⟨rfl, rfl⟩
    · rintro ⟨a, b⟩ ⟨ha, hb, h2⟩
      rw [dist_last_few D flavor sched check b nth a nteams lower upper incr chunk hfew,
        htoU] at h2
      obtain ⟨h3, h4⟩ := of_decide_eq_true h2
      simp only [Prod.mk.injEq]
      exact ⟨h4, h3⟩
  · push_neg at hfew
    have hE0 : 0 ≤ ((distTripCount D lower upper incr : Int) - 1) * (-incr) :=
      mul_nonneg (by omega) (by omega)
    have ebr : ((distTripCount D lower upper incr : Int) - 1) * incr
        = -(((distTripCount D lower upper incr : Int) - 1) * (-incr)) := by ring
    cases flavor with
    | balanced =>
      have hg1 : D.mn ≤ min lower
          (lower + ((distTripCount D lower upper incr : Int) - 1) * incr) := by
        generalize hF : ((distTripCount D lower upper incr : Int) - 1) * incr = F at ebr ⊢
        generalize hE : ((distTripCount D lower upper incr : Int) - 1) * (-incr) = E
          at ebr hE0 htp1
        omega
      have hg2 : max lower
          (lower + ((distTripCount D lower upper incr : Int) - 1) * incr) ≤ D.mx := by
        generalize hF : ((distTripCount D lower upper incr : Int) - 1) * incr = F at ebr ⊢
        generalize hE : ((distTripCount D lower upper incr : Int) - 1) * (-incr) = E
          at ebr hE0
        omega
      have hRchar1 : (distTeamRange D Flavor.balanced (nteams - 1) nteams lower upper incr).1
          = lower + ((bStart (nteams - 1) nteams (distTripCount D lower upper incr)
              : Nat) : Int) * incr :=
        (balancedBranch_char D (nteams - 1) nteams lower incr
          (distTripCount D lower upper incr) hnteams (by omega) (by omega) hg1 hg2).1
      have hRchar2 : (distTeamRange D Flavor.balanced (nteams - 1) nteams lower upper incr).2
          = lower + (((bStart (nteams - 1) nteams (distTripCount D lower upper incr)
              : Nat) : Int)
            + ((bSize (nteams - 1) nteams (distTripCount D lower upper incr) : Nat) : Int)
            - 1) * incr :=
        (balancedBranch_char D (nteams - 1) nteams lower incr
          (distTripCount D lower upper incr) hnteams (by omega) (by omega) hg1 hg2).2.1
      have hz1 : 1 ≤ bSize (nteams - 1) nteams (distTripCount D lower upper incr) :=
        bSize_pos hnteams (by omega)
      have hsum : bStart (nteams - 1) nteams (distTripCount D lower upper incr)
          + bSize (nteams - 1) nteams (distTripCount D lower upper incr)
          ≤ distTripCount D lower upper incr :=
        bStart_add_bSize_le hnteams (by omega)
      have hkey : upper
            ≤ (distTeamRange D Flavor.balanced (nteams - 1) nteams lower upper incr).2
          ∧ (distTeamRange D Flavor.balanced (nteams - 1) nteams lower upper incr).2
            ≤ (distTeamRange D Flavor.balanced (nteams - 1) nteams lower upper incr).1
          ∧ (distTeamRange D Flavor.balanced (nteams - 1) nteams lower upper incr).1
            ≤ lower := by
        rw [hRchar1, hRchar2]
        have hc1 : ((bStart (nteams - 1) nteams (distTripCount D lower upper incr)
              : Nat) : Int)
            ≤ ((bStart (nteams - 1) nteams (distTripCount D lower upper incr) : Nat) : Int)
              + ((bSize (nteams - 1) nteams (distTripCount D lower upper incr) : Nat) : Int)
              - 1 := by omega
        have hc2 : ((bStart (nteams - 1) nteams (distTripCount D lower upper incr)
              : Nat) : Int)
              + ((bSize (nteams - 1) nteams (distTripCount D lower upper incr) : Nat) : Int)
              - 1
            ≤ (distTripCount D lower upper incr : Int) - 1 := by omega
        have hA0 : ((bStart (nteams - 1) nteams (distTripCount D lower upper incr)
              : Nat) : Int) * incr ≤ 0 :=
          mul_nonpos_of_nonneg_of_nonpos (by positivity) (le_of_lt hincr)
        have hAB : (((bStart (nteams - 1) nteams (distTripCount D lower upper incr)
                : Nat) : Int)
              + ((bSize (nteams - 1) nteams (distTripCount D lower upper incr) : Nat) : Int)
              - 1) * incr
            ≤ ((bStart (nteams - 1) nteams (distTripCount D lower upper incr)
              : Nat) : Int) * incr :=
          mul_le_mul_of_nonpos_right hc1 (le_of_lt hincr)
        have hEB : ((distTripCount D lower upper incr : Int) - 1) * incr
            ≤ (((bStart (nteams - 1) nteams (distTripCount D lower upper incr)
                : Nat) : Int)
              + ((bSize (nteams - 1) nteams (distTripCount D lower upper incr) : Nat) : Int)
              - 1) * incr :=
          mul_le_mul_of_nonpos_right hc2 (le_of_lt hincr)
        generalize hA : ((bStart (nteams - 1) nteams (distTripCount D lower upper incr)
            : Nat) : Int) * incr = A at hA0 hAB ⊢
        generalize hB : (((bStart (nteams - 1) nteams (distTripCount D lower upper incr)
              : Nat) : Int)
            + ((bSize (nteams - 1) nteams (distTripCount D lower upper incr) : Nat) : Int)
            - 1) * incr = B at hAB hEB ⊢
        generalize hF : ((distTripCount D lower upper incr : Int) - 1) * incr = F
          at hEB ebr
        generalize hE : ((distTripCount D lower upper incr : Int) - 1) * (-incr) = E
          at ebr htp1
        exact ⟨by omega, by omega, by omega⟩
      obtain ⟨hk1, hk2, hk3⟩ := hkey
      obtain ⟨t, ⟨ht1, ht2⟩, htu⟩ := distThreadLastCond_unique_neg D Flavor.balanced sched
        nth (distTeamRange D Flavor.balanced (nteams - 1) nteams lower upper incr).1
        (distTeamRange D Flavor.balanced (nteams - 1) nteams lower upper incr).2 incr chunk
        ⟨by omega, by omega, hincr, hST, by omega, by omega, by omega⟩
        (by omega) (by omega) hnth
      have hcand : distTeamLastCand D Flavor.balanced (nteams - 1) nteams lower upper incr
          = true := by
        simp only [distTeamLastCand]
        rw [balancedBranch_lastflag]
        exact decide_eq_true rfl
      refine ⟨(nteams - 1, t), ⟨by omega, ht1, ?_⟩, ?_⟩
      · rw [dist_last_and_neg D Flavor.balanced sched check t nth (nteams - 1) nteams lower
          upper incr chunk hmn hmx hdiff hH hincr (by omega) hfew htp1 htp2]
        rw [hcand, ht2]
        rfl
      · rintro ⟨a, b⟩ ⟨ha, hb, h2⟩
        rw [dist_last_and_neg D Flavor.balanced sched check b nth a nteams lower upper incr
          chunk hmn hmx hdiff hH hincr ha hfew htp1 htp2] at h2
        rw [Bool.and_eq_true] at h2
        obtain ⟨hcanda, hcond⟩ := h2
        have ha' : a = nteams - 1 := by
          simp only [distTeamLastCand] at hcanda
          rw [balancedBranch_lastflag] at hcanda
          exact of_decide_eq_true hcanda
        subst ha'
        have hb' := htu b ⟨hb, hcond⟩
        rw [hb']
    | greedy =>
      by_cases hone : nteams = 1
      · subst hone
        have hp1 := greedyBranch_neg_one D lower upper incr
          (distTripCount D lower upper incr) hmn hmx hincr (by omega) htp1 htp2
        have hRchar1 : (distTeamRange D Flavor.greedy 0 1 lower upper incr).1 = lower :=
          hp1.1
        have hRchar2 : (distTeamRange D Flavor.greedy 0 1 lower upper incr).2
            = lower + ((distTripCount D lower upper incr : Int) - 1) * incr :=
          hp1.2.1
        have hkey : upper ≤ (distTeamRange D Flavor.greedy 0 1 lower upper incr).2
            ∧ (distTeamRange D Flavor.greedy 0 1 lower upper incr).2
              ≤ (distTeamRange D Flavor.greedy 0 1 lower upper incr).1
            ∧ (distTeamRange D Flavor.greedy 0 1 lower upper incr).1 ≤ lower := by
          rw [hRchar1, hRchar2]
          generalize hF : ((distTripCount D lower upper incr : Int) - 1) * incr = F at ebr ⊢
          generalize hE : ((distTripCount D lower upper incr : Int) - 1) * (-incr) = E
            at ebr hE0 htp1
          exact ⟨by omega, by omega, le_refl lower⟩
        obtain ⟨hk1, hk2, hk3⟩ := hkey
        obtain ⟨t, ⟨ht1, ht2⟩, htu⟩ := distThreadLastCond_unique_neg D Flavor.greedy sched
          nth (distTeamRange D Flavor.greedy 0 1 lower upper incr).1
          (distTeamRange D Flavor.greedy 0 1 lower upper incr).2 incr chunk
          ⟨by omega, by omega, hincr, hST, by omega, by omega, by omega⟩
          (by omega) (by omega) hnth
        have hcand : distTeamLastCand D Flavor.greedy 0 1 lower upper incr = true := by
          simp only [distTeamLastCand]
          exact hp1.2.2
        refine ⟨(0, t), ⟨by omega, ht1, ?_⟩, ?_⟩
        · rw [dist_last_and_neg D Flavor.greedy sched check t nth 0 1 lower upper incr
            chunk hmn hmx hdiff hH hincr (by omega) hfew htp1 htp2]
          rw [hcand, ht2]
          rfl
        · rintro ⟨a, b⟩ ⟨ha, hb, h2⟩
          have ha' : a = 0 := by omega
          subst ha'
          rw [dist_last_and_neg D Flavor.greedy sched check b nth 0 1 lower upper incr
            chunk hmn hmx hdiff hH hincr (by omega) hfew htp1 htp2] at h2
          rw [Bool.and_eq_true] at h2
          obtain ⟨hcanda, hcond⟩ := h2
          have hb' := htu b ⟨hb, hcond⟩
          rw [hb']
      · have hnt2 : 2 ≤ nteams := by omega
        have htcn : nteams ≤ distTripCount D lower upper incr := by omega
        have hc1 : 1 ≤ gChunk (distTripCount D lower upper incr) nteams :=
          gChunk_pos (by omega) htcn
        have hcov : distTripCount D lower upper incr
            ≤ nteams * gChunk (distTripCount D lower upper incr) nteams :=
          le_nth_mul_gChunk (by omega)
        obtain ⟨ts, ⟨hts1, hts2, hts3⟩, hstu⟩ := straddle_unique hc1 (by omega) hcov
        have hstart : ∀ y : Nat, y * gChunk (distTripCount D lower upper incr) nteams
            < distTripCount D lower upper incr →
            upper ≤ lower
              + ((y * gChunk (distTripCount D lower upper incr) nteams : Nat) : Int)
                * incr := by
          intro y hy
          have hyc : ((y * gChunk (distTripCount D lower upper incr) nteams : Nat) : Int)
              ≤ (distTripCount D lower upper incr : Int) - 1 := by omega
          have hmul : ((y * gChunk (distTripCount D lower upper incr) nteams : Nat) : Int)
                * (-incr)
              ≤ ((distTripCount D lower upper incr : Int) - 1) * (-incr) :=
            mul_le_mul_of_nonneg_right hyc (by omega)
          have ebr2 : ((y * gChunk (distTripCount D lower upper incr) nteams : Nat) : Int)
                * incr
              = -(((y * gChunk (distTripCount D lower upper incr) nteams : Nat) : Int)
                  * (-incr)) := by ring
          omega
        have hin := greedyBranch_neg_in D ts nteams lower upper incr
          (distTripCount D lower upper incr) hmn hmx hdiff hincr hnt2 htcn htp1 htp2
          (hstart ts hts2)
        have hRchar1 : (distTeamRange D Flavor.greedy ts nteams lower upper incr).1
            = lower + ((ts * gChunk (distTripCount D lower upper incr) nteams : Nat) : Int)
              * incr := hin.1
        have hRchar2 : (distTeamRange D Flavor.greedy ts nteams lower upper incr).2
            = max (lower + ((((ts + 1) * gChunk (distTripCount D lower upper incr) nteams
                : Nat) : Int) - 1) * incr) upper := hin.2.1
        have hkey : upper ≤ (distTeamRange D Flavor.greedy ts nteams lower upper incr).2
            ∧ (distTeamRange D Flavor.greedy ts nteams lower upper incr).2
              ≤ (distTeamRange D Flavor.greedy ts nteams lower upper incr).1
            ∧ (distTeamRange D Flavor.greedy ts nteams lower upper incr).1 ≤ lower := by
          rw [hRchar1, hRchar2]
          have hgle : ((ts * gChunk (distTripCount D lower upper incr) nteams : Nat) : Int)
              ≤ (((ts + 1) * gChunk (distTripCount D lower upper incr) nteams : Nat) : Int)
                - 1 := by
            have e : (ts + 1) * gChunk (distTripCount D lower upper incr) nteams
                = ts * gChunk (distTripCount D lower upper incr) nteams
                  + gChunk (distTripCount D lower upper incr) nteams := by ring
            omega
          have hA0 : ((ts * gChunk (distTripCount D lower upper incr) nteams
              : Nat) : Int) * incr ≤ 0 :=
            mul_nonpos_of_nonneg_of_nonpos (by positivity) (le_of_lt hincr)
          have hAB : ((((ts + 1) * gChunk (distTripCount D lower upper incr) nteams
                : Nat) : Int) - 1) * incr
              ≤ ((ts * gChunk (distTripCount D lower upper incr) nteams : Nat) : Int)
                * incr :=
            mul_le_mul_of_nonpos_right hgle (le_of_lt hincr)
          have hsy := hstart ts hts2
          generalize hA : ((ts * gChunk (distTripCount D lower upper incr) nteams
              : Nat) : Int) * incr = A at hA0 hAB hsy ⊢
          generalize hB : ((((ts + 1) * gChunk (distTripCount D lower upper incr) nteams
              : Nat) : Int) - 1) * incr = B at hAB ⊢
          exact ⟨by omega, by omega, by omega⟩
        obtain ⟨hk1, hk2, hk3⟩ := hkey
        obtain ⟨t, ⟨ht1, ht2⟩, htu⟩ := distThreadLastCond_unique_neg D Flavor.greedy sched
          nth (distTeamRange D Flavor.greedy ts nteams lower upper incr).1
          (distTeamRange D Flavor.greedy ts nteams lower upper incr).2 incr chunk
          ⟨by omega, by omega, hincr, hST, by omega, by omega, by omega⟩
          (by omega) (by omega) hnth
        have hcand : distTeamLastCand D Flavor.greedy ts nteams lower upper incr = true := by
          simp only [distTeamLastCand]
          rw [hin.2.2]
          exact decide_eq_true hts3
        refine ⟨(ts, t), ⟨hts1, ht1, ?_⟩, ?_⟩
        · rw [dist_last_and_neg D Flavor.greedy sched check t nth ts nteams lower upper
            incr chunk hmn hmx hdiff hH hincr hts1 hfew htp1 htp2]
          rw [hcand, ht2]
          rfl
        · rintro ⟨a, b⟩ ⟨ha, hb, h2⟩
          rw [dist_last_and_neg D Flavor.greedy sched check b nth a nteams lower upper incr
            chunk hmn hmx hdiff hH hincr ha hfew htp1 htp2] at h2
          rw [Bool.and_eq_true] at h2
          obtain ⟨hcanda, hcond⟩ := h2
          have ha' : a = ts := by
            simp only [distTeamLastCand] at hcanda
            rcases le_or_lt upper
                (lower + ((a * gChunk (distTripCount D lower upper incr) nteams : Nat)
                  : Int) * incr) with hs | hs
            · have hina := greedyBranch_neg_in D a nteams lower upper incr
                (distTripCount D lower upper incr) hmn hmx hdiff hincr hnt2 htcn htp1
                htp2 hs
              rw [hina.2.2] at hcanda
              have hylt : a * gChunk (distTripCount D lower upper incr) nteams
                  < distTripCount D lower upper incr := by
                by_contra hcon
                push_neg at hcon
                have hm2 : ((distTripCount D lower upper incr : Nat) : Int) * (-incr)
                    ≤ ((a * gChunk (distTripCount D lower upper incr) nteams : Nat)
                      : Int) * (-incr) :=
                  mul_le_mul_of_nonneg_right (by exact_mod_cast hcon) (by omega)
                have ebr2 : ((a * gChunk (distTripCount D lower upper incr) nteams
                      : Nat) : Int) * incr
                    = -(((a * gChunk (distTripCount D lower upper incr) nteams : Nat)
                        : Int) * (-incr)) := by ring
                omega
              exact hstu a ⟨ha, hylt, of_decide_eq_true hcanda⟩
            · have houta := greedyBranch_neg_out D a nteams lower upper incr
                (distTripCount D lower upper incr) hmn hmx hdiff hH hincr hnt2 htcn ha
                htp1 hs
              rw [houta.2.2] at hcanda
              exact Bool.noConfusion hcanda
          subst ha'
          have hb' := htu b ⟨hb, hcond⟩
          rw [hb']

end KmpSched

namespace KmpSched

/-- C7: on every non-empty legal iteration space — upward with a positive
increment or downward with a negative one, in either case with headroom so
that greedy start positions do not wrap — exactly one executor index below
the executor count receives a true last-iteration flag from the
single-level solver and all others receive false; in the two-level solver
exactly one (team, thread) pair receives true; and whenever the trip count
exceeds the team count, every thread's final flag equals the logical AND of
its team's team-level last-iteration candidacy and the thread-level
last-iteration condition computed over that team's sub-range. -/
theorem c7_unique_last (D : Domain) (flavor : Flavor) (sched : SchedType)
    (check : Bool) (nth nteams : Nat) (lower upper strideIn incr chunk : Int)
    (hL : LegalPos D lower upper incr ∧ upper - lower < 2 ^ (D.width - 1)
            ∧ 2 * upper - lower ≤ D.mx
          ∨ LegalNeg D lower upper incr ∧ lower - upper < 2 ^ (D.width - 1)
            ∧ D.mn ≤ 2 * upper - lower)
    (hnth : 1 ≤ nth) (hnteams : 1 ≤ nteams) :
    (∃! tid : Nat, tid < nth ∧
        (forStaticInit D flavor check false sched tid nth lower upper strideIn
            incr chunk).last = true)
    ∧ (∃! p : Nat × Nat, p.1 < nteams ∧ p.2 < nth ∧
        (distForStaticInit D flavor check sched p.2 nth p.1 nteams lower upper
            incr chunk).last = true)
    ∧ (∀ team_id tid : Nat, team_id < nteams →
        nteams < distTripCount D lower upper incr →
        (distForStaticInit D flavor check sched tid nth team_id nteams lower upper
            incr chunk).last
          = (distTeamLastCand D flavor team_id nteams lower upper incr
              && distThreadLastCond D flavor sched tid nth
                   (distTeamRange D flavor team_id nteams lower upper incr).1
                   (distTeamRange D flavor team_id nteams lower upper incr).2
                   incr chunk)) := by
  rcases hL with ⟨hLp, hD2, hH⟩ | ⟨hLn, hD2, hH⟩
  · obtain ⟨hmn, hmx, hincr, hST, hle, hdiff, hsize⟩ := hLp
    have htceq := @tripCount_eq_distTripCount_pos D lower upper incr
      (by omega) hD2 hincr hST
    obtain ⟨htc1, htp1, htp2, htcsz⟩ :=
      legalPos_trip_bounds D ⟨hmn, hmx, hincr, hST, hle, hdiff, hsize⟩
    rw [htceq] at htp1 htp2
    exact ⟨forStatic_last_unique D flavor sched check nth lower upper strideIn incr chunk
        ⟨hmn, hmx, hincr, hST, hle, hdiff, hsize⟩ hH hnth,
      dist_last_unique D flavor sched check nth nteams lower upper incr chunk
        ⟨hmn, hmx, hincr, hST, hle, hdiff, hsize⟩ hD2 hH hnth hnteams,
      fun team_id tid hteam hfew =>
        dist_last_and D flavor sched check tid nth team_id nteams lower upper incr chunk
          hmn hmx hdiff hH hincr hteam hfew htp1 htp2⟩
  · obtain ⟨hmn, hmx, hincr, hST, hle, hdiff, hsize⟩ := hLn
    have htceq := @tripCount_eq_distTripCount_neg D lower upper incr
      (by omega) hD2 hincr hST
    obtain ⟨htc1, htp1, htp2, htcsz⟩ :=
      legalNeg_trip_bounds D ⟨hmn, hmx, hincr, hST, hle, hdiff, hsize⟩
    rw [htceq] at htp1 htp2
    exact ⟨forStatic_last_unique_neg D flavor sched check nth lower upper strideIn incr
        chunk ⟨hmn, hmx, hincr, hST, hle, hdiff, hsize⟩ hH hnth,
      dist_last_unique_neg D flavor sched check nth nteams lower upper incr chunk
        ⟨hmn, hmx, hincr, hST, hle, hdiff, hsize⟩ hD2 hH hnth hnteams,
      fun team_id tid hteam hfew =>
        dist_last_and_neg D flavor sched check tid nth team_id nteams lower upper incr
          chunk hmn hmx hdiff hH hincr hteam hfew htp1 htp2⟩

theorem c7_witness :
    (∃! tid : Nat, tid < 3 ∧
        (forStaticInit i8 Flavor.greedy false false SchedType.static tid 3 0 9 77 1 5).last
          = true)
    ∧ (∃! p : Nat × Nat, p.1 < 2 ∧ p.2 < 3 ∧
        (distForStaticInit i8 Flavor.greedy false SchedType.static p.2 3 p.1 2 0 9 1 5).last
          = true)
    ∧ (∃! tid : Nat, tid < 3 ∧
        (forStaticInit i8 Flavor.greedy false false SchedType.static tid 3 9 0 77
            (-1) 5).last = true) :=
  ⟨(c7_unique_last i8 Flavor.greedy SchedType.static false 3 2 0 9 77 1 5
      (by decide) (by decide) (by decide)).1,
   (c7_unique_last i8 Flavor.greedy SchedType.static false 3 2 0 9 77 1 5
      (by decide) (by decide) (by decide)).2.1,
   (c7_unique_last i8 Flavor.greedy SchedType.static false 3 2 9 0 77 (-1) 5
      (by decide) (by decide) (by decide)).1⟩

end KmpSched
